import Mathlib

/-!
# GoPacktpub-Downloader: the document-assembly pipeline

A shallow embedding of `main.go` (the heading stripper `RemoveHtmlTag`, the
resource rewriter `fixImgInternalSrc`, `FixImgUrlError`, `EmbedEPubImage`, the
orchestrator `DownloadAsEpub`, the cleanup `cleanUpFiles` and `removeTmpFiles`,
and the start of `main`) together with the properties proved about it.

Conventions of the embedding.

* A Go `string` is a `List Char` (`Str`): the text is taken to be valid UTF-8,
  which is what the regular-expression library iterates over; `len` is the
  number of bytes of the encoding (`byteLen`).
* The six regular expressions of the program use only literal text and the two
  operators `.*` and `.*?`.  They are embedded token by token (`Tok`) and run by a
  backtracking matcher with the priorities of the library (leftmost match; `.*`
  prefers the longest run, `.*?` the shortest; `.` is any character but a line
  feed).
* The network, the JSON decoder, the file system and the archive library are
  outside the program; they appear as the environment `Env` and the archive
  state `Epub`.  A request has one outcome per URL and bearer token; a download
  by `grab.Get` has one outcome per call of the run, so that two downloads of
  one file may end differently.
* What cleanup and start-up ask of the operating system (the arguments, whether
  a path exists, the listing of a directory) is the record `Os`; the `os.Remove`
  and `os.Mkdir` calls they issue are kept, in call order, in `Calls`.
* A run is a function from the state before to the state after together with
  the way it ended: a return, a Go panic, or an exit with a status.  The progress
  bar and the console messages are not part of the state.
-/

set_option linter.dupNamespace false

namespace GoPacktpub

/-! ## Strings -/

/-- A Go string, as the sequence of its characters. -/
abbrev Str := List Char

/-- Go `len(s)`: the number of bytes of the UTF-8 encoding of `s`. -/
def byteLen : Str → Nat
  | [] => 0
  | c :: t => c.utf8Size + byteLen t

/-- When `l` starts `s`, what is left of `s` after it. -/
def stripLit : Str → Str → Option Str
  | [], s => some s
  | _ :: _, [] => none
  | c :: l, d :: s => if c = d then stripLit l s else none

/-- Go `unicode.IsSpace`. -/
def isSpace (c : Char) : Bool :=
  c.toNat ∈ [0x09, 0x0A, 0x0B, 0x0C, 0x0D, 0x20, 0x85, 0xA0, 0x1680, 0x2028, 0x2029, 0x202F,
    0x205F, 0x3000] || (0x2000 ≤ c.toNat && c.toNat ≤ 0x200A)

/-- Go `strings.TrimSpace`: leading and trailing white space removed. -/
def TrimSpace (s : Str) : Str :=
  ((s.dropWhile isSpace).reverse.dropWhile isSpace).reverse

/-! ## Regular expressions -/

/-- One token of a pattern: literal text, or `.*` (`greedy = true`) / `.*?`
(`greedy = false`). -/
inductive Tok where
  | lit (l : Str)
  | dotStar (greedy : Bool)
deriving DecidableEq, Repr

/-- A pattern: its tokens in order and, for each capture group `1, 2, ...`, the
index of the token the group encloses. -/
structure Regex where
  toks : List Tok
  groups : List Nat
deriving DecidableEq, Repr

/-- The run `.*?` followed by the rest of the pattern `k`: the shortest run of
characters other than a line feed after which `k` matches. -/
def dotStarLazy {α : Type} (k : Str → Option α) : Str → Option (Str × α)
  | [] => (k []).map (fun a => ([], a))
  | c :: t =>
    match k (c :: t) with
    | some a => some ([], a)
    | none => if c = '\n' then none else (dotStarLazy k t).map (fun r => (c :: r.1, r.2))

/-- The run `.*` followed by the rest of the pattern `k`: the longest run of
characters other than a line feed after which `k` matches. -/
def dotStarGreedy {α : Type} (k : Str → Option α) : Str → Option (Str × α)
  | [] => (k []).map (fun a => ([], a))
  | c :: t =>
    if c = '\n' then (k (c :: t)).map (fun a => ([], a))
    else
      match dotStarGreedy k t with
      | some r => some (c :: r.1, r.2)
      | none => (k (c :: t)).map (fun a => ([], a))

/-- The match of the tokens that starts at the head of the text: the text each
token matched, and the text after the match. -/
def matchAt : List Tok → Str → Option (List Str × Str)
  | [], s => some ([], s)
  | .lit l :: ts, s =>
    match stripLit l s with
    | none => none
    | some r => (matchAt ts r).map (fun m => (l :: m.1, m.2))
  | .dotStar true :: ts, s =>
    (dotStarGreedy (matchAt ts) s).map (fun r => (r.1 :: r.2.1, r.2.2))
  | .dotStar false :: ts, s =>
    (dotStarLazy (matchAt ts) s).map (fun r => (r.1 :: r.2.1, r.2.2))

/-- A piece of a scanned text: a character outside every match, or a match
(the text of each of its tokens). -/
inductive Piece where
  | char (c : Char)
  | hit (segs : List Str)
deriving DecidableEq, Repr

/-- The scan of the library (`FindAll...`, `ReplaceAll...`) with `n` steps
allowed: the leftmost match, then the leftmost match after it, and so on. -/
def scanFuel (toks : List Tok) : Nat → Str → List Piece
  | 0, _ => []
  | n + 1, s =>
    match matchAt toks s with
    | some m => Piece.hit m.1 :: scanFuel toks n m.2
    | none =>
      match s with
      | [] => []
      | c :: t => Piece.char c :: scanFuel toks n t

/-- The successive non-overlapping matches of a pattern in a text.  Every
pattern of the program starts with literal text, so a match is never empty and
one step per character is enough (`scan_hit`, `scan_miss`). -/
def scan (toks : List Tok) (s : Str) : List Piece :=
  scanFuel toks s.length s

/-- The text of capture group `n` (`1, 2, ...`) in a match; group `0` is the
whole match. -/
def Regex.group (re : Regex) (segs : List Str) : Nat → Str
  | 0 => segs.flatten
  | n + 1 => match re.groups.get? n with
    | some i => segs.getD i []
    | none => []

/-- The match of a piece, when it is one. -/
def Piece.match? : Piece → Option (List Str)
  | Piece.char _ => none
  | Piece.hit segs => some segs

/-- The text of a piece once every match is replaced through `f`. -/
def Piece.render (f : List Str → Str) : Piece → Str
  | Piece.char c => [c]
  | Piece.hit segs => f segs

/-- The matches of a scan, in order. -/
def matchesOf (toks : List Tok) (s : Str) : List (List Str) :=
  (scan toks s).filterMap Piece.match?

/-- Go `(*Regexp).FindAllString(s, -1)`. -/
def Regex.FindAllString (re : Regex) (s : Str) : List Str :=
  (matchesOf re.toks s).map List.flatten

/-- Go `(*Regexp).FindAllStringSubmatch(s, -1)`: per match, the whole match
followed by the text of each capture group. -/
def Regex.FindAllStringSubmatch (re : Regex) (s : Str) : List (List Str) :=
  (matchesOf re.toks s).map fun segs => (List.range (re.groups.length + 1)).map (re.group segs)

/-- One item of a replacement template: text, or `${n}`. -/
inductive Repl where
  | text (s : Str)
  | group (n : Nat)
deriving DecidableEq, Repr

/-- The expansion of a replacement template for one match. -/
def Regex.expand (re : Regex) (tpl : List Repl) (segs : List Str) : Str :=
  (tpl.map fun r =>
    match r with
    | Repl.text s => s
    | Repl.group n => re.group segs n).flatten

/-- Go `(*Regexp).ReplaceAllString(src, repl)`. -/
def Regex.ReplaceAllString (re : Regex) (src : Str) (tpl : List Repl) : Str :=
  ((scan re.toks src).map (Piece.render (re.expand tpl))).flatten

/-- Go `strings.ReplaceAll(s, old, new)`: the non-overlapping occurrences of
`old`, from the left, replaced by `new`; an empty `old` matches before every
character and at the end. -/
def stringsReplaceAll (s old new : Str) : Str :=
  match old with
  | [] => new ++ (s.map fun c => c :: new).flatten
  | _ :: _ => ((scan [Tok.lit old] s).map (Piece.render fun _ => new)).flatten

/-- Go `sort.Slice(groups, func(i, j) { return len(groups[i]) > len(groups[j]) })`:
the groups by decreasing length.  The library fixes no order among groups of
one length; `removeGroups_order` shows that `RemoveHtmlTag` does not depend on it. -/
def sortByLenDesc (groups : List Str) : List Str :=
  groups.insertionSort (fun a b => byteLen b ≤ byteLen a)

/-! ## The HTML normalizer -/

/-- The pattern `(<h1).*(</h1>)`. -/
def reH1 : Regex :=
  { toks := [Tok.lit "<h1".toList, Tok.dotStar true, Tok.lit "</h1>".toList], groups := [0, 2] }

/-- The pattern `<img src="(.*?)"`. -/
def reImgSrc : Regex :=
  { toks := [Tok.lit "<img src=\"".toList, Tok.dotStar false, Tok.lit "\"".toList],
    groups := [1] }

/-- The pattern `/graphics/(.*?)/graphics/(.*?)/`. -/
def reGraphics2 : Regex :=
  { toks := [Tok.lit "/graphics/".toList, Tok.dotStar false, Tok.lit "/graphics/".toList,
      Tok.dotStar false, Tok.lit "/".toList],
    groups := [1, 3] }

/-- The pattern `(<img)(.*?)(>)`. -/
def reImgTag : Regex :=
  { toks := [Tok.lit "<img".toList, Tok.dotStar false, Tok.lit ">".toList], groups := [0, 1, 2] }

/-- The pattern `(<br)(.*?)(>)`. -/
def reBrTag : Regex :=
  { toks := [Tok.lit "<br".toList, Tok.dotStar false, Tok.lit ">".toList], groups := [0, 1, 2] }

/-- The pattern `/graphics/(.*?)/`. -/
def reGraphics1 : Regex :=
  { toks := [Tok.lit "/graphics/".toList, Tok.dotStar false, Tok.lit "/".toList], groups := [1] }

/-- The loop of `RemoveHtmlTag`: every group that is not blank is removed from
the text, wherever it occurs. -/
def removeGroups (input : Str) (groups : List Str) : Str :=
  groups.foldl (fun acc group => if TrimSpace group ≠ [] then stringsReplaceAll acc group [] else acc)
    input

/-- `RemoveHtmlTag` of `main.go`. -/
def RemoveHtmlTag (input : Str) : Str :=
  removeGroups input (sortByLenDesc (reH1.FindAllString input))

/-- The template `${1}${2}/${3}`. -/
def selfClosing : List Repl :=
  [Repl.group 1, Repl.group 2, Repl.text "/".toList, Repl.group 3]

/-- `fixImgInternalSrc` of `main.go` (the `isbn` argument is not used by the
function); `nil` is the empty list. -/
def fixImgInternalSrc (input : Str) (_isbn : Str) : Str × List (List Str) :=
  let matches_ := reImgSrc.FindAllStringSubmatch input
  if matches_.length = 0 then (input, [])
  else
    let s := reGraphics2.ReplaceAllString input [Repl.text "../images/".toList]
    let s := reImgTag.ReplaceAllString s selfClosing
    let s := reBrTag.ReplaceAllString s selfClosing
    (s, matches_)

/-- `FixImgUrlError` of `main.go`. -/
def FixImgUrlError (url : Str) : Str :=
  reGraphics1.ReplaceAllString url []

/-- Go `filepath.Base` on a system whose separator is `/`: the last element of
the path, trailing slashes removed first; `.` for the empty path and `/` for a
path of slashes only. -/
def filepathBase (path : Str) : Str :=
  if path = [] then ".".toList
  else
    let p := (path.reverse.dropWhile (fun c => c = '/')).reverse
    let b := (p.reverse.takeWhile (fun c => c ≠ '/')).reverse
    if b = [] then "/".toList else b

/-- A character of a path segment or a file name: a letter or a digit (of ASCII,
or any character outside ASCII, which covers the letters and digits of other
scripts), or one of `.`, `-`, `_`. -/
def nameChar (c : Char) : Bool :=
  c.isAlphanum || c = '.' || c = '-' || c = '_' || 128 ≤ c.toNat

/-- The source path `/graphics/X/graphics/Y/F`. -/
def graphicsSrc (X Y F : Str) : Str :=
  "/graphics/".toList ++ X ++ "/graphics/".toList ++ Y ++ "/".toList ++ F

/-- The bare tag `<img src="src">`. -/
def imgTag (src : Str) : Str :=
  "<img src=\"".toList ++ src ++ "\">".toList

/-! ## The environment and the archive -/

/-- What an HTTP exchange of the program ends in: `http.NewRequest` refuses the
URL (the request is `nil`), `client.Do` reports a transport error, a response
arrives with a status code and a body, or a response arrives and the
connection breaks while the body is read (`ioutil.ReadAll` returns the part
read so far together with an error). -/
inductive HttpOutcome where
  | invalidRequest
  | transportError
  | response (status : Nat) (body : Str)
  | brokenBody (status : Nat) (read : Str)
deriving DecidableEq, Repr

/-- The fields of `Summary` that the pipeline reads. -/
structure Summary where
  Title : Str
  About : Str
  Authors : List Str
  CoverImage : Str
deriving DecidableEq, Repr

/-- The fields of `Author` that the pipeline reads. -/
structure Author where
  Author : Str
deriving DecidableEq, Repr

/-- An entry of `Sections` in `TOC`. -/
structure Section where
  ID : Str
  Title : Str
  ContentType : Str
deriving DecidableEq, Repr

/-- An entry of `Prefaces`, `Appendices` or `Chapters` in `TOC`. -/
structure Chapter where
  ID : Str
  Title : Str
  Sections : List Section
deriving DecidableEq, Repr

/-- `TOC` of `main.go`. -/
structure TOC where
  ProductID : Str
  Prefaces : List Chapter
  Appendices : List Chapter
  Chapters : List Chapter
deriving DecidableEq, Repr

/-- `Page` of `main.go`. -/
structure Page where
  Data : Str
deriving DecidableEq, Repr

/-- What lies outside the program.
* `homeDir` is `usr.HomeDir`.
* `http url bearer` is the outcome of the request for `url`, sent with the
  `Authorization: Bearer` header when `bearer` is given.
* `unmarshal...` is `json.Unmarshal` into a zero value of the type: the value
  afterwards, and whether an error was reported (the program drops the error).
* `grabGet n dst url` tells whether the `n`-th call of `grab.Get` in the run,
  downloading `url` to the file `dst`, succeeds.
* `epubWrite` tells whether `e.Write` of the archive to a file succeeds. -/
structure Env where
  homeDir : Str
  http : Str → Option Str → HttpOutcome
  unmarshalSummary : Str → Summary × Bool
  unmarshalAuthor : Str → Author × Bool
  unmarshalTOC : Str → TOC × Bool
  unmarshalPage : Str → Page × Bool
  grabGet : Nat → Str → Str → Bool
  epubWrite : Str → Bool

/-- A section of the archive: the two arguments of `AddSection` that the
program sets (the other two are always empty). -/
structure EpubSection where
  body : Str
  title : Str
deriving DecidableEq, Repr

/-- Modelled from the spec: the archive of the library `go-epub`, which is not
part of the repository.  Metadata, the ordered sections, and the embedded
images as a map from archive path to the scratch file holding the bytes (a
list of pairs whose first components are distinct). -/
structure Epub where
  title : Str
  author : Str
  description : Str
  identifier : Str
  cover : Option Str
  images : List (Str × Str)
  sections : List EpubSection
deriving DecidableEq, Repr

/-- Modelled from the spec: `epub.NewEpub(title)`. -/
def NewEpub (title : Str) : Epub :=
  { title := title, author := [], description := [], identifier := [], cover := none,
    images := [], sections := [] }

/-- Modelled from the spec: `addImage(scratchPath, archivePath)`; a second add
with an archive path already present is a no-op, never a duplicate entry. -/
def Epub.AddImage (e : Epub) (source archivePath : Str) : Epub :=
  if archivePath ∈ e.images.map Prod.fst then e
  else { e with images := e.images ++ [(archivePath, source)] }

/-- Modelled from the spec: `addSection(body, title, "", "")` appends one
section, in call order. -/
def Epub.AddSection (e : Epub) (body title : Str) : Epub :=
  { e with sections := e.sections ++ [{ body := body, title := title }] }

/-- How a run stops before its end: a Go panic, or `os.Exit` / `log.Fatal`
with an exit status. -/
inductive Stop where
  | panic
  | exit (status : Nat)
deriving DecidableEq, Repr

/-- The state a run works on: the archive `e`, the global `tmpfiles`, the
number of `grab.Get` calls made so far, the scratch files written by the
successful ones, and the archive files committed by `e.Write`. -/
structure State where
  e : Epub
  tmpfiles : List Str
  grabs : Nat
  scratch : List Str
  written : List (Str × Epub)
deriving DecidableEq, Repr

/-! ## The content fetcher -/

/-- The request of `GetSummary`, `GetAuthor`, `GetToc` and `GetPage`: a `nil`
request or a transport error is a panic, any response yields its body; the
error of `ioutil.ReadAll` is dropped, so a body that breaks off yields the part
read. -/
def getBody (env : Env) (url : Str) (bearer : Option Str) : Except Stop Str :=
  match env.http url bearer with
  | HttpOutcome.invalidRequest => Except.error Stop.panic
  | HttpOutcome.transportError => Except.error Stop.panic
  | HttpOutcome.response _ body => Except.ok body
  | HttpOutcome.brokenBody _ read => Except.ok read

/-- `GetSummary` of `main.go`. -/
def GetSummary (env : Env) (isbn : Str) : Except Stop Summary :=
  (getBody env ("https://static.packt-cdn.com/products/".toList ++ isbn ++ "/summary".toList)
    none).map fun body => (env.unmarshalSummary body).1

/-- `GetToc` of `main.go`. -/
def GetToc (env : Env) (isbn : Str) : Except Stop TOC :=
  (getBody env ("https://static.packt-cdn.com/products/".toList ++ isbn ++ "/toc".toList)
    none).map fun body => (env.unmarshalTOC body).1

/-- `GetAuthor` of `main.go`. -/
def GetAuthor (env : Env) (authorId : Str) : Except Stop Author :=
  (getBody env ("https://static.packt-cdn.com/authors/".toList ++ authorId) none).map
    fun body => (env.unmarshalAuthor body).1

/-- The address `GetPage` requests for a section of a chapter of a book. -/
def pageAddress (isbn chapterId pageId : Str) : Str :=
  "https://services.packtpub.com/products-v1/products/".toList ++ isbn ++ "/".toList
    ++ chapterId ++ "/".toList ++ pageId

/-- `GetPage` of `main.go`. -/
def GetPage (env : Env) (token isbn chapterId pageId : Str) : Except Stop Page :=
  (getBody env (pageAddress isbn chapterId pageId) (some token)).map
    fun body => (env.unmarshalPage body).1

/-- `DownloadPage` of `main.go`: a `nil` request is a panic; a transport error
of `client.Do` is returned to the caller (`none`); any response, whatever its
status, yields its body with a `nil` error, and so does the part read of a body
that breaks off, the error of `ioutil.ReadAll` being dropped. -/
def DownloadPage (env : Env) (url : Str) : Except Stop (Option Str) :=
  match env.http url none with
  | HttpOutcome.invalidRequest => Except.error Stop.panic
  | HttpOutcome.transportError => Except.ok none
  | HttpOutcome.response _ body => Except.ok (some body)
  | HttpOutcome.brokenBody _ read => Except.ok (some read)

/-! ## The resource materializer -/

/-- The scratch file of an image: `usr.HomeDir + "/.packt_tmp/" + filepath.Base(src)`. -/
def scratchPath (env : Env) (src : Str) : Str :=
  env.homeDir ++ "/.packt_tmp/".toList ++ filepathBase src

/-- The archive path of an image: `"../images/" + filepath.Base(src)`. -/
def archivePath (src : Str) : Str :=
  "../images/".toList ++ filepathBase src

/-- The download URL of an image: the product base URL and `FixImgUrlError(src)`. -/
def imageUrl (isbn src : Str) : Str :=
  "https://static.packt-cdn.com/products/".toList ++ isbn ++ "/".toList ++ FixImgUrlError src

/-- `EmbedEPubImage` of `main.go`.  `imgURL[1]` of a reference with fewer than
two entries is a panic; a failed download is reported and skipped. -/
def EmbedEPubImage (env : Env) (isbn : Str) : List (List Str) → State → State × Option Stop
  | [], st => (st, none)
  | imgURL :: rest, st =>
    match imgURL.get? 1 with
    | none => (st, some Stop.panic)
    | some src =>
      if env.grabGet st.grabs (scratchPath env src) (imageUrl isbn src) then
        EmbedEPubImage env isbn rest
          { st with
            grabs := st.grabs + 1
            scratch := st.scratch ++ [scratchPath env src]
            e := st.e.AddImage (scratchPath env src) (archivePath src)
            tmpfiles := st.tmpfiles ++ [scratchPath env src] }
      else
        EmbedEPubImage env isbn rest { st with grabs := st.grabs + 1 }

/-! ## The orchestrator -/

/-- The two fetches `DownloadAsEpub` makes for one page: `GetPage` for the
address of the page, then `DownloadPage` of `pageURL.Data`; `none` is the error
that `DownloadPage` returns. -/
def fetchPage (env : Env) (token isbn chapterId pageId : Str) : Except Stop (Option Str) :=
  match GetPage env token isbn chapterId pageId with
  | Except.error stop => Except.error stop
  | Except.ok pageURL => DownloadPage env pageURL.Data

/-- The steps `DownloadAsEpub` runs for one page, at lines 865-874 for the first
section of a chapter and again at lines 877-886 for a later one: the two
fetches (an error of `DownloadPage` is `log.Fatal`), `fixImgInternalSrc`,
`EmbedEPubImage` when references were found, `AddSection`. -/
def addPage (env : Env) (token isbn chapterId pageId title : Str) (st : State) :
    State × Option Stop :=
  match fetchPage env token isbn chapterId pageId with
  | Except.error stop => (st, some stop)
  | Except.ok none => (st, some (Stop.exit 1))
  | Except.ok (some downloadedPage) =>
    let r := fixImgInternalSrc downloadedPage isbn
    let emb := if r.2.length > 0 then EmbedEPubImage env isbn r.2 st else (st, none)
    match emb.2 with
    | some stop => (emb.1, some stop)
    | none => ({ emb.1 with e := emb.1.e.AddSection r.1 title }, none)

/-- The inner loop of `DownloadAsEpub` over `chapters.Sections`, with the
counter `curr`: a section is fetched and appended when `curr > 0`. -/
def sectionLoop (env : Env) (token isbn chapterId : Str) :
    List Section → Nat → State → State × Option Stop
  | [], _, st => (st, none)
  | subchapter :: rest, curr, st =>
    if curr > 0 then
      match addPage env token isbn chapterId subchapter.ID subchapter.Title st with
      | (st1, some stop) => (st1, some stop)
      | (st1, none) => sectionLoop env token isbn chapterId rest (curr + 1) st1
    else sectionLoop env token isbn chapterId rest (curr + 1) st

/-- The outer loop of `DownloadAsEpub` over `toc.Chapters`; `chapters.Sections[0]`
of a chapter without sections is a panic. -/
def chapterLoop (env : Env) (token isbn : Str) : List Chapter → State → State × Option Stop
  | [], st => (st, none)
  | chapters :: rest, st =>
    match chapters.Sections.get? 0 with
    | none => (st, some Stop.panic)
    | some first =>
      match addPage env token isbn chapters.ID first.ID chapters.Title st with
      | (st1, some stop) => (st1, some stop)
      | (st1, none) =>
        match sectionLoop env token isbn chapters.ID chapters.Sections 0 st1 with
        | (st2, some stop) => (st2, some stop)
        | (st2, none) => chapterLoop env token isbn rest st2

/-- How a run of `DownloadAsEpub` ends: it returns the title, or it stops. -/
inductive Outcome where
  | returned (title : Str)
  | stopped (stop : Stop)
deriving DecidableEq, Repr

/-- The metadata phase of `DownloadAsEpub` (lines 842-848): the three fetches,
then the new archive with its author, description and identifier. -/
def fetchMetadata (env : Env) (isbn : Str) : Except Stop (Summary × TOC × Epub) :=
  match GetSummary env isbn with
  | Except.error stop => Except.error stop
  | Except.ok summary =>
    match summary.Authors.get? 0 with
    | none => Except.error Stop.panic
    | some authorId =>
      match GetAuthor env authorId with
      | Except.error stop => Except.error stop
      | Except.ok author =>
        match GetToc env isbn with
        | Except.error stop => Except.error stop
        | Except.ok toc =>
          Except.ok (summary, toc,
            { NewEpub summary.Title with
              author := author.Author, description := summary.About, identifier := isbn })

/-- `DownloadAsEpub` of `main.go`: the final state and how the run ended. -/
def DownloadAsEpub (env : Env) (token isbn : Str) (st : State) : State × Outcome :=
  match fetchMetadata env isbn with
  | Except.error stop => (st, Outcome.stopped stop)
  | Except.ok (summary, toc, e) =>
    let st := { st with e := e }
    let coverPath := scratchPath env summary.CoverImage
    if env.grabGet st.grabs coverPath summary.CoverImage then
      let st := { st with
        grabs := st.grabs + 1
        scratch := st.scratch ++ [coverPath]
        tmpfiles := st.tmpfiles ++ [coverPath] }
      let st := { st with e := st.e.AddImage coverPath (filepathBase summary.CoverImage) }
      let st := { st with e := { st.e with cover := some (filepathBase summary.CoverImage) } }
      match chapterLoop env token isbn toc.Chapters st with
      | (st1, some stop) => (st1, Outcome.stopped stop)
      | (st1, none) =>
        if env.epubWrite (summary.Title ++ ".epub".toList) then
          ({ st1 with written := st1.written ++ [(summary.Title ++ ".epub".toList, st1.e)] },
            Outcome.returned summary.Title)
        else (st1, Outcome.stopped (Stop.exit 1))
    else ({ st with grabs := st.grabs + 1 }, Outcome.stopped (Stop.exit 1))

/-- The state in which a run starts: an empty archive, nothing recorded. -/
def State.init : State :=
  { e := NewEpub [], tmpfiles := [], grabs := 0, scratch := [], written := [] }

/-! ## Cleanup and start-up -/

/-- Go `filepath.Ext` on a system whose separator is `/`: the suffix of the
path that starts at the last dot of its last element; empty when that element
holds no dot. -/
def filepathExt (path : Str) : Str :=
  let last := (path.reverse.takeWhile (fun c => c ≠ '/')).reverse
  if '.' ∈ last then '.' :: (last.reverse.takeWhile (fun c => c ≠ '.')).reverse else []

/-- An entry of a directory listing (`os.FileInfo`): `Name()` and
`Mode().IsRegular()`. -/
structure FileInfo where
  Name : Str
  IsRegular : Bool
deriving DecidableEq, Repr

/-- What `os.Open(dirname)` followed by `d.Readdir(-1)` ends in: the directory
cannot be opened, it cannot be listed, or its entries. -/
inductive Listing where
  | openError
  | readdirError
  | entries (files : List FileInfo)
deriving DecidableEq, Repr

/-- The operating system as `main` meets it.
* `args` is `os.Args`.
* `stat name` tells whether `os.Stat(name)` returns a `nil` error, which it does
  when something exists at `name`.
* `listing name` is what opening and listing the directory `name` ends in. -/
structure Os where
  args : List Str
  stat : Str → Bool
  listing : Str → Listing

/-- The file-system calls issued so far: the arguments of the `os.Remove` calls
and of the `os.Mkdir` calls, in call order.  The program drops the error of
both. -/
structure Calls where
  removes : List Str
  mkdirs : List Str
deriving DecidableEq, Repr

/-- `cleanUpFiles` of `main.go`: `os.Exit(1)` when the scratch directory cannot
be opened or listed; otherwise `os.Remove(file.Name())` for every regular entry
whose extension equals `.png`, `.jpg` or `jpeg`. -/
def cleanUpFiles (env : Env) (os : Os) (log : Calls) : Calls × Option Stop :=
  match os.listing (env.homeDir ++ "/.packt_tmp/".toList) with
  | Listing.openError => (log, some (Stop.exit 1))
  | Listing.readdirError => (log, some (Stop.exit 1))
  | Listing.entries files =>
    (files.foldl (fun log file =>
      if file.IsRegular then
        if filepathExt file.Name = ".png".toList ∨ filepathExt file.Name = ".jpg".toList
            ∨ filepathExt file.Name = "jpeg".toList then
          { log with removes := log.removes ++ [file.Name] }
        else log
      else log) log, none)

/-- `removeTmpFiles` of `main.go`: `os.Remove(file)` for every entry of
`tmpfiles`, in order. -/
def removeTmpFiles (st : State) (log : Calls) : Calls :=
  st.tmpfiles.foldl (fun log file => { log with removes := log.removes ++ [file] }) log

/-- Lines 968-970 of `main`: `os.Mkdir` of the scratch directory when `os.Stat`
of it returns a `nil` error. -/
def ensureScratchDir (env : Env) (os : Os) (log : Calls) : Calls :=
  if os.stat (env.homeDir ++ "/.packt_tmp".toList) then
    { log with mkdirs := log.mkdirs ++ [env.homeDir ++ "/.packt_tmp".toList] }
  else log

/-- How the start of `main` ends: the process is stopped, the `login` branch is
taken, the usage message is printed and `main` returns, or the run goes on to
the session file and the downloads. -/
inductive Startup where
  | stopped (stop : Stop)
  | login
  | usage
  | proceed
deriving DecidableEq, Repr

/-- Lines 941-970 of `main`: `cleanUpFiles`, the `login` branch, the check of
the number of arguments, the scratch directory. -/
def mainStart (env : Env) (os : Os) (log : Calls) : Calls × Startup :=
  match cleanUpFiles env os log with
  | (log1, some stop) => (log1, Startup.stopped stop)
  | (log1, none) =>
    if os.args.length = 2 ∧ os.args.get? 1 = some "login".toList then (log1, Startup.login)
    else if os.args.length < 3 then (log1, Startup.usage)
    else (ensureScratchDir env os log1, Startup.proceed)

/-! ## What the properties are stated with -/

/-- The source of an extracted reference: `imgURL[1]`. -/
def refSrc (imgURL : List Str) : Str :=
  imgURL.getD 1 []

/-- The sources of the references of a batch whose download succeeds, in batch
order, when the batch starts as `grab.Get` call number `n` of the run. -/
def downloaded (env : Env) (isbn : Str) (n : Nat) (urls : List (List Str)) : List Str :=
  ((urls.enumFrom n).filter fun p =>
    env.grabGet p.1 (scratchPath env (refSrc p.2)) (imageUrl isbn (refSrc p.2))).map
    fun p => refSrc p.2

/-- The archive after the images of the given sources are registered, in order. -/
def registerAll (env : Env) (e : Epub) (srcs : List Str) : Epub :=
  srcs.foldl (fun e src => e.AddImage (scratchPath env src) (archivePath src)) e

/-- The rewritten page of a section: the first component of `fixImgInternalSrc`
on the fetched page (empty when the fetch fails). -/
def pageBody (env : Env) (token isbn chapterId pageId : Str) : Str :=
  match fetchPage env token isbn chapterId pageId with
  | Except.ok (some page) => (fixImgInternalSrc page isbn).1
  | _ => []

/-- The sections of the table-of-contents traversal: per chapter, the page of
its section 0 under the title of the chapter, then the pages of its later
sections under their own titles. -/
def expectedSections (env : Env) (token isbn : Str) (chapters : List Chapter) :
    List EpubSection :=
  (chapters.map fun ch =>
    match ch.Sections with
    | [] => []
    | first :: later =>
      { body := pageBody env token isbn ch.ID first.ID, title := ch.Title } ::
        later.map fun s => { body := pageBody env token isbn ch.ID s.ID, title := s.Title }).flatten

/-- An environment for worked examples.  A request with a bearer token (the one
of `GetPage`) is answered by its own URL, which the decoder takes as the
address of the page; a request without one is answered by the entry of `pages`
for the URL (an empty body when there is none); the decoders return the given
summary and table of contents; `grabOk n` is the outcome of download `n`. -/
def exampleEnv (summary : Summary) (toc : TOC) (pages : List (Str × Str)) (grabOk : Nat → Bool) :
    Env :=
  { homeDir := "/home/u".toList
    http := fun url bearer =>
      match bearer with
      | some _ => HttpOutcome.response 200 url
      | none => HttpOutcome.response 200 ((pages.lookup url).getD [])
    unmarshalSummary := fun _ => (summary, false)
    unmarshalAuthor := fun body => ({ Author := body }, false)
    unmarshalTOC := fun _ => (toc, false)
    unmarshalPage := fun body => ({ Data := body }, false)
    grabGet := fun n _ _ => grabOk n
    epubWrite := fun _ => true }

/-- The text `<h1` that opens a match of `reH1`. -/
def openTag : Str := "<h1".toList

/-- The text `</h1>` that closes a match of `reH1`. -/
def closeTag : Str := "</h1>".toList

/-- No opening text starts inside `p` when `rest` follows it. -/
def NoOpenBefore (p rest : Str) : Prop :=
  ∀ t, t <:+ p → t ≠ [] → stripLit openTag (t ++ rest) = none

/-- No closing text starts after the head of `closeTag ++ q`. -/
def NoCloseAfter (q : Str) : Prop :=
  ∀ v, v <:+ closeTag ++ q → v ≠ closeTag ++ q → stripLit closeTag v = none

/-- A text in which `reH1` matches nowhere. -/
def Clean (s : Str) : Prop :=
  ∀ t, t <:+ s → matchAt reH1.toks t = none

/-- A text a match of `reH1` can be: the opening text, a run without a line
feed, the closing text. -/
def IsSpan (g : Str) : Prop :=
  ∃ x, g = openTag ++ (x ++ closeTag) ∧ '\n' ∉ x

/-! ## Definitions used by the statements and proofs -/

/-- The state after a batch: every reference tried, the downloaded ones
registered in the archive and recorded, in order. -/
def afterBatch (env : Env) (isbn : Str) (urls : List (List Str)) (st : State) : State :=
  { st with
    grabs := st.grabs + urls.length
    scratch := st.scratch ++ (downloaded env isbn st.grabs urls).map (scratchPath env)
    e := registerAll env st.e (downloaded env isbn st.grabs urls)
    tmpfiles := st.tmpfiles ++ (downloaded env isbn st.grabs urls).map (scratchPath env) }

/-- A page of five image tags, for the worked example. -/
def fiveImages : Str :=
  ("<p>" ++ "<img src=\"/graphics/9/graphics/1/a.png\">" ++ "<img src=\"/graphics/9/graphics/1/b.png\">"
    ++ "<img src=\"/graphics/9/graphics/1/c.png\">" ++ "<img src=\"/graphics/9/graphics/1/d.png\">"
    ++ "<img src=\"/graphics/9/graphics/1/e.png\">" ++ "</p>").toList

/-- Stub responses for the page `fiveImages`; the third download of the run fails. -/
def fiveEnv : Env :=
  exampleEnv { Title := [], About := [], Authors := [], CoverImage := [] }
    { ProductID := [], Prefaces := [], Appendices := [], Chapters := [] }
    [(pageAddress "9".toList "c".toList "s".toList, fiveImages)] (fun n => n != 2)

/-- The number of entries of the archive image map under one archive path. -/
def Epub.entriesAt (e : Epub) (path : Str) : Nat :=
  (e.images.filter fun p => decide (p.1 = path)).length

/-- Two references with different sources and the base name `pic.png`. -/
def twoRefs : List (List Str) :=
  [["<img src=\"/graphics/1/pic.png\"".toList, "/graphics/1/pic.png".toList],
   ["<img src=\"/graphics/2/pic.png\"".toList, "/graphics/2/pic.png".toList]]

/-- An environment in which every download succeeds. -/
def okEnv : Env :=
  exampleEnv { Title := [], About := [], Authors := [], CoverImage := [] }
    { ProductID := [], Prefaces := [], Appendices := [], Chapters := [] } [] (fun _ => true)

/-- An environment in which every download fails. -/
def failEnv : Env :=
  exampleEnv { Title := [], About := [], Authors := [], CoverImage := [] }
    { ProductID := [], Prefaces := [], Appendices := [], Chapters := [] } [] (fun _ => false)

/-- A section whose body is the rewritten form of a fetched page. -/
def Rewritten (env : Env) (token isbn : Str) (sec : EpubSection) : Prop :=
  ∃ chapterId pageId page, fetchPage env token isbn chapterId pageId = Except.ok (some page) ∧
    sec.body = (fixImgInternalSrc page isbn).1

/-- The literals of the tokens hold no line feed. -/
def NoLF (toks : List Tok) : Prop :=
  ∀ l, Tok.lit l ∈ toks → '\n' ∉ l

/-- The order of `sortByLenDesc` is total. -/
instance byteLenTotal : IsTotal Str (fun a b => byteLen b ≤ byteLen a) :=
  ⟨fun a b => Nat.le_total (byteLen b) (byteLen a)⟩

/-- The order of `sortByLenDesc` is transitive. -/
instance byteLenTrans : IsTrans Str (fun a b => byteLen b ≤ byteLen a) :=
  ⟨fun _ _ _ h1 h2 => Nat.le_trans h2 h1⟩

/-- The block `<h1>inner</h1>`. -/
def h1Block (inner : Str) : Str :=
  "<h1>".toList ++ inner ++ "</h1>".toList

/-- A line of a fragment whose blocks stand on lines of their own: text without
a block, or one block with the text before and after it. -/
inductive Line where
  | plain (text : Str)
  | block (before inner after : Str)

/-- The text of a line. -/
def Line.text : Line → Str
  | Line.plain t => t
  | Line.block b i a => b ++ h1Block i ++ a

/-- The line without its block. -/
def Line.stripped : Line → Str
  | Line.plain t => t
  | Line.block b _ a => b ++ a

/-- The parts of a line hold no line feed, and the text outside the block holds
no `<h1` before the block and no `</h1>` after it. -/
def Line.WellFormed : Line → Prop
  | Line.plain t => '\n' ∉ t ∧ ¬ openTag <:+: t
  | Line.block b i a =>
    '\n' ∉ b ∧ '\n' ∉ i ∧ '\n' ∉ a ∧ ¬ openTag <:+: b ∧ ¬ closeTag <:+: a

/-- The lines of a fragment, joined by line feeds. -/
def joinLines : List Str → Str
  | [] => []
  | [l] => l
  | l :: rest => l ++ '\n' :: joinLines rest

/-- Three lines, two of them with a block, for the worked example. -/
def twoBlocks : List Line :=
  [Line.block "a".toList "x".toList "b".toList, Line.plain "text".toList,
    Line.block [] "yy".toList "c".toList]

/-- The self-closing tag `<img src="src"/>`. -/
def imgClosed (src : Str) : Str :=
  "<img src=\"".toList ++ src ++ "\"/>".toList

/-- A summary with one author. -/
def twoChapterSummary : Summary :=
  { Title := "T".toList, About := "about".toList, Authors := ["au".toList],
    CoverImage := "https://c/cover.png".toList }

/-- A table of contents with chapter A (sections A1, A2) and chapter B (section B1). -/
def twoChapterTOC : TOC :=
  { ProductID := "9".toList, Prefaces := [], Appendices := [],
    Chapters :=
      [{ ID := "a".toList, Title := "A".toList,
          Sections := [{ ID := "a1".toList, Title := "A1".toList, ContentType := [] },
            { ID := "a2".toList, Title := "A2".toList, ContentType := [] }] },
        { ID := "b".toList, Title := "B".toList,
          Sections := [{ ID := "b1".toList, Title := "B1".toList, ContentType := [] }] }] }

/-- Stub responses for the three pages of `twoChapterTOC`; every download succeeds. -/
def twoChapterEnv : Env :=
  exampleEnv twoChapterSummary twoChapterTOC
    [(pageAddress "9".toList "a".toList "a1".toList, "<h1>A</h1>one".toList),
      (pageAddress "9".toList "a".toList "a2".toList, "two".toList),
      (pageAddress "9".toList "b".toList "b1".toList, "three".toList)]
    (fun _ => true)

/-- Text between image tags: it opens no image or line-break tag and holds no
`/graphics/`. -/
def PlainText (t : Str) : Prop :=
  ¬ "<img".toList <:+: t ∧ ¬ "<br".toList <:+: t ∧ ¬ "/graphics/".toList <:+: t

/-- An image of a page: the text before its tag and the parts of its source
`/graphics/X/graphics/Y/F`. -/
structure ImgItem where
  text : Str
  X : Str
  Y : Str
  F : Str

/-- The source of the image as the page writes it. -/
def ImgItem.src (i : ImgItem) : Str :=
  graphicsSrc i.X i.Y i.F

/-- The text before the tag is plain, the segments and the file name are made of
name characters, and the file name is not empty. -/
def ImgItem.WellFormed (i : ImgItem) : Prop :=
  PlainText i.text ∧ (∀ c ∈ i.X, nameChar c = true) ∧ (∀ c ∈ i.Y, nameChar c = true) ∧
    (∀ c ∈ i.F, nameChar c = true) ∧ i.F ≠ []

/-- A page: per image its text and its tag as `tag` writes it, then the closing text. -/
def pageWith (tag : ImgItem → Str) (items : List ImgItem) (closing : Str) : Str :=
  (items.map fun i => i.text ++ tag i).flatten ++ closing

/-- A page of two images, for the worked example. -/
def twoImages : List ImgItem :=
  [{ text := "<p>".toList, X := "A".toList, Y := "B".toList, F := "pic.png".toList },
    { text := " and ".toList, X := "9".toList, Y := "1".toList, F := "b.jpg".toList }]

/-- From `st` to `st1` the same paths, in the same order, were added to the
scratch files written and to the registry `tmpfiles`. -/
def Tracked (st st1 : State) : Prop :=
  ∃ d, st1.tmpfiles = st.tmpfiles ++ d ∧ st1.scratch = st.scratch ++ d

/-- Every scratch file written so far is recorded in `tmpfiles`. -/
def Recorded (st : State) : Prop :=
  ∀ p ∈ st.scratch, p ∈ st.tmpfiles

/-- The files left of `files` once the `os.Remove` calls `removes` are carried
out. -/
def remaining (files removes : List Str) : List Str :=
  files.filter fun f => f ∉ removes

/-- The pages of the traversal, in order: the chapter id and the section id
that are fetched, and the title the section is appended under. -/
def pagesOf (chs : List Chapter) : List (Str × Str × Str) :=
  (chs.map fun ch =>
    match ch.Sections with
    | [] => []
    | first :: later =>
      (ch.ID, first.ID, ch.Title) :: later.map fun s => (ch.ID, s.ID, s.Title)).flatten

/-- The steps of `addPage` for the pages of a list, one after the other, up to
the first that stops the run. -/
def addPages (env : Env) (token isbn : Str) : List (Str × Str × Str) → State → State × Option Stop
  | [], st => (st, none)
  | p :: rest, st =>
    match addPage env token isbn p.1 p.2.1 p.2.2 st with
    | (st1, some stop) => (st1, some stop)
    | (st1, none) => addPages env token isbn rest st1

/-- Two environments that agree on everything a run reads apart from the table
of contents and the answers to requests sent with a bearer token: the home
directory, the answers to requests sent without a token, the values left by the
decoders of the summary, the author and the page address (not the errors they
report), the downloads and the write of the archive. -/
structure Alike (env env1 : Env) : Prop where
  homeDir : env1.homeDir = env.homeDir
  http : ∀ url, env1.http url none = env.http url none
  summary : ∀ body, (env1.unmarshalSummary body).1 = (env.unmarshalSummary body).1
  author : ∀ body, (env1.unmarshalAuthor body).1 = (env.unmarshalAuthor body).1
  page : ∀ body, (env1.unmarshalPage body).1 = (env.unmarshalPage body).1
  grabGet : env1.grabGet = env.grabGet
  epubWrite : env1.epubWrite = env.epubWrite

/-- Every HTTP exchange of the environment ends in a response. -/
def Responds (env : Env) : Prop :=
  ∀ url bearer, ∃ status body, env.http url bearer = HttpOutcome.response status body

/-- The tags `<img src="F"` and `<br`, each followed by the slashes `a` and
`>`: with `a = /` the self-closing tags `<img src="F"/><br/>`. -/
def closedTags (F a : Str) : Str :=
  "<img src=\"".toList ++ (F ++ ("\"".toList ++ (a ++ ("><br".toList ++ (a ++ ">".toList)))))

/-- The state in which `DownloadAsEpub` enters its chapter loop (lines 845-859),
after the cover is downloaded: the new archive `e` with the cover registered,
the scratch file of the cover written and recorded. -/
def afterCover (env : Env) (summary : Summary) (e : Epub) (st : State) : State :=
  { e := { e.AddImage (scratchPath env summary.CoverImage) (filepathBase summary.CoverImage) with
            cover := some (filepathBase summary.CoverImage) }
    tmpfiles := st.tmpfiles ++ [scratchPath env summary.CoverImage]
    grabs := st.grabs + 1
    scratch := st.scratch ++ [scratchPath env summary.CoverImage]
    written := st.written }

/-- The names `cleanUpFiles` passes to `os.Remove`: those of the regular entries
whose extension is `.png` or `.jpg`. -/
def strayNames (files : List FileInfo) : List Str :=
  (files.filter fun file =>
    file.IsRegular && (decide (filepathExt file.Name = ".png".toList)
      || decide (filepathExt file.Name = ".jpg".toList))).map FileInfo.Name

/-- A start state without the scratch directory: nothing exists at any path and
no directory can be opened.  The arguments ask for a book as EPUB. -/
def absentOs : Os :=
  { args := ["packt".toList, "epub".toList, "9781".toList]
    stat := fun _ => false
    listing := fun _ => Listing.openError }

/-- A start state in which the scratch directory `/home/u/.packt_tmp` exists and
holds four regular files and one entry that is not a regular file. -/
def strayOs : Os :=
  { args := ["packt".toList, "epub".toList, "9781".toList]
    stat := fun name => decide (name = "/home/u/.packt_tmp".toList)
    listing := fun name =>
      if name = "/home/u/.packt_tmp/".toList then
        Listing.entries
          [{ Name := "a.jpeg".toList, IsRegular := true },
            { Name := "b.png".toList, IsRegular := true },
            { Name := "c.jpg".toList, IsRegular := true },
            { Name := "notes.txt".toList, IsRegular := true },
            { Name := "d.png".toList, IsRegular := false }]
      else Listing.openError }

/-- A start state in which the scratch directory exists but cannot be listed. -/
def unreadableOs : Os :=
  { args := ["packt".toList, "epub".toList, "9781".toList]
    stat := fun name => decide (name = "/home/u/.packt_tmp".toList)
    listing := fun _ => Listing.readdirError }

/-- No call issued yet. -/
def noCalls : Calls :=
  { removes := [], mkdirs := [] }

/-- The environment `twoChapterEnv` with a server that answers the request for
each of the three pages with status 404 and the body `Not Found`. -/
def notFoundEnv : Env :=
  { twoChapterEnv with
    http := fun url bearer =>
      match bearer with
      | some _ => HttpOutcome.response 200 url
      | none =>
        if url ∈ [pageAddress "9".toList "a".toList "a1".toList,
            pageAddress "9".toList "a".toList "a2".toList,
            pageAddress "9".toList "b".toList "b1".toList] then
          HttpOutcome.response 404 "Not Found".toList
        else HttpOutcome.response 200 [] }

/-- The environment `twoChapterEnv` with a transport error in the download of
the page of section A2. -/
def brokenEnv : Env :=
  { twoChapterEnv with
    http := fun url bearer =>
      match bearer with
      | some _ => HttpOutcome.response 200 url
      | none =>
        if url = pageAddress "9".toList "a".toList "a2".toList then HttpOutcome.transportError
        else twoChapterEnv.http url none }

/-- The environment `twoChapterEnv` with a connection that breaks while the body
of the page of section A2 is read, after the two characters `tw`. -/
def cutOffEnv : Env :=
  { twoChapterEnv with
    http := fun url bearer =>
      match bearer with
      | some _ => HttpOutcome.response 200 url
      | none =>
        if url = pageAddress "9".toList "a".toList "a2".toList then
          HttpOutcome.brokenBody 200 "tw".toList
        else twoChapterEnv.http url none }

/-- The value `json.Unmarshal` leaves in a fresh `TOC` when the body is not
valid JSON: the zero value. -/
def zeroTOC : TOC :=
  { ProductID := [], Prefaces := [], Appendices := [], Chapters := [] }

/-- An environment in which the table-of-contents request is answered by a body
that is no JSON: the decoder reports an error and leaves the zero value. -/
def badTocEnv : Env :=
  { exampleEnv twoChapterSummary zeroTOC
      [("https://static.packt-cdn.com/products/9/toc".toList, "<html>502</html>".toList)]
      (fun _ => true) with
    unmarshalTOC := fun _ => (zeroTOC, true) }

/-- One chapter with one section, whose page holds one image. -/
def imageEnv : Env :=
  exampleEnv twoChapterSummary
    { ProductID := "9".toList, Prefaces := [], Appendices := [],
      Chapters :=
        [{ ID := "a".toList, Title := "A".toList,
            Sections := [{ ID := "a1".toList, Title := "A1".toList, ContentType := [] }] }] }
    [(pageAddress "9".toList "a".toList "a1".toList,
      "<p><img src=\"/graphics/9/graphics/1/a.png\"></p>".toList)]
    (fun _ => true)

/-- The table of contents `twoChapterTOC` with a preface and an appendix. -/
def frontMatterTOC : TOC :=
  { twoChapterTOC with
    Prefaces :=
      [{ ID := "p".toList, Title := "Preface".toList,
          Sections := [{ ID := "p1".toList, Title := "P1".toList, ContentType := [] }] }]
    Appendices :=
      [{ ID := "x".toList, Title := "Appendix".toList,
          Sections := [{ ID := "x1".toList, Title := "X1".toList, ContentType := [] }] }] }

/-- The answers of `twoChapterEnv`, except that the pages of the preface and of
the appendix cannot be fetched. -/
def frontMatterHttp (url : Str) (bearer : Option Str) : HttpOutcome :=
  match bearer with
  | none => twoChapterEnv.http url none
  | some token =>
    if url = pageAddress "9".toList "p".toList "p1".toList
        ∨ url = pageAddress "9".toList "x".toList "x1".toList then
      HttpOutcome.transportError
    else twoChapterEnv.http url (some token)

/-- The table of contents `twoChapterTOC` followed by a chapter without
sections. -/
def emptyChapterTOC : TOC :=
  { twoChapterTOC with
    Chapters := twoChapterTOC.Chapters ++ [{ ID := "c".toList, Title := "C".toList, Sections := [] }] }

/-- The environment `twoChapterEnv` with the table of contents `emptyChapterTOC`. -/
def emptyChapterEnv : Env :=
  { twoChapterEnv with unmarshalTOC := fun _ => (emptyChapterTOC, false) }

/-- The environment `emptyChapterEnv` with every download failing, that of the
cover included. -/
def coverFailEnv : Env :=
  { emptyChapterEnv with grabGet := fun _ _ _ => false }

/-- An environment in which the decoder of the table of contents reports an
error and leaves the two chapters it could decode. -/
def halfTocEnv : Env :=
  { twoChapterEnv with unmarshalTOC := fun _ => (twoChapterTOC, true) }

/-! ## Theorems -/

set_option maxRecDepth 100000

/-! ### The matcher and the scan -/

theorem stripLit_eq_some {l s r : Str} : stripLit l s = some r ↔ s = l ++ r := by
  induction l generalizing s with
  | nil => simp [stripLit, eq_comm]
  | cons c l ih =>
    cases s with
    | nil => simp [stripLit]
    | cons d s =>
      simp only [stripLit]
      split
      · subst_vars; simp [ih]
      · rename_i h; simp; intro h'; exact absurd h'.symm h

theorem stripLit_append (l r : Str) : stripLit l (l ++ r) = some r :=
  stripLit_eq_some.2 rfl

theorem stripLit_cons_ne {c d : Char} (h : c ≠ d) (l s : Str) : stripLit (c :: l) (d :: s) = none := by
  simp [stripLit, h]

theorem dotStarLazy_sound {α : Type} (k : Str → Option α) (s x : Str) (a : α)
    (h : dotStarLazy k s = some (x, a)) : ∃ r, s = x ++ r ∧ k r = some a ∧ '\n' ∉ x := by
  induction s generalizing x with
  | nil =>
    simp only [dotStarLazy, Option.map_eq_some'] at h
    obtain ⟨a', h1, h2⟩ := h
    cases h2
    exact ⟨[], rfl, h1, by simp⟩
  | cons c t ih =>
    simp only [dotStarLazy] at h
    split at h
    · cases h; rename_i a' h1; exact ⟨c :: t, rfl, h1, by simp⟩
    · split at h
      · cases h
      · simp only [Option.map_eq_some'] at h
        obtain ⟨⟨x', a'⟩, h1, h2⟩ := h
        cases h2
        obtain ⟨r, e1, e2, e3⟩ := ih _ h1
        refine ⟨r, by simp [e1], e2, ?_⟩
        rename_i hc
        simp [e3, Ne.symm hc]

theorem dotStarGreedy_sound {α : Type} (k : Str → Option α) (s x : Str) (a : α)
    (h : dotStarGreedy k s = some (x, a)) : ∃ r, s = x ++ r ∧ k r = some a ∧ '\n' ∉ x := by
  induction s generalizing x with
  | nil =>
    simp only [dotStarGreedy, Option.map_eq_some'] at h
    obtain ⟨a', h1, h2⟩ := h
    cases h2
    exact ⟨[], rfl, h1, by simp⟩
  | cons c t ih =>
    simp only [dotStarGreedy] at h
    split at h
    · simp only [Option.map_eq_some'] at h
      obtain ⟨a', h1, h2⟩ := h
      cases h2
      exact ⟨c :: t, rfl, h1, by simp⟩
    · rename_i hc
      split at h
      · cases h
        rename_i r h1
        obtain ⟨r', e1, e2, e3⟩ := ih _ h1
        exact ⟨r', by simp [e1], e2, by simp [e3, Ne.symm hc]⟩
      · simp only [Option.map_eq_some'] at h
        obtain ⟨a', h1, h2⟩ := h
        cases h2
        exact ⟨c :: t, rfl, h1, by simp⟩

theorem matchAt_sound (toks : List Tok) (s : Str) (segs : List Str) (rest : Str)
    (h : matchAt toks s = some (segs, rest)) : s = segs.flatten ++ rest := by
  induction toks generalizing s segs rest with
  | nil => simp [matchAt] at h; obtain ⟨h1, h2⟩ := h; subst h1 h2; simp
  | cons t ts ih =>
    cases t with
    | lit l =>
      simp only [matchAt] at h
      split at h
      · cases h
      · rename_i r hr
        simp only [Option.map_eq_some'] at h
        obtain ⟨⟨sg, rs⟩, h1, h2⟩ := h
        cases h2
        have := ih _ _ _ h1
        rw [stripLit_eq_some.1 hr, this]; simp
    | dotStar g =>
      cases g with
      | true =>
        simp only [matchAt, Option.map_eq_some'] at h
        obtain ⟨⟨x, sg, rs⟩, h1, h2⟩ := h
        cases h2
        obtain ⟨r, e1, e2, _⟩ := dotStarGreedy_sound _ _ _ _ h1
        have := ih _ _ _ e2
        rw [e1, this]; simp
      | false =>
        simp only [matchAt, Option.map_eq_some'] at h
        obtain ⟨⟨x, sg, rs⟩, h1, h2⟩ := h
        cases h2
        obtain ⟨r, e1, e2, _⟩ := dotStarLazy_sound _ _ _ _ h1
        have := ih _ _ _ e2
        rw [e1, this]; simp
theorem matchAt_lit_head (l : Str) (ts : List Tok) (s : Str) (segs : List Str) (rest : Str)
    (h : matchAt (Tok.lit l :: ts) s = some (segs, rest)) : ∃ sg, segs = l :: sg := by
  simp only [matchAt] at h
  split at h
  · cases h
  · simp only [Option.map_eq_some'] at h
    obtain ⟨⟨sg, rs⟩, _, h2⟩ := h
    cases h2
    exact ⟨sg, rfl⟩

theorem matchAt_lit_length (c : Char) (l : Str) (ts : List Tok) (s : Str) (segs : List Str)
    (rest : Str) (h : matchAt (Tok.lit (c :: l) :: ts) s = some (segs, rest)) :
    rest.length < s.length := by
  obtain ⟨sg, rfl⟩ := matchAt_lit_head _ _ _ _ _ h
  have := matchAt_sound _ _ _ _ h
  rw [this]; simp; omega

theorem matchAt_lit_nil (c : Char) (l : Str) (ts : List Tok) :
    matchAt (Tok.lit (c :: l) :: ts) [] = none := by
  simp [matchAt, stripLit]

theorem matchAt_lit_ne (c d : Char) (h : c ≠ d) (l : Str) (ts : List Tok) (s : Str) :
    matchAt (Tok.lit (c :: l) :: ts) (d :: s) = none := by
  simp [matchAt, stripLit, h]

theorem scanFuel_enough (c : Char) (l : Str) (ts : List Tok) (n m : Nat) (s : Str)
    (hn : s.length ≤ n) (hm : s.length ≤ m) :
    scanFuel (Tok.lit (c :: l) :: ts) n s = scanFuel (Tok.lit (c :: l) :: ts) m s := by
  induction n generalizing s m with
  | zero =>
    have hs : s = [] := List.length_eq_zero.1 (Nat.le_zero.1 hn)
    subst hs
    cases m with
    | zero => rfl
    | succ m => simp [scanFuel, matchAt_lit_nil]
  | succ n ih =>
    cases m with
    | zero =>
      have hs : s = [] := List.length_eq_zero.1 (Nat.le_zero.1 hm)
      subst hs
      simp [scanFuel, matchAt_lit_nil]
    | succ m =>
      simp only [scanFuel]
      cases hma : matchAt (Tok.lit (c :: l) :: ts) s with
      | some r =>
        obtain ⟨segs, rest⟩ := r
        have := matchAt_lit_length _ _ _ _ _ _ hma
        simp only
        rw [ih m rest (by omega) (by omega)]
      | none =>
        cases s with
        | nil => rfl
        | cons d t =>
          simp only
          simp only [List.length_cons] at hn hm
          rw [ih m t (by omega) (by omega)]

theorem scan_nil (toks : List Tok) : scan toks [] = [] := rfl

theorem scan_hit (c : Char) (l : Str) (ts : List Tok) (s : Str) (segs : List Str) (rest : Str)
    (h : matchAt (Tok.lit (c :: l) :: ts) s = some (segs, rest)) :
    scan (Tok.lit (c :: l) :: ts) s = Piece.hit segs :: scan (Tok.lit (c :: l) :: ts) rest := by
  have hlen := matchAt_lit_length _ _ _ _ _ _ h
  unfold scan
  cases hs : s.length with
  | zero => omega
  | succ n =>
    simp only [scanFuel, h]
    rw [scanFuel_enough c l ts n rest.length rest (by omega) (le_refl _)]

theorem scan_miss (c : Char) (l : Str) (ts : List Tok) (d : Char) (t : Str)
    (h : matchAt (Tok.lit (c :: l) :: ts) (d :: t) = none) :
    scan (Tok.lit (c :: l) :: ts) (d :: t) = Piece.char d :: scan (Tok.lit (c :: l) :: ts) t := by
  unfold scan
  simp only [List.length_cons, scanFuel, h]

theorem scan_skip (c : Char) (l : Str) (ts : List Tok) (u v : Str) (h : ∀ x ∈ u, x ≠ c) :
    scan (Tok.lit (c :: l) :: ts) (u ++ v)
      = u.map Piece.char ++ scan (Tok.lit (c :: l) :: ts) v := by
  induction u with
  | nil => rfl
  | cons d u ih =>
    have hd : c ≠ d := fun e => h d (by simp) e.symm
    rw [List.cons_append, scan_miss _ _ _ _ _ (matchAt_lit_ne c d hd l ts _),
      ih (fun x hx => h x (by simp [hx]))]
    rfl

theorem dotStarLazy_of_some {α : Type} (k : Str → Option α) (s : Str) (a : α) (h : k s = some a) :
    dotStarLazy k s = some ([], a) := by
  cases s with
  | nil => simp [dotStarLazy, h]
  | cons c t => simp [dotStarLazy, h]

theorem dotStarLazy_skip {α : Type} (k : Str → Option α) (u v : Str)
    (h : ∀ x ∈ u, x ≠ '\n' ∧ ∀ t, k (x :: t) = none) :
    dotStarLazy k (u ++ v) = (dotStarLazy k v).map (fun r => (u ++ r.1, r.2)) := by
  induction u with
  | nil => simp
  | cons d u ih =>
    obtain ⟨h1, h2⟩ := h d (by simp)
    rw [List.cons_append]
    simp only [dotStarLazy, h2, h1, if_false]
    rw [ih (fun x hx => h x (by simp [hx]))]
    simp [Option.map_map, Function.comp_def]

theorem matchAt_lit_append (l : Str) (ts : List Tok) (r : Str) :
    matchAt (Tok.lit l :: ts) (l ++ r) = (matchAt ts r).map (fun m => (l :: m.1, m.2)) := by
  simp [matchAt, stripLit_append]

theorem matchAt_lazy (ts : List Tok) (s : Str) :
    matchAt (Tok.dotStar false :: ts) s
      = (dotStarLazy (matchAt ts) s).map (fun r => (r.1 :: r.2.1, r.2.2)) := rfl

theorem matchAt_greedy (ts : List Tok) (s : Str) :
    matchAt (Tok.dotStar true :: ts) s
      = (dotStarGreedy (matchAt ts) s).map (fun r => (r.1 :: r.2.1, r.2.2)) := rfl

/-- The lazy run before a literal: text free of line feeds and of the first
character of the literal is skipped as a whole. -/
theorem dotStarLazy_lit (c : Char) (l : Str) (ts : List Tok) (u v : Str)
    (h : ∀ x ∈ u, x ≠ '\n' ∧ x ≠ c) :
    dotStarLazy (matchAt (Tok.lit (c :: l) :: ts)) (u ++ v)
      = (dotStarLazy (matchAt (Tok.lit (c :: l) :: ts)) v).map (fun r => (u ++ r.1, r.2)) :=
  dotStarLazy_skip _ u v fun x hx =>
    ⟨(h x hx).1, fun t => matchAt_lit_ne c x (fun e => (h x hx).2 e.symm) l ts t⟩

theorem flatten_render_chars (f : List Str → Str) (u : Str) :
    ((u.map Piece.char).map (Piece.render f)).flatten = u := by
  induction u with
  | nil => rfl
  | cons c u ih => simpa [Piece.render] using ih

theorem filterMap_match_chars (u : Str) : (u.map Piece.char).filterMap Piece.match? = [] := by
  induction u with
  | nil => rfl
  | cons c u ih => simpa [Piece.match?] using ih

theorem matchesOf_nil (toks : List Tok) : matchesOf toks [] = [] := rfl

theorem matchesOf_skip (c : Char) (l : Str) (ts : List Tok) (u v : Str) (hu : ∀ x ∈ u, x ≠ c) :
    matchesOf (Tok.lit (c :: l) :: ts) (u ++ v) = matchesOf (Tok.lit (c :: l) :: ts) v := by
  unfold matchesOf
  rw [scan_skip c l ts u v hu, List.filterMap_append, filterMap_match_chars, List.nil_append]

theorem matchesOf_hit (c : Char) (l : Str) (ts : List Tok) (s : Str) (segs : List Str) (rest : Str)
    (h : matchAt (Tok.lit (c :: l) :: ts) s = some (segs, rest)) :
    matchesOf (Tok.lit (c :: l) :: ts) s = segs :: matchesOf (Tok.lit (c :: l) :: ts) rest := by
  unfold matchesOf
  rw [scan_hit c l ts s segs rest h]
  rfl

theorem matchesOf_miss (c : Char) (l : Str) (ts : List Tok) (d : Char) (t : Str)
    (h : matchAt (Tok.lit (c :: l) :: ts) (d :: t) = none) :
    matchesOf (Tok.lit (c :: l) :: ts) (d :: t) = matchesOf (Tok.lit (c :: l) :: ts) t := by
  unfold matchesOf
  rw [scan_miss c l ts d t h]
  rfl

theorem Regex.replace_nil (re : Regex) (tpl : List Repl) : re.ReplaceAllString [] tpl = [] := rfl

theorem Regex.replace_skip (re : Regex) (c : Char) (l : Str) (ts : List Tok)
    (hre : re.toks = Tok.lit (c :: l) :: ts) (tpl : List Repl) (u v : Str)
    (hu : ∀ x ∈ u, x ≠ c) :
    re.ReplaceAllString (u ++ v) tpl = u ++ re.ReplaceAllString v tpl := by
  unfold Regex.ReplaceAllString
  rw [hre, scan_skip c l ts u v hu, List.map_append, List.flatten_append, flatten_render_chars]

theorem Regex.replace_hit (re : Regex) (c : Char) (l : Str) (ts : List Tok)
    (hre : re.toks = Tok.lit (c :: l) :: ts) (tpl : List Repl) (s : Str) (segs : List Str)
    (rest : Str) (h : matchAt re.toks s = some (segs, rest)) :
    re.ReplaceAllString s tpl = re.expand tpl segs ++ re.ReplaceAllString rest tpl := by
  unfold Regex.ReplaceAllString
  rw [hre] at h ⊢
  rw [scan_hit c l ts s segs rest h]
  rfl

theorem Regex.replace_miss (re : Regex) (c : Char) (l : Str) (ts : List Tok)
    (hre : re.toks = Tok.lit (c :: l) :: ts) (tpl : List Repl) (d : Char) (t : Str)
    (h : matchAt re.toks (d :: t) = none) :
    re.ReplaceAllString (d :: t) tpl = d :: re.ReplaceAllString t tpl := by
  unfold Regex.ReplaceAllString
  rw [hre] at h ⊢
  rw [scan_miss c l ts d t h]
  rfl

/-- Text without the first character of the pattern holds no match. -/
theorem Regex.replace_plain (re : Regex) (c : Char) (l : Str) (ts : List Tok)
    (hre : re.toks = Tok.lit (c :: l) :: ts) (tpl : List Repl) (u : Str)
    (hu : ∀ x ∈ u, x ≠ c) : re.ReplaceAllString u tpl = u := by
  have := Regex.replace_skip re c l ts hre tpl u [] hu
  rw [List.append_nil, Regex.replace_nil, List.append_nil] at this
  exact this

theorem scan_covers_aux (c : Char) (l : Str) (ts : List Tok) (n : Nat) : ∀ s : Str, s.length ≤ n →
    ((scan (Tok.lit (c :: l) :: ts) s).map (Piece.render List.flatten)).flatten = s := by
  induction n with
  | zero =>
    intro s hn
    have : s = [] := List.length_eq_zero.1 (Nat.le_zero.1 hn)
    subst this
    rfl
  | succ n ih =>
    intro s hn
    cases hm : matchAt (Tok.lit (c :: l) :: ts) s with
    | some m =>
      obtain ⟨segs, rest⟩ := m
      have hlen := matchAt_lit_length _ _ _ _ _ _ hm
      have hsound := matchAt_sound _ _ _ _ hm
      rw [scan_hit _ _ _ _ _ _ hm]
      simp only [List.map_cons, List.flatten_cons, Piece.render]
      rw [ih rest (by omega), ← hsound]
    | none =>
      cases s with
      | nil => rfl
      | cons d t =>
        rw [scan_miss _ _ _ _ _ hm]
        simp only [List.map_cons, List.flatten_cons, Piece.render, List.singleton_append]
        rw [ih t (by simp at hn; omega)]

/-- The scan runs to the end of the text: its pieces, each match taken as its own
text, make up the text again. -/
theorem scan_covers (c : Char) (l : Str) (ts : List Tok) (s : Str) :
    ((scan (Tok.lit (c :: l) :: ts) s).map (Piece.render List.flatten)).flatten = s :=
  scan_covers_aux c l ts s.length s (le_refl _)

/-! ### The image patterns on one tag -/

theorem nameChar_ne {c : Char} (d : Char) (h : nameChar c = true) (hd : nameChar d = false) : c ≠ d :=
  fun e => by rw [e, hd] at h; cases h

theorem matchAt_graphics2 (X Y r : Str) (hX : ∀ c ∈ X, c ≠ '\n' ∧ c ≠ '/')
    (hY : ∀ c ∈ Y, c ≠ '\n' ∧ c ≠ '/') :
    matchAt reGraphics2.toks ("/graphics/".toList ++ (X ++ ("/graphics/".toList ++ (Y ++ ("/".toList ++ r)))))
      = some (["/graphics/".toList, X, "/graphics/".toList, Y, "/".toList], r) := by
  have h1 : matchAt [Tok.lit "/".toList] ("/".toList ++ r) = some (["/".toList], r) := by
    rw [matchAt_lit_append]; rfl
  have h2 : dotStarLazy (matchAt [Tok.lit "/".toList]) (Y ++ ("/".toList ++ r))
      = some (Y, ["/".toList], r) := by
    rw [show "/".toList = '/' :: [] from rfl] at h1 ⊢
    rw [dotStarLazy_lit _ _ _ _ _ hY, dotStarLazy_of_some _ _ _ h1]; simp
  have h3 : matchAt [Tok.lit "/graphics/".toList, Tok.dotStar false, Tok.lit "/".toList]
      ("/graphics/".toList ++ (Y ++ ("/".toList ++ r)))
      = some (["/graphics/".toList, Y, "/".toList], r) := by
    rw [matchAt_lit_append, matchAt_lazy, h2]; rfl
  have h4 : dotStarLazy (matchAt [Tok.lit "/graphics/".toList, Tok.dotStar false, Tok.lit "/".toList])
      (X ++ ("/graphics/".toList ++ (Y ++ ("/".toList ++ r))))
      = some (X, ["/graphics/".toList, Y, "/".toList], r) := by
    rw [show "/graphics/".toList = '/' :: "graphics/".toList from rfl] at h3 ⊢
    rw [dotStarLazy_lit _ _ _ _ _ hX, dotStarLazy_of_some _ _ _ h3]; simp
  show matchAt [Tok.lit "/graphics/".toList, Tok.dotStar false, Tok.lit "/graphics/".toList,
      Tok.dotStar false, Tok.lit "/".toList] _ = _
  rw [matchAt_lit_append, matchAt_lazy, h4]; rfl

/-- The match of a three-token pattern `lit a, .*?, lit (c :: b)` on `a ++ u ++ (c :: b) ++ r`
when `u` holds neither a line feed nor `c`. -/
theorem matchAt_lazy3 (a : Str) (c : Char) (b u r : Str) (hu : ∀ x ∈ u, x ≠ '\n' ∧ x ≠ c) :
    matchAt [Tok.lit a, Tok.dotStar false, Tok.lit (c :: b)] (a ++ (u ++ ((c :: b) ++ r)))
      = some ([a, u, c :: b], r) := by
  have h1 : matchAt [Tok.lit (c :: b)] ((c :: b) ++ r) = some ([c :: b], r) := by
    rw [matchAt_lit_append]; rfl
  rw [matchAt_lit_append, matchAt_lazy, dotStarLazy_lit _ _ _ _ _ hu, dotStarLazy_of_some _ _ _ h1]
  simp

theorem graphicsSrc_avoid (X Y F : Str) (d : Char) (hd : nameChar d = false) (hd' : d ≠ '/')
    (hX : ∀ c ∈ X, nameChar c = true) (hY : ∀ c ∈ Y, nameChar c = true)
    (hF : ∀ c ∈ F, nameChar c = true) : ∀ c ∈ graphicsSrc X Y F, c ≠ d := by
  have hl : ∀ c ∈ "/graphics/".toList, c = '/' ∨ nameChar c = true := by decide
  have hl' : ∀ c ∈ "/".toList, c = '/' ∨ nameChar c = true := by decide
  have key : ∀ c, (c = '/' ∨ nameChar c = true) → c ≠ d := by
    rintro c (rfl | h)
    · exact fun e => hd' e.symm
    · exact nameChar_ne d h hd
  intro c hc
  simp only [graphicsSrc, List.mem_append] at hc
  rcases hc with ((((hc | hc) | hc) | hc) | hc) | hc
  · exact key c (hl c hc)
  · exact key c (Or.inr (hX c hc))
  · exact key c (hl c hc)
  · exact key c (Or.inr (hY c hc))
  · exact key c (hl' c hc)
  · exact key c (Or.inr (hF c hc))

theorem fixImgInternalSrc_graphics_aux (X Y F isbn : Str)
    (hX : ∀ c ∈ X, nameChar c = true) (hY : ∀ c ∈ Y, nameChar c = true)
    (hF : ∀ c ∈ F, nameChar c = true) :
    fixImgInternalSrc (imgTag (graphicsSrc X Y F)) isbn
      = ("<img src=\"".toList ++ ("../images/".toList ++ F) ++ "\"/>".toList,
         [["<img src=\"".toList ++ graphicsSrc X Y F ++ "\"".toList, graphicsSrc X Y F]]) := by
  have hX' : ∀ c ∈ X, c ≠ '\n' ∧ c ≠ '/' := fun c hc =>
    ⟨nameChar_ne _ (hX c hc) (by decide), nameChar_ne _ (hX c hc) (by decide)⟩
  have hY' : ∀ c ∈ Y, c ≠ '\n' ∧ c ≠ '/' := fun c hc =>
    ⟨nameChar_ne _ (hY c hc) (by decide), nameChar_ne _ (hY c hc) (by decide)⟩
  have hFc : ∀ d, nameChar d = false → ∀ c ∈ F, c ≠ d := fun d hd c hc => nameChar_ne d (hF c hc) hd
  -- step 1: the references
  have s1 : reImgSrc.FindAllStringSubmatch (imgTag (graphicsSrc X Y F))
      = [["<img src=\"".toList ++ graphicsSrc X Y F ++ "\"".toList, graphicsSrc X Y F]] := by
    have hm : matchAt reImgSrc.toks (imgTag (graphicsSrc X Y F))
        = some (["<img src=\"".toList, graphicsSrc X Y F, "\"".toList], ">".toList) := by
      have := matchAt_lazy3 "<img src=\"".toList '"' [] (graphicsSrc X Y F) ">".toList
        (fun x hx => ⟨graphicsSrc_avoid X Y F _ (by decide) (by decide) hX hY hF x hx,
          graphicsSrc_avoid X Y F _ (by decide) (by decide) hX hY hF x hx⟩)
      simpa [imgTag, reImgSrc] using this
    unfold Regex.FindAllStringSubmatch
    rw [show reImgSrc.toks = Tok.lit ('<' :: "img src=\"".toList) :: _ from rfl] at hm ⊢
    rw [matchesOf_hit _ _ _ _ _ _ hm]
    have := matchesOf_skip '<' "img src=\"".toList [Tok.dotStar false, Tok.lit "\"".toList]
      ">".toList [] (by decide)
    rw [List.append_nil] at this
    rw [this, matchesOf_nil]
    simp [reImgSrc, Regex.group, List.range_succ]
  -- step 2: the nested path becomes `../images/`
  have s2 : reGraphics2.ReplaceAllString (imgTag (graphicsSrc X Y F)) [Repl.text "../images/".toList]
      = "<img src=\"".toList ++ ("../images/".toList ++ (F ++ "\">".toList)) := by
    have e : imgTag (graphicsSrc X Y F) = "<img src=\"".toList ++
        ("/graphics/".toList ++ (X ++ ("/graphics/".toList ++ (Y ++ ("/".toList ++ (F ++ "\">".toList))))))
        := by simp [imgTag, graphicsSrc]
    rw [e, Regex.replace_skip reGraphics2 '/' "graphics/".toList _ rfl _ _ _ (by decide),
      Regex.replace_hit reGraphics2 '/' "graphics/".toList _ rfl _ _ _ _
        (matchAt_graphics2 X Y _ hX' hY'),
      Regex.replace_plain reGraphics2 '/' "graphics/".toList _ rfl]
    · rfl
    · exact List.forall_mem_append.2 ⟨hFc _ (by decide), by decide⟩
  -- step 3: the image tag is closed
  have s3 : reImgTag.ReplaceAllString ("<img src=\"".toList ++ ("../images/".toList ++ (F ++ "\">".toList)))
      selfClosing = "<img src=\"".toList ++ ("../images/".toList ++ (F ++ "\"/>".toList)) := by
    have e : "<img src=\"".toList ++ ("../images/".toList ++ (F ++ "\">".toList))
        = "<img".toList ++ ((" src=\"../images/".toList ++ (F ++ "\"".toList)) ++ (['>'] ++ [])) := by
      simp
    have hm := matchAt_lazy3 "<img".toList '>' [] (" src=\"../images/".toList ++ (F ++ "\"".toList)) []
      (List.forall_mem_append.2 ⟨by decide, List.forall_mem_append.2
        ⟨fun x h => ⟨hFc _ (by decide) x h, hFc _ (by decide) x h⟩, by decide⟩⟩)
    rw [e, Regex.replace_hit reImgTag '<' "img".toList _ rfl _ _ _ _ hm, Regex.replace_nil]
    simp [Regex.expand, selfClosing, Regex.group, reImgTag]
  -- step 4: there is no line break tag
  have s4 : reBrTag.ReplaceAllString ("<img src=\"".toList ++ ("../images/".toList ++ (F ++ "\"/>".toList)))
      selfClosing = "<img src=\"".toList ++ ("../images/".toList ++ (F ++ "\"/>".toList)) := by
    have e : "<img src=\"".toList ++ ("../images/".toList ++ (F ++ "\"/>".toList))
        = '<' :: ("img src=\"../images/".toList ++ (F ++ "\"/>".toList)) := by simp
    rw [e, Regex.replace_miss reBrTag '<' "br".toList _ rfl _ _ _ (by simp [reBrTag, matchAt, stripLit]),
      Regex.replace_plain reBrTag '<' "br".toList _ rfl]
    exact List.forall_mem_append.2 ⟨by decide, List.forall_mem_append.2 ⟨hFc _ (by decide), by decide⟩⟩
  unfold fixImgInternalSrc
  simp only [s1, s2, s3, s4]
  simp

/-! ### `FixImgUrlError` and `filepath.Base` -/

/-- Text in which the first literal of the pattern does not occur holds no match. -/
theorem scan_no_lit (l : Str) (c : Char) (ts : List Tok) (u : Str) (h : ¬ (c :: l) <:+: u) :
    scan (Tok.lit (c :: l) :: ts) u = u.map Piece.char := by
  induction u with
  | nil => rfl
  | cons d t ih =>
    have hm : matchAt (Tok.lit (c :: l) :: ts) (d :: t) = none := by
      cases hs : stripLit (c :: l) (d :: t) with
      | none => simp [matchAt, hs]
      | some r =>
        exact absurd ⟨[], r, by simpa using (stripLit_eq_some.1 hs).symm⟩ h
    rw [scan_miss _ _ _ _ _ hm, ih (fun hi => h (hi.trans (List.suffix_cons d t).isInfix))]
    rfl

theorem Regex.replace_no_lit (re : Regex) (c : Char) (l : Str) (ts : List Tok)
    (hre : re.toks = Tok.lit (c :: l) :: ts) (tpl : List Repl) (u : Str)
    (h : ¬ (c :: l) <:+: u) : re.ReplaceAllString u tpl = u := by
  unfold Regex.ReplaceAllString
  rw [hre, scan_no_lit l c ts u h, flatten_render_chars]

theorem FixImgUrlError_first (id rest : Str) (hid : ∀ c ∈ id, c ≠ '\n' ∧ c ≠ '/') :
    FixImgUrlError ("/graphics/".toList ++ id ++ "/".toList ++ rest) = FixImgUrlError rest := by
  have hm := matchAt_lazy3 "/graphics/".toList '/' [] id rest hid
  have e : "/graphics/".toList ++ id ++ "/".toList ++ rest
      = "/graphics/".toList ++ (id ++ (['/'] ++ rest)) := by simp
  unfold FixImgUrlError
  rw [e, Regex.replace_hit reGraphics1 '/' "graphics/".toList _ rfl _ _ _ _ hm]
  rfl

theorem filepathBase_name (p F : Str) (hF : F ≠ []) (h : ∀ c ∈ F, c ≠ '/') :
    filepathBase (p ++ "/".toList ++ F) = F := by
  have hne : p ++ "/".toList ++ F ≠ [] := by
    cases F with
    | nil => exact absurd rfl hF
    | cons c t => simp
  obtain ⟨c, t, hrev⟩ : ∃ c t, F.reverse = c :: t := by
    cases h' : F.reverse with
    | nil => exact absurd (List.reverse_eq_nil_iff.1 h') hF
    | cons c t => exact ⟨c, t, rfl⟩
  have hc : c ≠ '/' := h c (by rw [← List.mem_reverse, hrev]; simp)
  have hr : ∀ x ∈ F.reverse, x ≠ '/' := fun x hx => h x (List.mem_reverse.1 hx)
  unfold filepathBase
  rw [if_neg hne]
  have e1 : (p ++ "/".toList ++ F).reverse = F.reverse ++ ('/' :: p.reverse) := by simp
  have e2 : List.dropWhile (fun c => decide (c = '/')) (F.reverse ++ ('/' :: p.reverse))
      = F.reverse ++ ('/' :: p.reverse) := by
    rw [hrev]; simp [List.dropWhile, hc]
  have e3 : List.takeWhile (fun c => decide (c ≠ '/')) (F.reverse ++ ('/' :: p.reverse))
      = F.reverse := by
    rw [List.takeWhile_append_of_pos (by simpa using hr)]
    simp [List.takeWhile]
  simp only [e1, e2, List.reverse_reverse, e3]
  rw [if_neg hF]

/-! ### The resource materializer -/

theorem Epub.AddImage_sections (e : Epub) (a b : Str) : (e.AddImage a b).sections = e.sections := by
  unfold Epub.AddImage; split <;> rfl

theorem Epub.AddImage_keys_nodup (e : Epub) (a b : Str) (h : (e.images.map Prod.fst).Nodup) :
    ((e.AddImage a b).images.map Prod.fst).Nodup := by
  unfold Epub.AddImage
  split
  · exact h
  · rename_i hb
    simp only [List.map_append, List.map_cons, List.map_nil]
    exact List.Nodup.append h (List.nodup_singleton b) (by simpa using hb)

theorem Epub.AddImage_mem_keys (e : Epub) (a b : Str) :
    b ∈ (e.AddImage a b).images.map Prod.fst := by
  unfold Epub.AddImage
  split
  · assumption
  · simp

theorem Epub.AddImage_keys_mono (e : Epub) (a b k : Str) (h : k ∈ e.images.map Prod.fst) :
    k ∈ (e.AddImage a b).images.map Prod.fst := by
  unfold Epub.AddImage
  split
  · exact h
  · simp only [List.map_append, List.mem_append]; exact Or.inl h

theorem registerAll_sections (env : Env) (e : Epub) (srcs : List Str) :
    (registerAll env e srcs).sections = e.sections := by
  induction srcs generalizing e with
  | nil => rfl
  | cons a t ih => simp only [registerAll, List.foldl_cons] at ih ⊢; rw [ih, Epub.AddImage_sections]

theorem registerAll_keys_nodup (env : Env) (e : Epub) (srcs : List Str)
    (h : (e.images.map Prod.fst).Nodup) : ((registerAll env e srcs).images.map Prod.fst).Nodup := by
  induction srcs generalizing e with
  | nil => exact h
  | cons a t ih =>
    simp only [registerAll, List.foldl_cons] at ih ⊢
    exact ih _ (Epub.AddImage_keys_nodup _ _ _ h)

theorem registerAll_keys_mono (env : Env) (e : Epub) (srcs : List Str) (k : Str)
    (h : k ∈ e.images.map Prod.fst) : k ∈ (registerAll env e srcs).images.map Prod.fst := by
  induction srcs generalizing e with
  | nil => exact h
  | cons a t ih =>
    simp only [registerAll, List.foldl_cons] at ih ⊢
    exact ih _ (Epub.AddImage_keys_mono _ _ _ _ h)

theorem registerAll_mem_keys (env : Env) (e : Epub) (srcs : List Str) (src : Str)
    (h : src ∈ srcs) : archivePath src ∈ (registerAll env e srcs).images.map Prod.fst := by
  induction srcs generalizing e with
  | nil => cases h
  | cons a t ih =>
    simp only [registerAll, List.foldl_cons] at ih ⊢
    rcases List.mem_cons.1 h with rfl | h
    · exact registerAll_keys_mono env _ t _ (Epub.AddImage_mem_keys _ _ _)
    · exact ih _ h

theorem downloaded_nil (env : Env) (isbn : Str) (n : Nat) : downloaded env isbn n [] = [] := rfl

theorem downloaded_cons (env : Env) (isbn : Str) (n : Nat) (u : List Str) (rest : List (List Str)) :
    downloaded env isbn n (u :: rest)
      = if env.grabGet n (scratchPath env (refSrc u)) (imageUrl isbn (refSrc u)) then
          refSrc u :: downloaded env isbn (n + 1) rest
        else downloaded env isbn (n + 1) rest := by
  unfold downloaded
  simp only [List.enumFrom_cons, List.filter_cons]
  split <;> simp

theorem get?_one_of_length {u : List Str} (h : u.length = 2) : u.get? 1 = some (refSrc u) := by
  match u, h with
  | [a, b], _ => rfl

/-- What `EmbedEPubImage` does to the state on a batch of references of two
entries each: it returns, having tried every reference and registered and
recorded exactly the downloaded ones, in order. -/
theorem EmbedEPubImage_eq (env : Env) (isbn : Str) (urls : List (List Str)) (st : State)
    (h : ∀ u ∈ urls, u.length = 2) :
    EmbedEPubImage env isbn urls st
      = ({ st with
            grabs := st.grabs + urls.length
            scratch := st.scratch ++ (downloaded env isbn st.grabs urls).map (scratchPath env)
            e := registerAll env st.e (downloaded env isbn st.grabs urls)
            tmpfiles := st.tmpfiles ++ (downloaded env isbn st.grabs urls).map (scratchPath env) },
          none) := by
  induction urls generalizing st with
  | nil => simp [EmbedEPubImage, downloaded_nil, registerAll]
  | cons u rest ih =>
    have hu := get?_one_of_length (h u (by simp))
    have hrest : ∀ v ∈ rest, v.length = 2 := fun v hv => h v (by simp [hv])
    simp only [EmbedEPubImage, hu, downloaded_cons]
    split
    · rw [ih _ hrest]
      simp [registerAll, Nat.add_assoc, Nat.add_comm 1]
    · rw [ih _ hrest]
      simp [Nat.add_assoc, Nat.add_comm 1]

theorem EmbedEPubImage_sections (env : Env) (isbn : Str) (urls : List (List Str)) (st : State) :
    (EmbedEPubImage env isbn urls st).1.e.sections = st.e.sections := by
  induction urls generalizing st with
  | nil => rfl
  | cons u rest ih =>
    simp only [EmbedEPubImage]
    split
    · rfl
    · split
      · rw [ih]; exact Epub.AddImage_sections _ _ _
      · rw [ih]

theorem EmbedEPubImage_keys_nodup (env : Env) (isbn : Str) (urls : List (List Str)) (st : State)
    (h : (st.e.images.map Prod.fst).Nodup) :
    ((EmbedEPubImage env isbn urls st).1.e.images.map Prod.fst).Nodup := by
  induction urls generalizing st with
  | nil => exact h
  | cons u rest ih =>
    simp only [EmbedEPubImage]
    split
    · exact h
    · split
      · exact ih _ (Epub.AddImage_keys_nodup _ _ _ h)
      · exact ih _ h

theorem matchesOf_refs_length (re : Regex) (s : Str) :
    ∀ ref ∈ re.FindAllStringSubmatch s, ref.length = re.groups.length + 1 := by
  intro ref h
  unfold Regex.FindAllStringSubmatch at h
  obtain ⟨segs, _, rfl⟩ := List.mem_map.1 h
  simp

theorem fixImgInternalSrc_refs (page isbn : Str) :
    ∀ ref ∈ (fixImgInternalSrc page isbn).2, ref.length = 2 := by
  intro ref h
  unfold fixImgInternalSrc at h
  simp only at h
  split at h
  · cases h
  · exact matchesOf_refs_length reImgSrc page ref h

theorem addPage_eq (env : Env) (token isbn chapterId pageId title page : Str) (st : State)
    (hpage : fetchPage env token isbn chapterId pageId = Except.ok (some page)) :
    addPage env token isbn chapterId pageId title st
      = ({ afterBatch env isbn (fixImgInternalSrc page isbn).2 st with
            e := (afterBatch env isbn (fixImgInternalSrc page isbn).2 st).e.AddSection
              (fixImgInternalSrc page isbn).1 title }, none) := by
  have hemb : (if (fixImgInternalSrc page isbn).2.length > 0 then
        EmbedEPubImage env isbn (fixImgInternalSrc page isbn).2 st else (st, none))
      = (afterBatch env isbn (fixImgInternalSrc page isbn).2 st, none) := by
    split
    · exact EmbedEPubImage_eq env isbn _ st (fixImgInternalSrc_refs page isbn)
    · rename_i hlen
      have hnil : (fixImgInternalSrc page isbn).2 = [] := by
        cases h : (fixImgInternalSrc page isbn).2 with
        | nil => rfl
        | cons a t => rw [h] at hlen; simp at hlen
      simp [afterBatch, hnil, downloaded_nil, registerAll]
  unfold addPage
  simp only [hpage, hemb]

theorem filter_key_nil (l : List (Str × Str)) (k : Str) (h : k ∉ l.map Prod.fst) :
    l.filter (fun p => decide (p.1 = k)) = [] := by
  rw [List.filter_eq_nil_iff]
  intro p hp
  simp only [decide_eq_true_eq]
  rintro rfl
  exact h (List.mem_map.2 ⟨p, hp, rfl⟩)

theorem entries_of_nodup (l : List (Str × Str)) (k : Str) (h : (l.map Prod.fst).Nodup) :
    (l.filter fun p => decide (p.1 = k)).length ≤ 1 ∧
    (k ∈ l.map Prod.fst → (l.filter fun p => decide (p.1 = k)).length = 1) := by
  induction l with
  | nil => simp
  | cons p t ih =>
    simp only [List.map_cons, List.nodup_cons] at h
    obtain ⟨hp, ht⟩ := h
    by_cases hk : p.1 = k
    · subst hk
      simp [List.filter_cons, filter_key_nil t p.1 hp]
    · have hk' : k ≠ p.1 := fun e => hk e.symm
      simp only [List.filter_cons, hk, decide_False, Bool.false_eq_true, if_false, List.map_cons,
        List.mem_cons, hk', false_or]
      exact ih ht

/-! ### The orchestrator -/

theorem addPage_ok (env : Env) (token isbn chapterId pageId title : Str) (st : State)
    (h : ∃ page, fetchPage env token isbn chapterId pageId = Except.ok (some page)) :
    ∃ st1, addPage env token isbn chapterId pageId title st = (st1, none) ∧
      st1.e.sections = st.e.sections ++
        [{ body := pageBody env token isbn chapterId pageId, title := title }] := by
  obtain ⟨page, hpage⟩ := h
  refine ⟨_, addPage_eq env token isbn chapterId pageId title page st hpage, ?_⟩
  simp [Epub.AddSection, afterBatch, registerAll_sections, pageBody, hpage]

theorem sectionLoop_ok (env : Env) (token isbn chapterId : Str) (secs : List Section) (curr : Nat)
    (st : State)
    (h : ∀ s ∈ secs, ∃ page, fetchPage env token isbn chapterId s.ID = Except.ok (some page)) :
    ∃ st1, sectionLoop env token isbn chapterId secs (curr + 1) st = (st1, none) ∧
      st1.e.sections = st.e.sections ++
        secs.map fun s => { body := pageBody env token isbn chapterId s.ID, title := s.Title } := by
  induction secs generalizing curr st with
  | nil => exact ⟨st, rfl, by simp⟩
  | cons s rest ih =>
    obtain ⟨st1, h1, h1s⟩ := addPage_ok env token isbn chapterId s.ID s.Title st (h s (by simp))
    obtain ⟨st2, h2, h2s⟩ := ih (curr + 1) st1 (fun x hx => h x (by simp [hx]))
    refine ⟨st2, ?_, ?_⟩
    · simp only [sectionLoop, Nat.succ_pos, if_true, gt_iff_lt, h1]
      exact h2
    · rw [h2s, h1s]; simp

theorem chapterLoop_ok (env : Env) (token isbn : Str) (chs : List Chapter) (st : State)
    (hsec : ∀ ch ∈ chs, ch.Sections ≠ [])
    (hfetch : ∀ ch ∈ chs, ∀ s ∈ ch.Sections,
      ∃ page, fetchPage env token isbn ch.ID s.ID = Except.ok (some page)) :
    ∃ st1, chapterLoop env token isbn chs st = (st1, none) ∧
      st1.e.sections = st.e.sections ++ expectedSections env token isbn chs := by
  induction chs generalizing st with
  | nil => exact ⟨st, rfl, by simp [expectedSections]⟩
  | cons ch rest ih =>
    cases hS : ch.Sections with
    | nil => exact absurd hS (hsec ch (by simp))
    | cons first later =>
      have hf := hfetch ch (by simp)
      rw [hS] at hf
      obtain ⟨st1, h1, h1s⟩ := addPage_ok env token isbn ch.ID first.ID ch.Title st
        (hf first (by simp))
      obtain ⟨st2, h2, h2s⟩ := sectionLoop_ok env token isbn ch.ID later 0 st1
        (fun s hs => hf s (by simp [hs]))
      obtain ⟨st3, h3, h3s⟩ := ih st2 (fun c hc => hsec c (by simp [hc]))
        (fun c hc => hfetch c (by simp [hc]))
      refine ⟨st3, ?_, ?_⟩
      · simp only [chapterLoop, hS, List.get?_cons_zero, h1]
        simp only [sectionLoop, gt_iff_lt, Nat.lt_irrefl, if_false]
        simp only [Nat.zero_add] at h2 ⊢
        rw [h2]
        exact h3
      · rw [h3s, h2s, h1s]
        simp [expectedSections, hS]

theorem expectedSections_length (env : Env) (token isbn : Str) (chs : List Chapter) :
    (expectedSections env token isbn chs).length = (chs.map fun ch => ch.Sections.length).sum := by
  induction chs with
  | nil => rfl
  | cons ch rest ih =>
    simp only [expectedSections, List.map_cons, List.flatten_cons, List.length_append,
      List.sum_cons] at ih ⊢
    rw [ih]
    cases ch.Sections <;> simp

theorem fetchMetadata_fresh (env : Env) (isbn : Str) (summary : Summary) (toc : TOC) (e : Epub)
    (h : fetchMetadata env isbn = Except.ok (summary, toc, e)) :
    e.sections = [] ∧ e.images = [] := by
  unfold fetchMetadata at h
  split at h
  · cases h
  · split at h
    · cases h
    · split at h
      · cases h
      · split at h
        · cases h
        · cases h
          exact ⟨rfl, rfl⟩

/-! ### The bodies of the appended sections -/

theorem addPage_bodies (env : Env) (token isbn chapterId pageId title : Str) (st : State) :
    ∀ sec ∈ (addPage env token isbn chapterId pageId title st).1.e.sections,
      sec ∈ st.e.sections ∨ Rewritten env token isbn sec := by
  intro sec hsec
  cases hf : fetchPage env token isbn chapterId pageId with
  | error stop => simp only [addPage, hf] at hsec; exact Or.inl hsec
  | ok r =>
    cases r with
    | none => simp only [addPage, hf] at hsec; exact Or.inl hsec
    | some page =>
      rw [addPage_eq env token isbn chapterId pageId title page st hf] at hsec
      simp only [Epub.AddSection, afterBatch, registerAll_sections, List.mem_append,
        List.mem_singleton] at hsec
      rcases hsec with h | h
      · exact Or.inl h
      · exact Or.inr ⟨chapterId, pageId, page, hf, by rw [h]⟩

theorem sectionLoop_bodies (env : Env) (token isbn chapterId : Str) (secs : List Section)
    (curr : Nat) (st : State) :
    ∀ sec ∈ (sectionLoop env token isbn chapterId secs curr st).1.e.sections,
      sec ∈ st.e.sections ∨ Rewritten env token isbn sec := by
  induction secs generalizing curr st with
  | nil => intro sec h; exact Or.inl h
  | cons s rest ih =>
    intro sec h
    simp only [sectionLoop] at h
    split at h
    · have ha := addPage_bodies env token isbn chapterId s.ID s.Title st
      split at h
      · rename_i st1 stop heq
        rw [heq] at ha
        exact ha sec h
      · rename_i st1 heq
        rw [heq] at ha
        rcases ih _ _ sec h with h' | h'
        · exact ha sec h'
        · exact Or.inr h'
    · exact ih _ _ sec h

theorem chapterLoop_bodies (env : Env) (token isbn : Str) (chs : List Chapter) (st : State) :
    ∀ sec ∈ (chapterLoop env token isbn chs st).1.e.sections,
      sec ∈ st.e.sections ∨ Rewritten env token isbn sec := by
  induction chs generalizing st with
  | nil => intro sec h; exact Or.inl h
  | cons ch rest ih =>
    intro sec h
    simp only [chapterLoop] at h
    split at h
    · exact Or.inl h
    · rename_i first _
      have ha := addPage_bodies env token isbn ch.ID first.ID ch.Title st
      split at h
      · rename_i st1 stop heq
        rw [heq] at ha
        exact ha sec h
      · rename_i st1 heq
        rw [heq] at ha
        have hs := sectionLoop_bodies env token isbn ch.ID ch.Sections 0 st1
        have step : ∀ x, (x ∈ st1.e.sections ∨ Rewritten env token isbn x) →
            (x ∈ st.e.sections ∨ Rewritten env token isbn x) := by
          rintro x (hx | hx)
          · exact ha x hx
          · exact Or.inr hx
        split at h
        · rename_i st2 stop heq2
          rw [heq2] at hs
          exact step sec (hs sec h)
        · rename_i st2 heq2
          rw [heq2] at hs
          rcases ih _ sec h with h' | h'
          · exact step sec (hs sec h')
          · exact Or.inr h'

/-! ### Lists -/

theorem append_split_of_le {α : Type} {u v a b : List α} (h : u ++ v = a ++ b)
    (hl : a.length ≤ u.length) : ∃ e, u = a ++ e ∧ b = e ++ v := by
  rcases List.append_eq_append_iff.1 h with ⟨e, h1, h2⟩ | ⟨e, h1, h2⟩
  · -- a = u ++ e
    have : e = [] := by
      have := congrArg List.length h1
      simp at this
      exact List.length_eq_zero.1 (by omega)
    subst this
    exact ⟨[], by simpa using h1.symm, by simpa using h2.symm⟩
  · exact ⟨e, h1, h2⟩

theorem suffix_cons_cases {α : Type} {t : List α} {x : α} {u : List α} (h : t <:+ x :: u) :
    t = x :: u ∨ t <:+ u := by
  rcases List.suffix_cons_iff.1 h with h | h
  · exact Or.inl h
  · exact Or.inr h

theorem suffix_append_cases {α : Type} {t a b : List α} (h : t <:+ a ++ b) :
    t <:+ b ∨ ∃ a', a' ≠ [] ∧ a' <:+ a ∧ t = a' ++ b := by
  induction a with
  | nil => exact Or.inl (by simpa using h)
  | cons x a ih =>
    rcases suffix_cons_cases (by simpa using h : t <:+ x :: (a ++ b)) with h1 | h1
    · exact Or.inr ⟨x :: a, by simp, List.suffix_refl _, by simpa using h1⟩
    · rcases ih h1 with h2 | ⟨a', ha, hs, ht⟩
      · exact Or.inl h2
      · exact Or.inr ⟨a', ha, hs.trans (List.suffix_cons x a), ht⟩

/-! ### The greedy run on a line -/

theorem dotStarGreedy_none {α : Type} (k : Str → Option α) (s : Str) (hs : '\n' ∉ s)
    (h : dotStarGreedy k s = none) : ∀ v, v <:+ s → k v = none := by
  induction s with
  | nil =>
    intro v hv
    have : v = [] := List.suffix_nil.1 hv
    subst this
    simpa [dotStarGreedy] using h
  | cons c t ih =>
    have hc : c ≠ '\n' := fun e => hs (by simp [e])
    have ht : '\n' ∉ t := fun e => hs (by simp [e])
    simp only [dotStarGreedy, hc, if_false] at h
    cases hg : dotStarGreedy k t with
    | some r => rw [hg] at h; cases h
    | none =>
      rw [hg] at h
      simp only [Option.map_eq_none'] at h
      intro v hv
      rcases suffix_cons_cases hv with rfl | hv
      · exact h
      · exact ih ht hg v hv

theorem dotStarGreedy_last {α : Type} (k : Str → Option α) (s x : Str) (a : α) (hs : '\n' ∉ s)
    (h : dotStarGreedy k s = some (x, a)) :
    ∃ v, s = x ++ v ∧ k v = some a ∧ ∀ v', v' <:+ v → v' ≠ v → k v' = none := by
  induction s generalizing x with
  | nil =>
    simp only [dotStarGreedy, Option.map_eq_some'] at h
    obtain ⟨a', h1, h2⟩ := h
    cases h2
    refine ⟨[], rfl, h1, ?_⟩
    intro v' hv' hne
    exact absurd (List.suffix_nil.1 hv') hne
  | cons c t ih =>
    have hc : c ≠ '\n' := fun e => hs (by simp [e])
    have ht : '\n' ∉ t := fun e => hs (by simp [e])
    simp only [dotStarGreedy, hc, if_false] at h
    cases hg : dotStarGreedy k t with
    | some r =>
      rw [hg] at h
      cases h
      obtain ⟨v, e1, e2, e3⟩ := ih r.1 ht (by rw [hg])
      exact ⟨v, by simp [e1], e2, e3⟩
    | none =>
      rw [hg] at h
      simp only [Option.map_eq_some'] at h
      obtain ⟨a', h1, h2⟩ := h
      cases h2
      refine ⟨c :: t, rfl, h1, ?_⟩
      intro v' hv' hne
      rcases suffix_cons_cases hv' with rfl | hv'
      · exact absurd rfl hne
      · exact dotStarGreedy_none k t ht hg v' hv'

theorem matchAt_single (l v : Str) :
    matchAt [Tok.lit l] v = (stripLit l v).map (fun r => ([l], r)) := by
  simp only [matchAt]
  cases stripLit l v <;> rfl

/-- A match of `reH1` on a line: the opening text, a run, the closing text, and no
closing text starts later in the line. -/
theorem matchAt_reH1_some (t : Str) (ht : '\n' ∉ t) (segs : List Str) (rest : Str)
    (h : matchAt reH1.toks t = some (segs, rest)) :
    ∃ x, segs = [openTag, x, closeTag] ∧ t = openTag ++ (x ++ (closeTag ++ rest)) ∧
      ∀ v, v <:+ closeTag ++ rest → v ≠ closeTag ++ rest → stripLit closeTag v = none := by
  change matchAt [Tok.lit openTag, Tok.dotStar true, Tok.lit closeTag] t = _ at h
  simp only [matchAt] at h
  cases hw : stripLit openTag t with
  | none => rw [hw] at h; cases h
  | some w =>
    rw [hw] at h
    have hw' := stripLit_eq_some.1 hw
    have hwn : '\n' ∉ w := fun e => ht (by rw [hw']; simp [e])
    simp only [Option.map_eq_some'] at h
    obtain ⟨⟨sg, rs⟩, h1, h2⟩ := h
    obtain ⟨⟨x, a⟩, h3, h4⟩ := h1
    cases h4
    cases h2
    have h3' : dotStarGreedy (matchAt [Tok.lit closeTag]) w = some (x, a) := h3
    obtain ⟨v, e1, e2, e3⟩ := dotStarGreedy_last _ w x a hwn h3'
    rw [matchAt_single] at e2
    simp only [Option.map_eq_some'] at e2
    obtain ⟨r, e4, e5⟩ := e2
    cases e5
    have hv := stripLit_eq_some.1 e4
    refine ⟨x, rfl, by rw [hw', e1, hv], ?_⟩
    intro v' hv' hne
    have := e3 v' (by rw [hv]; exact hv') (by rw [hv]; exact hne)
    rw [matchAt_single] at this
    simpa using this

/-- On a line, `reH1` matches wherever the opening text stands with the closing
text somewhere after it. -/
theorem matchAt_reH1_of_close (t w v r : Str) (ht : '\n' ∉ t) (hw : t = openTag ++ w)
    (hv : v <:+ w) (hc : v = closeTag ++ r) : matchAt reH1.toks t ≠ none := by
  change matchAt [Tok.lit openTag, Tok.dotStar true, Tok.lit closeTag] t ≠ none
  have hwn : '\n' ∉ w := fun e => ht (by rw [hw]; simp [e])
  rw [hw, matchAt_lit_append, matchAt_greedy]
  cases hg : dotStarGreedy (matchAt [Tok.lit closeTag]) w with
  | some r' => simp
  | none =>
    have := dotStarGreedy_none _ w hwn hg v hv
    rw [matchAt_single, hc, stripLit_append] at this
    cases this

/-! ### The heading pattern on a line -/

theorem scan_all_miss (c : Char) (l : Str) (ts : List Tok) (u : Str)
    (h : ∀ v, v <:+ u → matchAt (Tok.lit (c :: l) :: ts) v = none) :
    scan (Tok.lit (c :: l) :: ts) u = u.map Piece.char := by
  induction u with
  | nil => rfl
  | cons d t ih =>
    rw [scan_miss _ _ _ _ _ (h _ (List.suffix_refl _)),
      ih (fun v hv => h v (hv.trans (List.suffix_cons d t)))]
    rfl

theorem reH1_toks : reH1.toks = Tok.lit ('<' :: "h1".toList) :: [Tok.dotStar true, Tok.lit closeTag] :=
  rfl

theorem not_mem_of_suffix {t s : Str} (h : t <:+ s) (hs : '\n' ∉ s) : '\n' ∉ t :=
  fun e => hs (h.subset e)

theorem clean_after (q : Str) (hq : '\n' ∉ q) (hc : NoCloseAfter q) : Clean q := by
  intro v hv
  cases hm : matchAt reH1.toks v with
  | none => rfl
  | some r =>
    obtain ⟨segs, rest⟩ := r
    obtain ⟨x, -, hx, -⟩ := matchAt_reH1_some v (not_mem_of_suffix hv hq) segs rest hm
    have h1 : closeTag ++ rest <:+ q :=
      List.IsSuffix.trans ⟨openTag ++ x, by rw [hx]; simp⟩ hv
    have h2 : closeTag ++ rest <:+ closeTag ++ q := h1.trans (List.suffix_append _ _)
    have h3 : closeTag ++ rest ≠ closeTag ++ q := by
      intro e
      have := h1.length_le
      have e' := congrArg List.length e
      simp [closeTag] at this e'
      omega
    have := hc _ h2 h3
    rw [stripLit_append] at this
    cases this

/-- The scan of `reH1` over a line: no match at all, or one match, which starts
at the first opening text of the line and ends with its last closing text. -/
theorem scan_line (L : Str) (hL : '\n' ∉ L) :
    Clean L ∨
    ∃ p x q, L = p ++ (openTag ++ (x ++ (closeTag ++ q))) ∧
      NoOpenBefore p (openTag ++ (x ++ (closeTag ++ q))) ∧ NoCloseAfter q ∧
      scan reH1.toks L = p.map Piece.char ++ Piece.hit [openTag, x, closeTag] :: q.map Piece.char := by
  induction L with
  | nil =>
    left
    intro t ht
    rw [List.suffix_nil.1 ht]
    rfl
  | cons d t ih =>
    have ht : '\n' ∉ t := fun e => hL (by simp [e])
    cases hm : matchAt reH1.toks (d :: t) with
    | some r =>
      obtain ⟨segs, rest⟩ := r
      obtain ⟨x, hsegs, hx, hclose⟩ := matchAt_reH1_some (d :: t) hL segs rest hm
      right
      have hrest : '\n' ∉ rest := fun e => hL (by rw [hx]; simp [e])
      refine ⟨[], x, rest, by simpa using hx, ?_, hclose, ?_⟩
      · intro t' ht' hne
        exact absurd (List.suffix_nil.1 ht') hne
      · rw [reH1_toks] at hm ⊢
        rw [scan_hit _ _ _ _ _ _ hm, hsegs]
        have := scan_all_miss '<' "h1".toList [Tok.dotStar true, Tok.lit closeTag] rest
          (clean_after rest hrest hclose)
        rw [this]
        rfl
    | none =>
      rcases ih ht with hclean | ⟨p, x, q, hdec, hopen, hclose, hscan⟩
      · left
        intro v hv
        rcases suffix_cons_cases hv with rfl | hv
        · exact hm
        · exact hclean v hv
      · right
        refine ⟨d :: p, x, q, by rw [hdec]; rfl, ?_, hclose, ?_⟩
        · intro t' ht' hne
          rcases suffix_cons_cases ht' with rfl | ht'
          · cases hs : stripLit openTag (d :: p ++ (openTag ++ (x ++ (closeTag ++ q)))) with
            | none => rfl
            | some w =>
              exfalso
              have hw := stripLit_eq_some.1 hs
              have hsplit : (d :: p ++ (openTag ++ x)) ++ (closeTag ++ q) = openTag ++ w := by
                rw [← hw]; simp
              obtain ⟨e, he1, he2⟩ := append_split_of_le hsplit (by simp [openTag]; omega)
              refine matchAt_reH1_of_close (d :: t) w (closeTag ++ q) q hL ?_
                ⟨e, he2.symm⟩ rfl hm
              rw [hdec, ← hw]; rfl
          · exact hopen t' ht' hne
        · rw [reH1_toks] at hm ⊢
          rw [scan_miss _ _ _ _ _ hm]
          rw [reH1_toks] at hscan
          rw [hscan]
          rfl

theorem byteLen_append (a b : Str) : byteLen (a ++ b) = byteLen a + byteLen b := by
  induction a with
  | nil => simp [byteLen]
  | cons c t ih => simp [byteLen, ih, Nat.add_assoc]

theorem byteLen_eq_zero {a : Str} (h : byteLen a = 0) : a = [] := by
  cases a with
  | nil => rfl
  | cons c t =>
    have := Char.utf8Size_pos c
    simp [byteLen] at h
    omega

theorem stripLit_append_none (a b s : Str) (h : stripLit a s = none) : stripLit (a ++ b) s = none := by
  cases h' : stripLit (a ++ b) s with
  | none => rfl
  | some r =>
    have := stripLit_eq_some.1 h'
    rw [List.append_assoc] at this
    rw [stripLit_eq_some.2 this] at h
    cases h

/-- Where a span at least as long as the match of a line can stand in the line:
only on the match itself, and then it is the match. -/
theorem span_occurrence (p x q y t r : Str)
    (hopen : NoOpenBefore p (openTag ++ (x ++ (closeTag ++ q)))) (hclose : NoCloseAfter q)
    (hlen : byteLen (openTag ++ (x ++ closeTag)) ≤ byteLen (openTag ++ (y ++ closeTag)))
    (ht : t <:+ p ++ (openTag ++ (x ++ (closeTag ++ q))))
    (hs : stripLit (openTag ++ (y ++ closeTag)) t = some r) :
    t = openTag ++ (x ++ (closeTag ++ q)) ∧ y = x ∧ r = q := by
  have hg := stripLit_eq_some.1 hs
  rcases suffix_append_cases ht with ht | ⟨t', hne, ht', rfl⟩
  · have ht2 : t <:+ (openTag ++ x) ++ (closeTag ++ q) := by simpa using ht
    rcases suffix_append_cases ht2 with ht3 | ⟨a', hane, ha', hta⟩
    · exfalso
      have h1 : closeTag ++ r <:+ t := ⟨openTag ++ y, by rw [hg]; simp⟩
      have h2 : closeTag ++ r ≠ closeTag ++ q := by
        intro e
        have l1 := ht3.length_le
        have l2 := congrArg List.length hg
        have l3 := congrArg List.length e
        simp [openTag] at l1 l2 l3
        omega
      have := hclose _ (h1.trans ht3) h2
      rw [stripLit_append] at this
      cases this
    · have heq : (openTag ++ y) ++ (closeTag ++ r) = a' ++ (closeTag ++ q) := by
        rw [← hta, hg]; simp
      rcases List.append_eq_append_iff.1 heq with ⟨e, h1, h2⟩ | ⟨e, h1, h2⟩
      · -- a' = (openTag ++ y) ++ e
        obtain ⟨b, hb⟩ := ha'
        have hx : openTag ++ x = b ++ (openTag ++ y) ++ e := by rw [← hb, h1]; simp
        have hbl : byteLen (openTag ++ x) = byteLen b + byteLen (openTag ++ y) + byteLen e := by
          rw [hx]; simp [byteLen_append, Nat.add_assoc]
        have hl : byteLen b + byteLen e = 0 := by
          simp only [byteLen_append] at hlen hbl
          omega
        have hb0 : b = [] := byteLen_eq_zero (by omega)
        have he0 : e = [] := byteLen_eq_zero (by omega)
        subst hb0 he0
        simp only [List.nil_append, List.append_nil] at hx h1 h2
        have hyx : y = x := (List.append_cancel_left hx).symm
        have hrq : r = q := List.append_cancel_left h2
        refine ⟨?_, hyx, hrq⟩
        rw [hta, h1, hyx]; simp
      · -- openTag ++ y = a' ++ e
        by_cases he : e = []
        · subst he
          simp only [List.append_nil, List.nil_append] at h1 h2
          obtain ⟨b, hb⟩ := ha'
          have hx : openTag ++ x = b ++ (openTag ++ y) := by rw [← hb, h1]
          have hbl : byteLen (openTag ++ x) = byteLen b + byteLen (openTag ++ y) := by
            rw [hx]; simp [byteLen_append]
          have hb0 : b = [] := byteLen_eq_zero (by
            simp only [byteLen_append] at hlen hbl
            omega)
          subst hb0
          simp only [List.nil_append] at hx
          have hyx : y = x := (List.append_cancel_left hx).symm
          have hrq : r = q := (List.append_cancel_left h2).symm
          refine ⟨?_, hyx, hrq⟩
          rw [hta, ← h1, hyx]; simp
        · exfalso
          have h3 : closeTag ++ r <:+ closeTag ++ q := ⟨e, h2.symm⟩
          have h4 : closeTag ++ r ≠ closeTag ++ q := by
            intro e'
            have l1 := congrArg List.length h2
            have l2 := congrArg List.length e'
            have l3 : 0 < e.length := List.length_pos.2 he
            simp at l1 l2
            omega
          have := hclose _ h3 h4
          rw [stripLit_append] at this
          cases this
  · exfalso
    have := hopen t' ht' hne
    have h2 := stripLit_append_none openTag (y ++ closeTag) _ this
    rw [h2] at hs
    cases hs

/-! ### The loop of `RemoveHtmlTag` on a line -/

theorem stringsReplaceAll_cons (s : Str) (a : Char) (l new : Str) :
    stringsReplaceAll s (a :: l) new
      = ((scan [Tok.lit (a :: l)] s).map (Piece.render fun _ => new)).flatten := rfl

theorem matchAt_single_none (l v : Str) (h : stripLit l v = none) :
    matchAt [Tok.lit l] v = none := by
  rw [matchAt_single, h]; rfl

theorem replace_none (s : Str) (a : Char) (l new : Str)
    (h : ∀ v, v <:+ s → stripLit (a :: l) v = none) :
    stringsReplaceAll s (a :: l) new = s := by
  rw [stringsReplaceAll_cons, scan_all_miss a l [] s (fun v hv => matchAt_single_none _ _ (h v hv)),
    flatten_render_chars]

theorem scan_before (c : Char) (l : Str) (ts : List Tok) (p rest : Str)
    (h : ∀ t, t <:+ p → t ≠ [] → matchAt (Tok.lit (c :: l) :: ts) (t ++ rest) = none) :
    scan (Tok.lit (c :: l) :: ts) (p ++ rest)
      = p.map Piece.char ++ scan (Tok.lit (c :: l) :: ts) rest := by
  induction p with
  | nil => rfl
  | cons d t ih =>
    have h1 := h (d :: t) (List.suffix_refl _) (by simp)
    rw [List.cons_append] at h1 ⊢
    rw [scan_miss _ _ _ _ _ h1, ih (fun v hv hne => h v (hv.trans (List.suffix_cons d t)) hne)]
    rfl

theorem replace_one (p q : Str) (a : Char) (l new : Str)
    (hp : ∀ t, t <:+ p → t ≠ [] → stripLit (a :: l) (t ++ ((a :: l) ++ q)) = none)
    (hq : ∀ v, v <:+ q → stripLit (a :: l) v = none) :
    stringsReplaceAll (p ++ ((a :: l) ++ q)) (a :: l) new = p ++ (new ++ q) := by
  have hm : matchAt [Tok.lit (a :: l)] ((a :: l) ++ q) = some ([a :: l], q) := by
    rw [matchAt_single, stripLit_append]; rfl
  rw [stringsReplaceAll_cons,
    scan_before a l [] p _ (fun t ht hne => matchAt_single_none _ _ (hp t ht hne)),
    scan_hit a l [] _ _ _ hm,
    scan_all_miss a l [] q (fun v hv => matchAt_single_none _ _ (hq v hv))]
  simp only [List.map_append, List.map_cons, List.flatten_append, List.flatten_cons,
    flatten_render_chars, Piece.render]

theorem IsSpan.cons {g : Str} (h : IsSpan g) : ∃ l, g = '<' :: l := by
  obtain ⟨x, rfl, -⟩ := h
  exact ⟨_, rfl⟩

theorem IsSpan.trim {g : Str} (h : IsSpan g) : TrimSpace g ≠ [] := by
  obtain ⟨l, rfl⟩ := h.cons
  unfold TrimSpace
  have h1 : List.dropWhile isSpace ('<' :: l) = '<' :: l := by
    simp [List.dropWhile, show isSpace '<' = false from by decide]
  rw [h1]
  intro h2
  rw [List.reverse_eq_nil_iff, List.dropWhile_eq_nil_iff] at h2
  have := h2 '<' (by simp)
  revert this
  decide

theorem clean_no_span (s g : Str) (hs : '\n' ∉ s) (hc : Clean s) (hg : IsSpan g) :
    ∀ v, v <:+ s → stripLit g v = none := by
  intro v hv
  cases h : stripLit g v with
  | none => rfl
  | some r =>
    exfalso
    obtain ⟨y, rfl, -⟩ := hg
    have hv' := stripLit_eq_some.1 h
    refine matchAt_reH1_of_close v (y ++ (closeTag ++ r)) (closeTag ++ r) r
      (not_mem_of_suffix hv hs) (by rw [hv']; simp) ⟨y, rfl⟩ rfl (hc v hv)

theorem removeGroups_nil (s : Str) : removeGroups s [] = s := rfl

theorem removeGroups_cons (s g : Str) (G : List Str) :
    removeGroups s (g :: G)
      = removeGroups (if TrimSpace g ≠ [] then stringsReplaceAll s g [] else s) G := rfl

theorem removeGroups_clean (s : Str) (G : List Str) (hs : '\n' ∉ s) (hc : Clean s)
    (hG : ∀ g ∈ G, IsSpan g) : removeGroups s G = s := by
  induction G with
  | nil => rfl
  | cons g T ih =>
    have hg := hG g (by simp)
    obtain ⟨l, rfl⟩ := hg.cons
    rw [removeGroups_cons, if_pos hg.trim, replace_none s '<' l [] (clean_no_span s _ hs hc hg)]
    exact ih (fun g' hg' => hG g' (by simp [hg']))

theorem clean_join (p x q : Str) (hp : '\n' ∉ p) (hq : '\n' ∉ q)
    (hopen : NoOpenBefore p (openTag ++ (x ++ (closeTag ++ q)))) (hclose : NoCloseAfter q) :
    Clean (p ++ q) := by
  intro v hv
  rcases suffix_append_cases hv with hv | ⟨t', hne, ht', rfl⟩
  · exact clean_after q hq hclose v hv
  · cases hm : matchAt reH1.toks (t' ++ q) with
    | none => rfl
    | some r =>
      exfalso
      obtain ⟨segs, rest⟩ := r
      have hn : '\n' ∉ t' ++ q := by
        intro e
        rcases List.mem_append.1 e with e | e
        · exact hp (ht'.subset e)
        · exact hq e
      obtain ⟨x', -, hx, -⟩ := matchAt_reH1_some _ hn segs rest hm
      rcases List.append_eq_append_iff.1 hx with ⟨e, h1, h2⟩ | ⟨e, h1, h2⟩
      · -- openTag = t' ++ e
        have h3 : closeTag ++ rest <:+ q := ⟨e ++ x', by rw [h2]; simp⟩
        have h4 : closeTag ++ rest ≠ closeTag ++ q := by
          intro e'
          have l1 := h3.length_le
          have l2 := congrArg List.length e'
          simp [closeTag] at l1 l2
          omega
        have := hclose _ (h3.trans (List.suffix_append _ _)) h4
        rw [stripLit_append] at this
        cases this
      · -- t' = openTag ++ e
        have := hopen t' ht' hne
        rw [h1, List.append_assoc, stripLit_append] at this
        cases this

/-- On a line with a match, the loop of `RemoveHtmlTag` removes the match and
nothing else, whenever the groups are spans in decreasing length that include
the match. -/
theorem removeGroups_line (p x q : Str) (G : List Str) (hp : '\n' ∉ p) (hq : '\n' ∉ q)
    (hopen : NoOpenBefore p (openTag ++ (x ++ (closeTag ++ q)))) (hclose : NoCloseAfter q)
    (hG : ∀ g ∈ G, IsSpan g) (hsort : G.Pairwise (fun a b => byteLen b ≤ byteLen a))
    (hm : openTag ++ (x ++ closeTag) ∈ G) :
    removeGroups (p ++ (openTag ++ (x ++ (closeTag ++ q)))) G = p ++ q := by
  induction G with
  | nil => cases hm
  | cons g T ih =>
    have hg := hG g (by simp)
    have hT : ∀ g' ∈ T, IsSpan g' := fun g' hg' => hG g' (by simp [hg'])
    obtain ⟨hhead, htail⟩ := List.pairwise_cons.1 hsort
    obtain ⟨y, rfl, hy⟩ := hg
    have hlen : byteLen (openTag ++ (x ++ closeTag)) ≤ byteLen (openTag ++ (y ++ closeTag)) := by
      rcases List.mem_cons.1 hm with e | e
      · rw [e]
      · exact hhead _ e
    rw [removeGroups_cons, if_pos (IsSpan.trim ⟨y, rfl, hy⟩)]
    by_cases hyx : y = x
    · subst hyx
      have e1 : p ++ (openTag ++ (y ++ (closeTag ++ q)))
          = p ++ (('<' :: ("h1".toList ++ (y ++ closeTag))) ++ q) := by
        simp [openTag]
      have e2 : openTag ++ (y ++ closeTag) = '<' :: ("h1".toList ++ (y ++ closeTag)) := rfl
      rw [e2, e1, replace_one p q '<' _ []]
      · exact removeGroups_clean _ T
          (by
            intro e
            rcases List.mem_append.1 e with e | e
            · exact hp e
            · exact hq e)
          (clean_join p y q hp hq hopen hclose) hT
      · intro t ht hne
        rw [← e2]
        have := hopen t ht hne
        have h2 := stripLit_append_none openTag (y ++ closeTag) _ this
        have e3 : t ++ (openTag ++ (y ++ closeTag) ++ q) = t ++ (openTag ++ (y ++ (closeTag ++ q))) := by
          simp
        rw [e3]; exact h2
      · intro v hv
        rw [← e2]
        cases hs : stripLit (openTag ++ (y ++ closeTag)) v with
        | none => rfl
        | some r =>
          exfalso
          have hv' : v <:+ p ++ (openTag ++ (y ++ (closeTag ++ q))) :=
            hv.trans ⟨p ++ (openTag ++ (y ++ closeTag)), by simp⟩
          obtain ⟨h1, -, -⟩ := span_occurrence p y q y v r hopen hclose (le_refl _) hv' hs
          have l1 := hv.length_le
          have l2 := congrArg List.length h1
          simp [openTag] at l1 l2
          omega
    · have hno : ∀ v, v <:+ p ++ (openTag ++ (x ++ (closeTag ++ q))) →
          stripLit (openTag ++ (y ++ closeTag)) v = none := by
        intro v hv
        cases hs : stripLit (openTag ++ (y ++ closeTag)) v with
        | none => rfl
        | some r =>
          exact absurd (span_occurrence p x q y v r hopen hclose hlen hv hs).2.1 hyx
      have e2 : openTag ++ (y ++ closeTag) = '<' :: ("h1".toList ++ (y ++ closeTag)) := rfl
      rw [e2, replace_none _ '<' _ [] (by rw [← e2]; exact hno)]
      refine ih hT htail ?_
      rcases List.mem_cons.1 hm with e | e
      · exfalso
        apply hyx
        have := List.append_cancel_left e
        exact (List.append_cancel_right this).symm
      · exact e

/-! ### Lines -/

theorem stripLit_line (l s r : Str) (hl : '\n' ∉ l) :
    stripLit l (s ++ '\n' :: r) = (stripLit l s).map (fun x => x ++ '\n' :: r) := by
  induction l generalizing s with
  | nil => simp [stripLit]
  | cons c l ih =>
    have hc : c ≠ '\n' := fun e => hl (by simp [e])
    have hl' : '\n' ∉ l := fun e => hl (by simp [e])
    cases s with
    | nil => simp [stripLit, hc]
    | cons d s =>
      simp only [List.cons_append, stripLit]
      split
      · exact ih s hl'
      · rfl

theorem dotStarGreedy_line {α : Type} (k : Str → Option α) (ext : α → α) (r : Str)
    (hk : ∀ t, '\n' ∉ t → k (t ++ '\n' :: r) = (k t).map ext) (s : Str) (hs : '\n' ∉ s) :
    dotStarGreedy k (s ++ '\n' :: r) = (dotStarGreedy k s).map (fun p => (p.1, ext p.2)) := by
  induction s with
  | nil =>
    have := hk [] (by simp)
    simp only [List.nil_append] at this ⊢
    simp [dotStarGreedy, this, Option.map_map, Function.comp_def]
  | cons c t ih =>
    have hc : c ≠ '\n' := fun e => hs (by simp [e])
    have ht : '\n' ∉ t := fun e => hs (by simp [e])
    have h1 := hk (c :: t) hs
    simp only [List.cons_append] at h1 ⊢
    simp only [dotStarGreedy, hc, if_false, ih ht, h1]
    cases dotStarGreedy k t with
    | some p => rfl
    | none => simp [Option.map_map, Function.comp_def]

theorem dotStarLazy_line {α : Type} (k : Str → Option α) (ext : α → α) (r : Str)
    (hk : ∀ t, '\n' ∉ t → k (t ++ '\n' :: r) = (k t).map ext) (s : Str) (hs : '\n' ∉ s) :
    dotStarLazy k (s ++ '\n' :: r) = (dotStarLazy k s).map (fun p => (p.1, ext p.2)) := by
  induction s with
  | nil =>
    have := hk [] (by simp)
    simp only [List.nil_append] at this ⊢
    simp only [dotStarLazy, this]
    cases k [] with
    | some a => rfl
    | none => rfl
  | cons c t ih =>
    have hc : c ≠ '\n' := fun e => hs (by simp [e])
    have ht : '\n' ∉ t := fun e => hs (by simp [e])
    have h1 := hk (c :: t) hs
    simp only [List.cons_append] at h1 ⊢
    simp only [dotStarLazy, hc, if_false, ih ht, h1]
    cases k (c :: t) with
    | some a => rfl
    | none => simp [Option.map_map, Function.comp_def]

/-- A match never runs over a line feed: on a text whose first line is `s`, the
match at the head is the match on `s` alone. -/
theorem matchAt_line (toks : List Tok) (h : NoLF toks) (s r : Str) (hs : '\n' ∉ s) :
    matchAt toks (s ++ '\n' :: r) = (matchAt toks s).map (fun m => (m.1, m.2 ++ '\n' :: r)) := by
  induction toks generalizing s with
  | nil => simp [matchAt]
  | cons tok ts ih =>
    have hts : NoLF ts := fun l hl => h l (by simp [hl])
    cases tok with
    | lit l =>
      have hl : '\n' ∉ l := h l (by simp)
      simp only [matchAt, stripLit_line l s r hl]
      cases hw : stripLit l s with
      | none => rfl
      | some w =>
        have hw' := stripLit_eq_some.1 hw
        have hwn : '\n' ∉ w := fun e => hs (by rw [hw']; simp [e])
        simp only [Option.map_some', ih hts w hwn]
        cases matchAt ts w <;> rfl
    | dotStar g =>
      cases g with
      | true =>
        simp only [matchAt]
        rw [dotStarGreedy_line (matchAt ts) (fun m => (m.1, m.2 ++ '\n' :: r)) r
          (fun t ht => ih hts t ht) s hs]
        cases dotStarGreedy (matchAt ts) s <;> rfl
      | false =>
        simp only [matchAt]
        rw [dotStarLazy_line (matchAt ts) (fun m => (m.1, m.2 ++ '\n' :: r)) r
          (fun t ht => ih hts t ht) s hs]
        cases dotStarLazy (matchAt ts) s <;> rfl

theorem scan_split_aux (c : Char) (l : Str) (ts : List Tok) (h : NoLF (Tok.lit (c :: l) :: ts))
    (r : Str) (n : Nat) : ∀ s : Str, s.length ≤ n → '\n' ∉ s →
    scan (Tok.lit (c :: l) :: ts) (s ++ '\n' :: r)
      = scan (Tok.lit (c :: l) :: ts) s ++ Piece.char '\n' :: scan (Tok.lit (c :: l) :: ts) r := by
  induction n with
  | zero =>
    intro s hn _
    have : s = [] := List.length_eq_zero.1 (Nat.le_zero.1 hn)
    subst this
    have hm : matchAt (Tok.lit (c :: l) :: ts) ('\n' :: r) = none := by
      have := matchAt_line _ h [] r (by simp)
      simpa [matchAt_lit_nil] using this
    rw [List.nil_append, scan_miss _ _ _ _ _ hm]
    rfl
  | succ n ih =>
    intro s hn hs
    have hml := matchAt_line _ h s r hs
    cases hm : matchAt (Tok.lit (c :: l) :: ts) s with
    | some m =>
      obtain ⟨segs, rest⟩ := m
      rw [hm] at hml
      have hlen := matchAt_lit_length _ _ _ _ _ _ hm
      have hsound := matchAt_sound _ _ _ _ hm
      have hrest : '\n' ∉ rest := fun e => hs (by rw [hsound]; simp [e])
      rw [scan_hit _ _ _ _ _ _ hml, scan_hit _ _ _ _ _ _ hm, ih rest (by omega) hrest]
      rfl
    | none =>
      rw [hm] at hml
      cases s with
      | nil =>
        rw [List.nil_append] at hml ⊢
        rw [scan_miss _ _ _ _ _ hml]
        rfl
      | cons d t =>
        have ht : '\n' ∉ t := fun e => hs (by simp [e])
        rw [List.cons_append] at hml ⊢
        rw [scan_miss _ _ _ _ _ hml, scan_miss _ _ _ _ _ hm,
          ih t (by simp at hn; omega) ht]
        rfl

theorem scan_split (c : Char) (l : Str) (ts : List Tok) (h : NoLF (Tok.lit (c :: l) :: ts))
    (s r : Str) (hs : '\n' ∉ s) :
    scan (Tok.lit (c :: l) :: ts) (s ++ '\n' :: r)
      = scan (Tok.lit (c :: l) :: ts) s ++ Piece.char '\n' :: scan (Tok.lit (c :: l) :: ts) r :=
  scan_split_aux c l ts h r s.length s (le_refl _) hs

theorem reH1_noLF : NoLF (Tok.lit ('<' :: "h1".toList) :: [Tok.dotStar true, Tok.lit closeTag]) := by
  intro l hl
  simp only [List.mem_cons, Tok.lit.injEq, List.mem_singleton, List.not_mem_nil, or_false] at hl
  rcases hl with rfl | h | rfl
  · decide
  · cases h
  · decide

theorem FindAllString_split (s r : Str) (hs : '\n' ∉ s) :
    reH1.FindAllString (s ++ '\n' :: r) = reH1.FindAllString s ++ reH1.FindAllString r := by
  unfold Regex.FindAllString matchesOf
  rw [reH1_toks, scan_split _ _ _ reH1_noLF s r hs]
  simp [Piece.match?]

theorem replace_split (s r : Str) (a : Char) (l new : Str) (hs : '\n' ∉ s)
    (hg : '\n' ∉ a :: l) :
    stringsReplaceAll (s ++ '\n' :: r) (a :: l) new
      = stringsReplaceAll s (a :: l) new ++ '\n' :: stringsReplaceAll r (a :: l) new := by
  have h : NoLF [Tok.lit (a :: l)] := by
    intro l' hl'
    simp only [List.mem_singleton, Tok.lit.injEq] at hl'
    rw [hl']; exact hg
  simp only [stringsReplaceAll_cons]
  rw [scan_split a l [] h s r hs]
  simp [Piece.render]

theorem replace_mem_aux (a : Char) (l : Str) (n : Nat) : ∀ s : Str, s.length ≤ n →
    ∀ x ∈ stringsReplaceAll s (a :: l) [], x ∈ s := by
  induction n with
  | zero =>
    intro s hn x hx
    have : s = [] := List.length_eq_zero.1 (Nat.le_zero.1 hn)
    subst this
    exact hx
  | succ n ih =>
    intro s hn x hx
    rw [stringsReplaceAll_cons] at hx
    cases hm : matchAt [Tok.lit (a :: l)] s with
    | some m =>
      obtain ⟨segs, rest⟩ := m
      have hlen := matchAt_lit_length _ _ _ _ _ _ hm
      have hsound := matchAt_sound _ _ _ _ hm
      rw [scan_hit _ _ _ _ _ _ hm] at hx
      simp only [List.map_cons, List.flatten_cons, Piece.render, List.nil_append] at hx
      have := ih rest (by omega) x (by rw [stringsReplaceAll_cons]; exact hx)
      rw [hsound]
      exact List.mem_append_right _ this
    | none =>
      cases s with
      | nil => exact hx
      | cons d t =>
        rw [scan_miss _ _ _ _ _ hm] at hx
        simp only [List.map_cons, List.flatten_cons, Piece.render, List.singleton_append,
          List.mem_cons] at hx
        rcases hx with rfl | hx
        · simp
        · have := ih t (by simp at hn; omega) x (by rw [stringsReplaceAll_cons]; exact hx)
          exact List.mem_cons_of_mem _ this

theorem IsSpan.noLF {g : Str} (h : IsSpan g) : '\n' ∉ g := by
  obtain ⟨x, rfl, hx⟩ := h
  intro e
  simp only [List.mem_append] at e
  rcases e with e | e | e
  · revert e; decide
  · exact hx e
  · revert e; decide

theorem removeGroups_noLF (s : Str) (G : List Str) (hs : '\n' ∉ s) (hG : ∀ g ∈ G, IsSpan g) :
    '\n' ∉ removeGroups s G := by
  induction G generalizing s with
  | nil => exact hs
  | cons g T ih =>
    have hg := hG g (by simp)
    obtain ⟨l, rfl⟩ := hg.cons
    rw [removeGroups_cons, if_pos hg.trim]
    exact ih _ (fun e => hs (replace_mem_aux '<' l _ s (le_refl _) _ e))
      (fun g' hg' => hG g' (by simp [hg']))

theorem removeGroups_split (s r : Str) (G : List Str) (hs : '\n' ∉ s) (hG : ∀ g ∈ G, IsSpan g) :
    removeGroups (s ++ '\n' :: r) G = removeGroups s G ++ '\n' :: removeGroups r G := by
  induction G generalizing s r with
  | nil => rfl
  | cons g T ih =>
    have hg := hG g (by simp)
    obtain ⟨l, rfl⟩ := hg.cons
    simp only [removeGroups_cons, if_pos hg.trim]
    rw [replace_split s r '<' l [] hs hg.noLF]
    exact ih _ _ (fun e => hs (replace_mem_aux '<' l _ s (le_refl _) _ e))
      (fun g' hg' => hG g' (by simp [hg']))

theorem line_cases (s : Str) : '\n' ∉ s ∨ ∃ l r, s = l ++ '\n' :: r ∧ '\n' ∉ l := by
  induction s with
  | nil => exact Or.inl (by simp)
  | cons c t ih =>
    by_cases hc : c = '\n'
    · exact Or.inr ⟨[], t, by simp [hc], by simp⟩
    · rcases ih with h | ⟨l, r, h1, h2⟩
      · left
        intro e
        rcases List.mem_cons.1 e with e | e
        · exact hc e.symm
        · exact h e
      · right
        refine ⟨c :: l, r, by simp [h1], ?_⟩
        intro e
        rcases List.mem_cons.1 e with e | e
        · exact hc e.symm
        · exact h2 e

/-! ### `RemoveHtmlTag` on a text of several lines -/

theorem FindAllString_clean (s : Str) (h : Clean s) : reH1.FindAllString s = [] := by
  unfold Regex.FindAllString matchesOf
  rw [reH1_toks, scan_all_miss _ _ _ s (by rw [← reH1_toks]; exact h), filterMap_match_chars]
  rfl

/-- The matches of `reH1` on a line. -/
theorem FindAllString_line (L : Str) (hL : '\n' ∉ L) :
    (Clean L ∧ reH1.FindAllString L = []) ∨
    ∃ p x q, L = p ++ (openTag ++ (x ++ (closeTag ++ q))) ∧ '\n' ∉ p ∧ '\n' ∉ x ∧ '\n' ∉ q ∧
      NoOpenBefore p (openTag ++ (x ++ (closeTag ++ q))) ∧ NoCloseAfter q ∧
      reH1.FindAllString L = [openTag ++ (x ++ closeTag)] := by
  rcases scan_line L hL with h | ⟨p, x, q, hdec, hopen, hclose, hscan⟩
  · exact Or.inl ⟨h, FindAllString_clean L h⟩
  · right
    refine ⟨p, x, q, hdec, ?_, ?_, ?_, hopen, hclose, ?_⟩
    · exact fun e => hL (by rw [hdec]; simp [e])
    · exact fun e => hL (by rw [hdec]; simp [e])
    · exact fun e => hL (by rw [hdec]; simp [e])
    · unfold Regex.FindAllString matchesOf
      rw [hscan, List.filterMap_append, filterMap_match_chars]
      simp [Piece.match?, filterMap_match_chars]

/-- Every match of `reH1` is a span. -/
theorem FindAllString_spans (n : Nat) : ∀ s : Str, s.length ≤ n →
    ∀ g ∈ reH1.FindAllString s, IsSpan g := by
  induction n with
  | zero =>
    intro s hn g hg
    have : s = [] := List.length_eq_zero.1 (Nat.le_zero.1 hn)
    subst this
    cases hg
  | succ n ih =>
    intro s hn g hg
    rcases line_cases s with hs | ⟨l, r, rfl, hl⟩
    · rcases FindAllString_line s hs with ⟨-, h⟩ | ⟨p, x, q, -, -, hx, -, -, -, h⟩
      · rw [h] at hg; cases hg
      · rw [h, List.mem_singleton] at hg
        exact ⟨x, hg, hx⟩
    · rw [FindAllString_split l r hl, List.mem_append] at hg
      have hlen : (l ++ '\n' :: r).length = l.length + r.length + 1 := by simp; omega
      rcases hg with hg | hg
      · rcases FindAllString_line l hl with ⟨-, h⟩ | ⟨p, x, q, -, -, hx, -, -, -, h⟩
        · rw [h] at hg; cases hg
        · rw [h, List.mem_singleton] at hg
          exact ⟨x, hg, hx⟩
      · exact ih r (by omega) g hg

/-- The loop of `RemoveHtmlTag` on a line, for any groups that are spans in
decreasing length and include the match of the line: what is left holds no
match and does not depend on the groups. -/
theorem removeGroups_line_result (L : Str) (hL : '\n' ∉ L) :
    ∃ R, Clean R ∧ '\n' ∉ R ∧ ∀ G : List Str, (∀ g ∈ G, IsSpan g) →
      G.Pairwise (fun a b => byteLen b ≤ byteLen a) → (∀ g ∈ reH1.FindAllString L, g ∈ G) →
      removeGroups L G = R := by
  rcases FindAllString_line L hL with ⟨hc, -⟩ | ⟨p, x, q, hdec, hp, hx, hq, hopen, hclose, hfind⟩
  · exact ⟨L, hc, hL, fun G hG _ _ => removeGroups_clean L G hL hc hG⟩
  · refine ⟨p ++ q, clean_join p x q hp hq hopen hclose, ?_, ?_⟩
    · intro e
      rcases List.mem_append.1 e with e | e
      · exact hp e
      · exact hq e
    · intro G hG hsort hsub
      rw [hdec]
      exact removeGroups_line p x q G hp hq hopen hclose hG hsort
        (hsub _ (by rw [hfind]; simp))

/-- The loop of `RemoveHtmlTag` on any text, for any groups that are spans in
decreasing length and include every match: what is left holds no match and
does not depend on the groups. -/
theorem removeGroups_result (n : Nat) : ∀ s : Str, s.length ≤ n →
    ∃ R, reH1.FindAllString R = [] ∧ ∀ G : List Str, (∀ g ∈ G, IsSpan g) →
      G.Pairwise (fun a b => byteLen b ≤ byteLen a) → (∀ g ∈ reH1.FindAllString s, g ∈ G) →
      removeGroups s G = R := by
  induction n with
  | zero =>
    intro s hn
    have : s = [] := List.length_eq_zero.1 (Nat.le_zero.1 hn)
    subst this
    obtain ⟨R, h1, _, h3⟩ := removeGroups_line_result [] (by simp)
    exact ⟨R, FindAllString_clean R h1, h3⟩
  | succ n ih =>
    intro s hn
    rcases line_cases s with hs | ⟨l, r, rfl, hl⟩
    · obtain ⟨R, h1, _, h3⟩ := removeGroups_line_result s hs
      exact ⟨R, FindAllString_clean R h1, h3⟩
    · have hlen : (l ++ '\n' :: r).length = l.length + r.length + 1 := by simp; omega
      obtain ⟨R1, h1, h2, h3⟩ := removeGroups_line_result l hl
      obtain ⟨R2, h4, h5⟩ := ih r (by omega)
      refine ⟨R1 ++ '\n' :: R2, ?_, ?_⟩
      · rw [FindAllString_split R1 R2 h2, FindAllString_clean R1 h1, h4]
        rfl
      · intro G hG hsort hsub
        rw [FindAllString_split l r hl] at hsub
        rw [removeGroups_split l r G hl hG,
          h3 G hG hsort (fun g hg => hsub g (List.mem_append_left _ hg)),
          h5 G hG hsort (fun g hg => hsub g (List.mem_append_right _ hg))]

theorem sortByLenDesc_sorted (G : List Str) :
    (sortByLenDesc G).Pairwise (fun a b => byteLen b ≤ byteLen a) :=
  List.sorted_insertionSort (fun a b => byteLen b ≤ byteLen a) G

theorem sortByLenDesc_mem (G : List Str) (g : Str) : g ∈ sortByLenDesc G ↔ g ∈ G :=
  (List.perm_insertionSort (fun a b => byteLen b ≤ byteLen a) G).mem_iff

/-- The result of `RemoveHtmlTag` does not depend on the order that `sort.Slice`
gives to groups of one length. -/
theorem removeGroups_order (s : Str) (G : List Str) (hperm : G.Perm (reH1.FindAllString s))
    (hsort : G.Pairwise (fun a b => byteLen b ≤ byteLen a)) :
    removeGroups s G = RemoveHtmlTag s := by
  obtain ⟨R, -, h⟩ := removeGroups_result s.length s (le_refl _)
  have hspans := FindAllString_spans s.length s (le_refl _)
  unfold RemoveHtmlTag
  rw [h G (fun g hg => hspans g (hperm.mem_iff.1 hg)) hsort (fun g hg => hperm.mem_iff.2 hg),
    h _ (fun g hg => hspans g ((sortByLenDesc_mem _ g).1 hg)) (sortByLenDesc_sorted _)
      (fun g hg => (sortByLenDesc_mem _ g).2 hg)]

theorem RemoveHtmlTag_no_match (s : Str) : reH1.FindAllString (RemoveHtmlTag s) = [] := by
  obtain ⟨R, hR, h⟩ := removeGroups_result s.length s (le_refl _)
  have hspans := FindAllString_spans s.length s (le_refl _)
  unfold RemoveHtmlTag
  rw [h _ (fun g hg => hspans g ((sortByLenDesc_mem _ g).1 hg)) (sortByLenDesc_sorted _)
      (fun g hg => (sortByLenDesc_mem _ g).2 hg)]
  exact hR

/-! ### Fragments with one block to a line -/

theorem FindAllString_block (p x q : Str) (hp : '\n' ∉ p) (hx : '\n' ∉ x) (hq : '\n' ∉ q)
    (hopen : NoOpenBefore p (openTag ++ (x ++ (closeTag ++ q)))) (hclose : NoCloseAfter q) :
    reH1.FindAllString (p ++ (openTag ++ (x ++ (closeTag ++ q)))) = [openTag ++ (x ++ closeTag)] := by
  have hL : '\n' ∉ p ++ (openTag ++ (x ++ (closeTag ++ q))) := by
    intro e
    simp only [List.mem_append] at e
    rcases e with e | e | e | e | e
    · exact hp e
    · revert e; decide
    · exact hx e
    · revert e; decide
    · exact hq e
  have hsuf : openTag ++ (x ++ (closeTag ++ q)) <:+ p ++ (openTag ++ (x ++ (closeTag ++ q))) :=
    List.suffix_append _ _
  rcases FindAllString_line _ hL with ⟨hc, -⟩ | ⟨p', x', q', hdec, -, -, -, hopen', hclose', hfind⟩
  · exfalso
    exact matchAt_reH1_of_close _ (x ++ (closeTag ++ q)) (closeTag ++ q) q
      (not_mem_of_suffix hsuf hL) rfl ⟨x, rfl⟩ rfl (hc _ hsuf)
  · rw [hfind]
    rcases Nat.le_total (byteLen (openTag ++ (x' ++ closeTag))) (byteLen (openTag ++ (x ++ closeTag)))
      with hle | hle
    · have hs : stripLit (openTag ++ (x ++ closeTag)) (openTag ++ (x ++ (closeTag ++ q))) = some q :=
        stripLit_eq_some.2 (by simp)
      obtain ⟨-, h2, -⟩ := span_occurrence p' x' q' x _ q hopen' hclose' hle (by rw [← hdec]; exact hsuf) hs
      rw [h2]
    · have hs : stripLit (openTag ++ (x' ++ closeTag)) (openTag ++ (x' ++ (closeTag ++ q'))) = some q' :=
        stripLit_eq_some.2 (by simp)
      obtain ⟨-, h2, -⟩ := span_occurrence p x q x' _ q' hopen hclose hle
        (by rw [hdec]; exact List.suffix_append _ _) hs
      rw [h2]

theorem noOpenBefore_of_absent (b rest : Str) (h : ¬ openTag <:+: b) :
    NoOpenBefore b (openTag ++ rest) := by
  intro t ht hne
  cases hs : stripLit openTag (t ++ (openTag ++ rest)) with
  | none => rfl
  | some r =>
    exfalso
    match t, ht, hne, hs with
    | [c1], _, _, hs => simp [stripLit, openTag] at hs
    | [c1, c2], _, _, hs => simp [stripLit, openTag] at hs
    | c1 :: c2 :: c3 :: t', ht, _, hs =>
      simp only [stripLit, openTag, List.cons_append] at hs
      have hs' : stripLit "<h1".toList (c1 :: c2 :: c3 :: (t' ++ ("<h1".toList ++ rest))) = some r := hs
      have e := stripLit_eq_some.1 hs'
      have e3 : c1 = '<' ∧ c2 = 'h' ∧ c3 = '1' := by
        simp at e
        exact ⟨e.1, e.2.1, e.2.2.1⟩
      obtain ⟨rfl, rfl, rfl⟩ := e3
      exact h (List.IsInfix.trans ⟨[], t', rfl⟩ ht.isInfix)

theorem noCloseAfter_of_absent (a : Str) (h : ¬ closeTag <:+: a) : NoCloseAfter a := by
  intro v hv hne
  have key : ∀ w, w <:+ a → stripLit closeTag w = none := by
    intro w hw
    cases hs : stripLit closeTag w with
    | none => rfl
    | some r =>
      exact absurd (List.IsInfix.trans ⟨[], r, by simpa using (stripLit_eq_some.1 hs).symm⟩ hw.isInfix) h
  have hv' : v <:+ '<' :: '/' :: 'h' :: '1' :: '>' :: a := hv
  rcases suffix_cons_cases hv' with e | hv'
  · exact absurd e hne
  rcases suffix_cons_cases hv' with rfl | hv'
  · rfl
  rcases suffix_cons_cases hv' with rfl | hv'
  · rfl
  rcases suffix_cons_cases hv' with rfl | hv'
  · rfl
  rcases suffix_cons_cases hv' with rfl | hv'
  · rfl
  exact key v hv'

theorem clean_of_no_open (t : Str) (h : ¬ openTag <:+: t) : Clean t := by
  intro v hv
  have : stripLit openTag v = none := by
    cases hs : stripLit openTag v with
    | none => rfl
    | some r =>
      exact absurd (List.IsInfix.trans ⟨[], r, by simpa using (stripLit_eq_some.1 hs).symm⟩ hv.isInfix) h
  show matchAt [Tok.lit openTag, Tok.dotStar true, Tok.lit closeTag] v = none
  simp [matchAt, this]

theorem Line.text_noLF (l : Line) (h : l.WellFormed) : '\n' ∉ l.text := by
  cases l with
  | plain t => exact h.1
  | block b i a =>
    obtain ⟨hb, hi, ha, -, -⟩ := h
    intro e
    simp only [Line.text, h1Block, List.mem_append] at e
    rcases e with (e | ((e | e) | e)) | e
    · exact hb e
    · revert e; decide
    · exact hi e
    · revert e; decide
    · exact ha e

theorem removeGroups_wellFormed (l : Line) (h : l.WellFormed) (G : List Str)
    (hG : ∀ g ∈ G, IsSpan g) (hsort : G.Pairwise (fun a b => byteLen b ≤ byteLen a))
    (hsub : ∀ g ∈ reH1.FindAllString l.text, g ∈ G) : removeGroups l.text G = l.stripped := by
  cases l with
  | plain t => exact removeGroups_clean t G h.1 (clean_of_no_open t h.2) hG
  | block b i a =>
    obtain ⟨hb, hi, ha, hbo, hac⟩ := h
    have e : (Line.block b i a).text = b ++ (openTag ++ (('>' :: i) ++ (closeTag ++ a))) := by
      simp [Line.text, h1Block, openTag, closeTag]
    have hx : '\n' ∉ '>' :: i := by
      intro e'
      rcases List.mem_cons.1 e' with e' | e'
      · revert e'; decide
      · exact hi e'
    have hopen := noOpenBefore_of_absent b (('>' :: i) ++ (closeTag ++ a)) hbo
    have hclose := noCloseAfter_of_absent a hac
    rw [e] at hsub ⊢
    rw [FindAllString_block b ('>' :: i) a hb hx ha hopen hclose] at hsub
    exact removeGroups_line b ('>' :: i) a G hb ha hopen hclose hG hsort (hsub _ (by simp))

theorem removeGroups_lines (ls : List Line) (h : ∀ l ∈ ls, l.WellFormed) (G : List Str)
    (hG : ∀ g ∈ G, IsSpan g) (hsort : G.Pairwise (fun a b => byteLen b ≤ byteLen a))
    (hsub : ∀ g ∈ reH1.FindAllString (joinLines (ls.map Line.text)), g ∈ G) :
    removeGroups (joinLines (ls.map Line.text)) G = joinLines (ls.map Line.stripped) := by
  induction ls with
  | nil => exact removeGroups_clean [] G (by simp) (clean_of_no_open [] (by decide)) hG
  | cons l rest ih =>
    cases rest with
    | nil => exact removeGroups_wellFormed l (h l (by simp)) G hG hsort hsub
    | cons l' rest' =>
      have hl := h l (by simp)
      have hn := Line.text_noLF l hl
      have e1 : joinLines ((l :: l' :: rest').map Line.text)
          = l.text ++ '\n' :: joinLines ((l' :: rest').map Line.text) := rfl
      have e2 : joinLines ((l :: l' :: rest').map Line.stripped)
          = l.stripped ++ '\n' :: joinLines ((l' :: rest').map Line.stripped) := rfl
      rw [e1, FindAllString_split _ _ hn] at hsub
      rw [e1, e2, removeGroups_split _ _ G hn hG,
        removeGroups_wellFormed l hl G hG hsort (fun g hg => hsub g (List.mem_append_left _ hg)),
        ih (fun x hx => h x (by simp [hx])) (fun g hg => hsub g (List.mem_append_right _ hg))]

/-! ### The archive path of a nested source -/

theorem archivePath_graphicsSrc (X Y F : Str) (hF : ∀ c ∈ F, nameChar c = true) (hne : F ≠ []) :
    archivePath (graphicsSrc X Y F) = "../images/".toList ++ F := by
  unfold archivePath graphicsSrc
  rw [filepathBase_name _ F hne (fun c hc => nameChar_ne _ (hF c hc) (by decide))]

/-- A page in which `<img src="..."` matches nowhere comes back as it is. -/
theorem fixImgInternalSrc_no_refs (page isbn : Str) (h : reImgSrc.FindAllStringSubmatch page = []) :
    fixImgInternalSrc page isbn = (page, []) := by
  unfold fixImgInternalSrc
  simp [h]

theorem twoChapter_fetch : ∀ ch ∈ twoChapterTOC.Chapters, ∀ s ∈ ch.Sections,
    ∃ page, fetchPage twoChapterEnv "tok".toList "9".toList ch.ID s.ID = Except.ok (some page) := by
  intro ch hch s hs
  exact ⟨_, rfl⟩

/-! ### Pages of several image tags -/

theorem pageWith_nil (tag : ImgItem → Str) (closing : Str) : pageWith tag [] closing = closing := rfl

theorem pageWith_cons (tag : ImgItem → Str) (i : ImgItem) (rest : List ImgItem) (closing : Str) :
    pageWith tag (i :: rest) closing = i.text ++ (tag i ++ pageWith tag rest closing) := by
  simp [pageWith]

/-- In text that does not hold a literal, followed by a character that the
tail of the literal does not hold, the literal starts nowhere. -/
theorem stripLit_text (c : Char) (l : Str) (d : Char) (hd : d ∉ l) (T rest t : Str)
    (hT : ¬ (c :: l) <:+: T) (ht : t <:+ T) (hne : t ≠ []) :
    stripLit (c :: l) (t ++ d :: rest) = none := by
  cases hs : stripLit (c :: l) (t ++ d :: rest) with
  | none => rfl
  | some r =>
    exfalso
    have e := stripLit_eq_some.1 hs
    rcases List.append_eq_append_iff.1 e with ⟨a, h1, h2⟩ | ⟨a, h1, h2⟩
    · -- c :: l = t ++ a
      cases a with
      | nil =>
        rw [List.append_nil] at h1
        exact hT (h1 ▸ ht.isInfix)
      | cons x a' =>
        rw [List.cons_append] at h2
        have hx : d = x := (List.cons.inj h2).1
        subst hx
        cases t with
        | nil => exact hne rfl
        | cons y t' =>
          rw [List.cons_append] at h1
          have : l = t' ++ d :: a' := (List.cons.inj h1).2
          exact hd (by rw [this]; simp)
    · -- t = (c :: l) ++ a
      exact hT (List.IsInfix.trans ⟨[], a, by simpa using h1.symm⟩ ht.isInfix)

theorem scan_text (c : Char) (l : Str) (ts : List Tok) (d : Char) (hd : d ∉ l) (T rest : Str)
    (hT : ¬ (c :: l) <:+: T) :
    scan (Tok.lit (c :: l) :: ts) (T ++ d :: rest)
      = T.map Piece.char ++ scan (Tok.lit (c :: l) :: ts) (d :: rest) := by
  apply scan_before
  intro t ht hne
  simp only [matchAt, stripLit_text c l d hd T rest t hT ht hne]

theorem Regex.replace_text (re : Regex) (c : Char) (l : Str) (ts : List Tok)
    (hre : re.toks = Tok.lit (c :: l) :: ts) (tpl : List Repl) (d : Char) (hd : d ∉ l)
    (T rest : Str) (hT : ¬ (c :: l) <:+: T) :
    re.ReplaceAllString (T ++ d :: rest) tpl = T ++ re.ReplaceAllString (d :: rest) tpl := by
  unfold Regex.ReplaceAllString
  rw [hre, scan_text c l ts d hd T rest hT, List.map_append, List.flatten_append,
    flatten_render_chars]

theorem matchesOf_text (c : Char) (l : Str) (ts : List Tok) (d : Char) (hd : d ∉ l) (T rest : Str)
    (hT : ¬ (c :: l) <:+: T) :
    matchesOf (Tok.lit (c :: l) :: ts) (T ++ d :: rest)
      = matchesOf (Tok.lit (c :: l) :: ts) (d :: rest) := by
  unfold matchesOf
  rw [scan_text c l ts d hd T rest hT, List.filterMap_append, filterMap_match_chars,
    List.nil_append]

theorem matchesOf_no_lit (c : Char) (l : Str) (ts : List Tok) (u : Str) (h : ¬ (c :: l) <:+: u) :
    matchesOf (Tok.lit (c :: l) :: ts) u = [] := by
  unfold matchesOf
  rw [scan_no_lit l c ts u h, filterMap_match_chars]

theorem absent_append {a b t : Str} (h : ¬ a <:+: t) : ¬ (a ++ b) <:+: t :=
  fun hi => h (List.IsInfix.trans ⟨[], b, by simp⟩ hi)

theorem nameChars_avoid {F : Str} (hF : ∀ c ∈ F, nameChar c = true) (d : Char)
    (hd : nameChar d = false) : ∀ c ∈ F, c ≠ d :=
  fun c hc => nameChar_ne d (hF c hc) hd

/-- Pass 1 on one image: the reference of the tag, then the matches of the rest. -/
theorem matchesOf_imgTag (i : ImgItem) (hi : i.WellFormed) (rest : Str) :
    matchesOf reImgSrc.toks (i.text ++ (imgTag i.src ++ rest))
      = ["<img src=\"".toList, i.src, "\"".toList] :: matchesOf reImgSrc.toks rest := by
  obtain ⟨⟨hT, -, -⟩, hX, hY, hF, -⟩ := hi
  have hre : reImgSrc.toks = Tok.lit ('<' :: "img src=\"".toList) ::
      [Tok.dotStar false, Tok.lit "\"".toList] := rfl
  have e : imgTag i.src ++ rest = '<' :: ("img src=\"".toList ++ (i.src ++ ("\"".toList ++ ('>' :: rest)))) := by
    simp [imgTag]
  have hm : matchAt reImgSrc.toks (imgTag i.src ++ rest)
      = some (["<img src=\"".toList, i.src, "\"".toList], '>' :: rest) := by
    have := matchAt_lazy3 "<img src=\"".toList '"' [] i.src ('>' :: rest)
      (fun x hx => ⟨graphicsSrc_avoid i.X i.Y i.F _ (by decide) (by decide) hX hY hF x hx,
        graphicsSrc_avoid i.X i.Y i.F _ (by decide) (by decide) hX hY hF x hx⟩)
    simpa [imgTag, reImgSrc] using this
  rw [hre] at hm ⊢
  have hT' : ¬ ('<' :: "img src=\"".toList) <:+: i.text :=
    absent_append (a := "<img".toList) (b := " src=\"".toList) hT
  have hskip := matchesOf_text '<' "img src=\"".toList [Tok.dotStar false, Tok.lit "\"".toList]
    '<' (by decide) i.text ("img src=\"".toList ++ (i.src ++ ("\"".toList ++ ('>' :: rest)))) hT'
  rw [e, hskip, ← e, matchesOf_hit _ _ _ _ _ _ hm]
  have := matchesOf_skip '<' "img src=\"".toList [Tok.dotStar false, Tok.lit "\"".toList]
    ['>'] rest (by decide)
  rw [List.singleton_append] at this
  rw [this]

theorem matchesOf_page (items : List ImgItem) (closing : Str) (h : ∀ i ∈ items, i.WellFormed)
    (hc : PlainText closing) :
    matchesOf reImgSrc.toks (pageWith (fun i => imgTag i.src) items closing)
      = items.map fun i => ["<img src=\"".toList, i.src, "\"".toList] := by
  induction items with
  | nil =>
    rw [pageWith_nil]
    exact matchesOf_no_lit '<' "img src=\"".toList _ closing
      (absent_append (a := "<img".toList) (b := " src=\"".toList) hc.1)
  | cons i rest ih =>
    rw [pageWith_cons, matchesOf_imgTag i (h i (by simp)), ih (fun x hx => h x (by simp [hx]))]
    rfl

/-- Pass 2 on one image: the nested path of the tag becomes `../images/`. -/
theorem replaceGraphics_imgTag (i : ImgItem) (hi : i.WellFormed) (rest : Str) :
    reGraphics2.ReplaceAllString (i.text ++ (imgTag i.src ++ rest)) [Repl.text "../images/".toList]
      = i.text ++ (imgTag ("../images/".toList ++ i.F) ++
          reGraphics2.ReplaceAllString rest [Repl.text "../images/".toList]) := by
  obtain ⟨⟨-, -, hT⟩, hX, hY, hF, -⟩ := hi
  have hX' : ∀ c ∈ i.X, c ≠ '\n' ∧ c ≠ '/' := fun c hc =>
    ⟨nameChar_ne _ (hX c hc) (by decide), nameChar_ne _ (hX c hc) (by decide)⟩
  have hY' : ∀ c ∈ i.Y, c ≠ '\n' ∧ c ≠ '/' := fun c hc =>
    ⟨nameChar_ne _ (hY c hc) (by decide), nameChar_ne _ (hY c hc) (by decide)⟩
  have e : imgTag i.src ++ rest = '<' :: ("img src=\"".toList ++
      ("/graphics/".toList ++ (i.X ++ ("/graphics/".toList ++ (i.Y ++ ("/".toList ++
        ((i.F ++ "\">".toList) ++ rest))))))) := by
    simp [imgTag, ImgItem.src, graphicsSrc]
  have hm := matchAt_graphics2 i.X i.Y ((i.F ++ "\">".toList) ++ rest) hX' hY'
  rw [e, Regex.replace_text reGraphics2 '/' "graphics/".toList _ rfl _ '<' (by decide) _ _ hT,
    ← List.cons_append,
    Regex.replace_skip reGraphics2 '/' "graphics/".toList _ rfl _ ('<' :: "img src=\"".toList) _
      (by decide),
    Regex.replace_hit reGraphics2 '/' "graphics/".toList _ rfl _ _ _ _ hm,
    Regex.replace_skip reGraphics2 '/' "graphics/".toList _ rfl _ (i.F ++ "\">".toList) rest
      (List.forall_mem_append.2 ⟨nameChars_avoid hF _ (by decide), by decide⟩)]
  simp [imgTag, Regex.expand]

theorem replaceGraphics_page (items : List ImgItem) (closing : Str)
    (h : ∀ i ∈ items, i.WellFormed) (hc : PlainText closing) :
    reGraphics2.ReplaceAllString (pageWith (fun i => imgTag i.src) items closing)
        [Repl.text "../images/".toList]
      = pageWith (fun i => imgTag ("../images/".toList ++ i.F)) items closing := by
  induction items with
  | nil =>
    rw [pageWith_nil, pageWith_nil]
    exact Regex.replace_no_lit reGraphics2 '/' "graphics/".toList _ rfl _ closing hc.2.2
  | cons i rest ih =>
    rw [pageWith_cons, pageWith_cons, replaceGraphics_imgTag i (h i (by simp)),
      ih (fun x hx => h x (by simp [hx]))]

/-- Pass 3 on one image: the tag is closed. -/
theorem replaceImgTag_imgTag (i : ImgItem) (hi : i.WellFormed) (rest : Str) :
    reImgTag.ReplaceAllString (i.text ++ (imgTag ("../images/".toList ++ i.F) ++ rest)) selfClosing
      = i.text ++ (imgClosed ("../images/".toList ++ i.F) ++
          reImgTag.ReplaceAllString rest selfClosing) := by
  obtain ⟨⟨hT, -, -⟩, -, -, hF, -⟩ := hi
  have e : imgTag ("../images/".toList ++ i.F) ++ rest
      = '<' :: ("img".toList ++ ((" src=\"../images/".toList ++ (i.F ++ "\"".toList)) ++ (['>'] ++ rest))) := by
    simp [imgTag]
  have hm := matchAt_lazy3 "<img".toList '>' [] (" src=\"../images/".toList ++ (i.F ++ "\"".toList)) rest
    (List.forall_mem_append.2 ⟨by decide, List.forall_mem_append.2
      ⟨fun x hx => ⟨nameChars_avoid hF _ (by decide) x hx, nameChars_avoid hF _ (by decide) x hx⟩,
        by decide⟩⟩)
  have e2 : '<' :: ("img".toList ++ ((" src=\"../images/".toList ++ (i.F ++ "\"".toList)) ++ (['>'] ++ rest)))
      = "<img".toList ++ ((" src=\"../images/".toList ++ (i.F ++ "\"".toList)) ++ (['>'] ++ rest)) := rfl
  rw [e, Regex.replace_text reImgTag '<' "img".toList _ rfl _ '<' (by decide) _ _ hT, e2,
    Regex.replace_hit reImgTag '<' "img".toList _ rfl _ _ _ _ hm]
  simp [imgClosed, Regex.expand, selfClosing, Regex.group, reImgTag]

theorem replaceImgTag_page (items : List ImgItem) (closing : Str)
    (h : ∀ i ∈ items, i.WellFormed) (hc : PlainText closing) :
    reImgTag.ReplaceAllString (pageWith (fun i => imgTag ("../images/".toList ++ i.F)) items closing)
        selfClosing
      = pageWith (fun i => imgClosed ("../images/".toList ++ i.F)) items closing := by
  induction items with
  | nil =>
    rw [pageWith_nil, pageWith_nil]
    exact Regex.replace_no_lit reImgTag '<' "img".toList _ rfl _ closing hc.1
  | cons i rest ih =>
    rw [pageWith_cons, pageWith_cons, replaceImgTag_imgTag i (h i (by simp)),
      ih (fun x hx => h x (by simp [hx]))]

/-- Pass 4 on one image: the closed tag is no line-break tag. -/
theorem replaceBrTag_imgTag (i : ImgItem) (hi : i.WellFormed) (rest : Str) :
    reBrTag.ReplaceAllString (i.text ++ (imgClosed ("../images/".toList ++ i.F) ++ rest)) selfClosing
      = i.text ++ (imgClosed ("../images/".toList ++ i.F) ++
          reBrTag.ReplaceAllString rest selfClosing) := by
  obtain ⟨⟨-, hT, -⟩, -, -, hF, -⟩ := hi
  have e : imgClosed ("../images/".toList ++ i.F) ++ rest
      = '<' :: (("img src=\"../images/".toList ++ (i.F ++ "\"/>".toList)) ++ rest) := by
    simp [imgClosed]
  rw [e, Regex.replace_text reBrTag '<' "br".toList _ rfl _ '<' (by decide) _ _ hT,
    Regex.replace_miss reBrTag '<' "br".toList _ rfl _ _ _ (by simp [reBrTag, matchAt, stripLit]),
    Regex.replace_skip reBrTag '<' "br".toList _ rfl _ _ rest
      (List.forall_mem_append.2 ⟨by decide, List.forall_mem_append.2
        ⟨nameChars_avoid hF _ (by decide), by decide⟩⟩)]
  simp [imgClosed]

theorem replaceBrTag_page (items : List ImgItem) (closing : Str)
    (h : ∀ i ∈ items, i.WellFormed) (hc : PlainText closing) :
    reBrTag.ReplaceAllString (pageWith (fun i => imgClosed ("../images/".toList ++ i.F)) items closing)
        selfClosing
      = pageWith (fun i => imgClosed ("../images/".toList ++ i.F)) items closing := by
  induction items with
  | nil =>
    rw [pageWith_nil]
    exact Regex.replace_no_lit reBrTag '<' "br".toList _ rfl _ closing hc.2.1
  | cons i rest ih =>
    rw [pageWith_cons, replaceBrTag_imgTag i (h i (by simp)),
      ih (fun x hx => h x (by simp [hx]))]

theorem pageWith_archivePath (items : List ImgItem) (closing : Str)
    (h : ∀ i ∈ items, i.WellFormed) :
    pageWith (fun i => imgClosed ("../images/".toList ++ i.F)) items closing
      = pageWith (fun i => imgClosed (archivePath i.src)) items closing := by
  have hmap : (items.map fun i => i.text ++ imgClosed ("../images/".toList ++ i.F))
      = items.map fun i => i.text ++ imgClosed (archivePath i.src) := by
    apply List.map_congr_left
    intro i hi
    obtain ⟨-, -, -, hF, hne⟩ := h i hi
    rw [ImgItem.src, archivePath_graphicsSrc i.X i.Y i.F hF hne]
  unfold pageWith
  rw [hmap]

/-- `fixImgInternalSrc` on a page of images with nested sources: every tag is
rewritten to the archive path of its source and closed; the references are the
sources, in order. -/
theorem fixImgInternalSrc_page (items : List ImgItem) (closing isbn : Str)
    (h : ∀ i ∈ items, i.WellFormed) (hc : PlainText closing) :
    fixImgInternalSrc (pageWith (fun i => imgTag i.src) items closing) isbn
      = (pageWith (fun i => imgClosed (archivePath i.src)) items closing,
          items.map fun i => ["<img src=\"".toList ++ i.src ++ "\"".toList, i.src]) := by
  have h1 : reImgSrc.FindAllStringSubmatch (pageWith (fun i => imgTag i.src) items closing)
      = items.map fun i => ["<img src=\"".toList ++ i.src ++ "\"".toList, i.src] := by
    unfold Regex.FindAllStringSubmatch
    rw [matchesOf_page items closing h hc, List.map_map]
    apply List.map_congr_left
    intro i _
    simp [reImgSrc, Regex.group, List.range_succ]
  unfold fixImgInternalSrc
  simp only [h1]
  cases items with
  | nil => simp [pageWith]
  | cons i rest =>
    simp only [List.map_cons, List.length_cons, Nat.succ_ne_zero, if_false]
    rw [replaceGraphics_page _ closing h hc, replaceImgTag_page _ closing h hc,
      replaceBrTag_page _ closing h hc, pageWith_archivePath _ closing h]

/-! ### The scratch files and the registry -/

theorem Tracked.refl (st : State) : Tracked st st :=
  ⟨[], by simp, by simp⟩

theorem Tracked.trans {a b c : State} (h1 : Tracked a b) (h2 : Tracked b c) : Tracked a c := by
  obtain ⟨d1, t1, s1⟩ := h1
  obtain ⟨d2, t2, s2⟩ := h2
  exact ⟨d1 ++ d2, by rw [t2, t1, List.append_assoc], by rw [s2, s1, List.append_assoc]⟩

theorem Tracked.recorded {a b : State} (h : Tracked a b) (ha : Recorded a) : Recorded b := by
  obtain ⟨d, t, s⟩ := h
  intro p hp
  rw [s] at hp
  rw [t]
  rcases List.mem_append.1 hp with hp | hp
  · exact List.mem_append_left _ (ha p hp)
  · exact List.mem_append_right _ hp

theorem EmbedEPubImage_tracked (env : Env) (isbn : Str) (urls : List (List Str)) (st : State) :
    Tracked st (EmbedEPubImage env isbn urls st).1 := by
  induction urls generalizing st with
  | nil => exact Tracked.refl st
  | cons u rest ih =>
    simp only [EmbedEPubImage]
    split
    · exact Tracked.refl st
    · split
      · refine Tracked.trans ⟨[scratchPath env _], rfl, rfl⟩ (ih _)
      · exact Tracked.trans ⟨[], by simp, by simp⟩ (ih _)

theorem addPage_tracked (env : Env) (token isbn chapterId pageId title : Str) (st : State) :
    Tracked st (addPage env token isbn chapterId pageId title st).1 := by
  unfold addPage
  split
  · exact Tracked.refl st
  · exact Tracked.refl st
  · rename_i page _
    have key : Tracked st
        (if (fixImgInternalSrc page isbn).2.length > 0
          then EmbedEPubImage env isbn (fixImgInternalSrc page isbn).2 st else (st, none)).1 := by
      split
      · exact EmbedEPubImage_tracked env isbn _ st
      · exact Tracked.refl st
    simp only
    split
    · exact key
    · obtain ⟨d, t, s⟩ := key
      exact ⟨d, t, s⟩

theorem sectionLoop_tracked (env : Env) (token isbn chapterId : Str) (secs : List Section)
    (curr : Nat) (st : State) :
    Tracked st (sectionLoop env token isbn chapterId secs curr st).1 := by
  induction secs generalizing curr st with
  | nil => exact Tracked.refl st
  | cons s rest ih =>
    simp only [sectionLoop]
    split
    · have h1 := addPage_tracked env token isbn chapterId s.ID s.Title st
      split
      · rename_i st1 stop heq
        rw [heq] at h1
        exact h1
      · rename_i st1 heq
        rw [heq] at h1
        exact Tracked.trans h1 (ih _ _)
    · exact ih _ _

theorem chapterLoop_tracked (env : Env) (token isbn : Str) (chs : List Chapter) (st : State) :
    Tracked st (chapterLoop env token isbn chs st).1 := by
  induction chs generalizing st with
  | nil => exact Tracked.refl st
  | cons ch rest ih =>
    simp only [chapterLoop]
    split
    · exact Tracked.refl st
    · rename_i first _
      have h1 := addPage_tracked env token isbn ch.ID first.ID ch.Title st
      split
      · rename_i st1 stop heq
        rw [heq] at h1
        exact h1
      · rename_i st1 heq
        rw [heq] at h1
        have h2 := sectionLoop_tracked env token isbn ch.ID ch.Sections 0 st1
        split
        · rename_i st2 stop heq2
          rw [heq2] at h2
          exact Tracked.trans h1 h2
        · rename_i st2 heq2
          rw [heq2] at h2
          exact Tracked.trans h1 (Tracked.trans h2 (ih _))

theorem commit_tracked (env : Env) (token isbn : Str) (chs : List Chapter) (w : Bool)
    (file title : Str) (st st0 : State) (h0 : Tracked st st0) :
    Tracked st
      (match chapterLoop env token isbn chs st0 with
        | (st1, some stop) => (st1, Outcome.stopped stop)
        | (st1, none) =>
          if w then
            ({ st1 with written := st1.written ++ [(file, st1.e)] }, Outcome.returned title)
          else (st1, Outcome.stopped (Stop.exit 1))).1 := by
  have h1 := Tracked.trans h0 (chapterLoop_tracked env token isbn chs st0)
  split
  · rename_i st1 stop heq
    rw [heq] at h1
    exact h1
  · rename_i st1 heq
    rw [heq] at h1
    split
    · obtain ⟨d, t, s⟩ := h1
      exact ⟨d, t, s⟩
    · exact h1

theorem DownloadAsEpub_tracked (env : Env) (token isbn : Str) (st : State) :
    Tracked st (DownloadAsEpub env token isbn st).1 := by
  unfold DownloadAsEpub
  split
  · exact Tracked.refl st
  · rename_i summary toc e _
    simp only
    split
    · exact commit_tracked env token isbn toc.Chapters _ _ _ st _
        ⟨[scratchPath env summary.CoverImage], rfl, rfl⟩
    · exact ⟨[], by simp, by simp⟩

theorem EmbedEPubImage_written (env : Env) (isbn : Str) (urls : List (List Str)) (st : State) :
    (EmbedEPubImage env isbn urls st).1.written = st.written := by
  induction urls generalizing st with
  | nil => rfl
  | cons u rest ih =>
    simp only [EmbedEPubImage]
    split
    · rfl
    · split
      · rw [ih]
      · rw [ih]

theorem addPage_written (env : Env) (token isbn chapterId pageId title : Str) (st : State) :
    (addPage env token isbn chapterId pageId title st).1.written = st.written := by
  unfold addPage
  split
  · rfl
  · rfl
  · rename_i page _
    have key : (if (fixImgInternalSrc page isbn).2.length > 0
          then EmbedEPubImage env isbn (fixImgInternalSrc page isbn).2 st else (st, none)).1.written
        = st.written := by
      split
      · exact EmbedEPubImage_written env isbn _ st
      · rfl
    simp only
    split
    · exact key
    · exact key

theorem sectionLoop_written (env : Env) (token isbn chapterId : Str) (secs : List Section)
    (curr : Nat) (st : State) :
    (sectionLoop env token isbn chapterId secs curr st).1.written = st.written := by
  induction secs generalizing curr st with
  | nil => rfl
  | cons s rest ih =>
    simp only [sectionLoop]
    split
    · have h1 := addPage_written env token isbn chapterId s.ID s.Title st
      split
      · rename_i st1 stop heq
        rw [heq] at h1
        exact h1
      · rename_i st1 heq
        rw [heq] at h1
        rw [ih, h1]
    · exact ih _ _

theorem chapterLoop_written (env : Env) (token isbn : Str) (chs : List Chapter) (st : State) :
    (chapterLoop env token isbn chs st).1.written = st.written := by
  induction chs generalizing st with
  | nil => rfl
  | cons ch rest ih =>
    simp only [chapterLoop]
    split
    · rfl
    · rename_i first _
      have h1 := addPage_written env token isbn ch.ID first.ID ch.Title st
      split
      · rename_i st1 stop heq
        rw [heq] at h1
        exact h1
      · rename_i st1 heq
        rw [heq] at h1
        have h2 := sectionLoop_written env token isbn ch.ID ch.Sections 0 st1
        split
        · rename_i st2 stop heq2
          rw [heq2] at h2
          rw [h2, h1]
        · rename_i st2 heq2
          rw [heq2] at h2
          rw [ih, h2, h1]

theorem removeTmpFiles_eq (st : State) (log : Calls) :
    removeTmpFiles st log = { removes := log.removes ++ st.tmpfiles, mkdirs := log.mkdirs } := by
  unfold removeTmpFiles
  generalize st.tmpfiles = l
  induction l generalizing log with
  | nil => simp
  | cons a rest ih => rw [List.foldl_cons, ih]; simp

theorem remaining_not_mem (files removes : List Str) (p : Str) (h : p ∈ removes) :
    p ∉ remaining files removes := by
  unfold remaining
  simp [h]

/-! ### The traversal, page by page -/

theorem addPages_append (env : Env) (token isbn : Str) (a b : List (Str × Str × Str)) (st : State) :
    addPages env token isbn (a ++ b) st
      = match addPages env token isbn a st with
        | (st1, some stop) => (st1, some stop)
        | (st1, none) => addPages env token isbn b st1 := by
  induction a generalizing st with
  | nil => rfl
  | cons p rest ih =>
    simp only [List.cons_append, addPages]
    rcases h : addPage env token isbn p.1 p.2.1 p.2.2 st with ⟨st1, _ | stop⟩
    · exact ih st1
    · rfl

theorem sectionLoop_eq_addPages (env : Env) (token isbn chapterId : Str) (secs : List Section)
    (curr : Nat) (st : State) :
    sectionLoop env token isbn chapterId secs (curr + 1) st
      = addPages env token isbn (secs.map fun s => (chapterId, s.ID, s.Title)) st := by
  induction secs generalizing curr st with
  | nil => rfl
  | cons s rest ih =>
    simp only [sectionLoop, Nat.succ_pos, if_true, gt_iff_lt, List.map_cons, addPages]
    rcases h : addPage env token isbn chapterId s.ID s.Title st with ⟨st1, _ | stop⟩
    · exact ih (curr + 1) st1
    · rfl

theorem chapterLoop_cons (env : Env) (token isbn : Str) (ch : Chapter) (rest : List Chapter)
    (first : Section) (later : List Section) (st : State) (hS : ch.Sections = first :: later) :
    chapterLoop env token isbn (ch :: rest) st
      = match addPages env token isbn (pagesOf [ch]) st with
        | (st1, some stop) => (st1, some stop)
        | (st1, none) => chapterLoop env token isbn rest st1 := by
  have hp : pagesOf [ch] = (ch.ID, first.ID, ch.Title) :: later.map fun s => (ch.ID, s.ID, s.Title) := by
    simp [pagesOf, hS]
  rw [hp]
  simp only [chapterLoop, hS, List.get?_cons_zero, addPages]
  rcases h : addPage env token isbn ch.ID first.ID ch.Title st with ⟨st1, _ | stop⟩
  · simp only [sectionLoop, gt_iff_lt, Nat.lt_irrefl, if_false]
    have e := sectionLoop_eq_addPages env token isbn ch.ID later 0 st1
    rcases h2 : addPages env token isbn (later.map fun s => (ch.ID, s.ID, s.Title)) st1
      with ⟨st2, _ | stop⟩ <;> simp only [e, h2]
  · rfl

theorem pagesOf_cons (ch : Chapter) (rest : List Chapter) :
    pagesOf (ch :: rest) = pagesOf [ch] ++ pagesOf rest := by
  simp [pagesOf]

/-- On chapters that all have a section, the two loops of `DownloadAsEpub` are
the steps of `addPage` over the pages of the traversal. -/
theorem chapterLoop_eq_addPages (env : Env) (token isbn : Str) (chs : List Chapter) (st : State)
    (h : ∀ ch ∈ chs, ch.Sections ≠ []) :
    chapterLoop env token isbn chs st = addPages env token isbn (pagesOf chs) st := by
  induction chs generalizing st with
  | nil => rfl
  | cons ch rest ih =>
    cases hS : ch.Sections with
    | nil => exact absurd hS (h ch (by simp))
    | cons first later =>
      rw [chapterLoop_cons env token isbn ch rest first later st hS]
      conv_rhs => rw [pagesOf_cons, addPages_append]
      rcases h1 : addPages env token isbn (pagesOf [ch]) st with ⟨st1, _ | stop⟩
      · exact ih st1 (fun c hc => h c (by simp [hc]))
      · rfl

theorem chapterLoop_append (env : Env) (token isbn : Str) (a b : List Chapter) (st : State) :
    chapterLoop env token isbn (a ++ b) st
      = match chapterLoop env token isbn a st with
        | (st1, some stop) => (st1, some stop)
        | (st1, none) => chapterLoop env token isbn b st1 := by
  induction a generalizing st with
  | nil => rfl
  | cons ch rest ih =>
    simp only [List.cons_append, chapterLoop]
    cases ch.Sections.get? 0 with
    | none => rfl
    | some first =>
      simp only
      rcases h1 : addPage env token isbn ch.ID first.ID ch.Title st with ⟨st1, _ | stop⟩
      · simp only
        rcases h2 : sectionLoop env token isbn ch.ID ch.Sections 0 st1 with ⟨st2, _ | stop⟩
        · exact ih st2
        · rfl
      · rfl

/-! ### The page fetch -/

theorem DownloadPage_transport (env : Env) (url : Str) :
    DownloadPage env url = Except.ok none ↔ env.http url none = HttpOutcome.transportError := by
  unfold DownloadPage
  cases h : env.http url none <;> simp

theorem DownloadPage_response (env : Env) (url : Str) (status : Nat) (body : Str)
    (h : env.http url none = HttpOutcome.response status body) :
    DownloadPage env url = Except.ok (some body) := by
  unfold DownloadPage
  rw [h]

theorem DownloadPage_broken (env : Env) (url : Str) (status : Nat) (read : Str)
    (h : env.http url none = HttpOutcome.brokenBody status read) :
    DownloadPage env url = Except.ok (some read) := by
  unfold DownloadPage
  rw [h]

theorem addPage_failed (env : Env) (token isbn chapterId pageId title : Str) (st : State)
    (h : fetchPage env token isbn chapterId pageId = Except.ok none) :
    addPage env token isbn chapterId pageId title st = (st, some (Stop.exit 1)) := by
  unfold addPage
  rw [h]

theorem addPage_stopped (env : Env) (token isbn chapterId pageId title : Str) (st : State)
    (stop : Stop) (h : fetchPage env token isbn chapterId pageId = Except.error stop) :
    addPage env token isbn chapterId pageId title st = (st, some stop) := by
  unfold addPage
  rw [h]

theorem addPages_stop (env : Env) (token isbn : Str) (pre post : List (Str × Str × Str))
    (p : Str × Str × Str) (st st1 : State) (stop : Stop)
    (hpre : addPages env token isbn pre st = (st1, none))
    (hp : addPage env token isbn p.1 p.2.1 p.2.2 st1 = (st1, some stop)) :
    addPages env token isbn (pre ++ p :: post) st = (st1, some stop) := by
  rw [addPages_append, hpre]
  simp only [addPages, hp]

/-! ### What a run can tell of its environment -/

theorem scratchPath_congr {env env1 : Env} (h : Alike env env1) (src : Str) :
    scratchPath env1 src = scratchPath env src := by
  unfold scratchPath
  rw [h.homeDir]

theorem getBody_congr {env env1 : Env} (h : Alike env env1) (url : Str) :
    getBody env1 url none = getBody env url none := by
  unfold getBody
  rw [h.http]

theorem GetSummary_congr {env env1 : Env} (h : Alike env env1) (isbn : Str) :
    GetSummary env1 isbn = GetSummary env isbn := by
  unfold GetSummary
  rw [getBody_congr h]
  cases getBody env _ none with
  | error s => rfl
  | ok body => simp [Except.map, h.summary]

theorem GetAuthor_congr {env env1 : Env} (h : Alike env env1) (authorId : Str) :
    GetAuthor env1 authorId = GetAuthor env authorId := by
  unfold GetAuthor
  rw [getBody_congr h]
  cases getBody env _ none with
  | error s => rfl
  | ok body => simp [Except.map, h.author]

theorem DownloadPage_congr {env env1 : Env} (h : Alike env env1) (url : Str) :
    DownloadPage env1 url = DownloadPage env url := by
  unfold DownloadPage
  rw [h.http]

theorem fetchPage_congr {env env1 : Env} (h : Alike env env1) (token isbn chapterId pageId : Str)
    (hreq : env1.http (pageAddress isbn chapterId pageId) (some token)
      = env.http (pageAddress isbn chapterId pageId) (some token)) :
    fetchPage env1 token isbn chapterId pageId = fetchPage env token isbn chapterId pageId := by
  unfold fetchPage GetPage getBody
  rw [hreq]
  cases env.http (pageAddress isbn chapterId pageId) (some token) with
  | invalidRequest => rfl
  | transportError => rfl
  | response status body => simp [Except.map, h.page, DownloadPage_congr h]
  | brokenBody status read => simp [Except.map, h.page, DownloadPage_congr h]

theorem EmbedEPubImage_congr {env env1 : Env} (h : Alike env env1) (isbn : Str)
    (urls : List (List Str)) (st : State) :
    EmbedEPubImage env1 isbn urls st = EmbedEPubImage env isbn urls st := by
  induction urls generalizing st with
  | nil => rfl
  | cons u rest ih =>
    simp only [EmbedEPubImage, scratchPath_congr h, h.grabGet, ih]

theorem addPage_congr {env env1 : Env} (h : Alike env env1) (token isbn chapterId pageId title : Str)
    (st : State)
    (hreq : env1.http (pageAddress isbn chapterId pageId) (some token)
      = env.http (pageAddress isbn chapterId pageId) (some token)) :
    addPage env1 token isbn chapterId pageId title st
      = addPage env token isbn chapterId pageId title st := by
  unfold addPage
  rw [fetchPage_congr h token isbn chapterId pageId hreq]
  simp only [EmbedEPubImage_congr h]

theorem sectionLoop_congr {env env1 : Env} (h : Alike env env1) (token isbn chapterId : Str)
    (secs : List Section) (curr : Nat) (st : State)
    (hreq : ∀ s ∈ secs, env1.http (pageAddress isbn chapterId s.ID) (some token)
      = env.http (pageAddress isbn chapterId s.ID) (some token)) :
    sectionLoop env1 token isbn chapterId secs curr st
      = sectionLoop env token isbn chapterId secs curr st := by
  induction secs generalizing curr st with
  | nil => rfl
  | cons s rest ih =>
    have ih1 := fun c t => ih c t (fun x hx => hreq x (by simp [hx]))
    simp only [sectionLoop, addPage_congr h token isbn chapterId s.ID s.Title st (hreq s (by simp)),
      ih1]

theorem chapterLoop_congr {env env1 : Env} (h : Alike env env1) (token isbn : Str)
    (chs : List Chapter) (st : State)
    (hreq : ∀ ch ∈ chs, ∀ s ∈ ch.Sections, env1.http (pageAddress isbn ch.ID s.ID) (some token)
      = env.http (pageAddress isbn ch.ID s.ID) (some token)) :
    chapterLoop env1 token isbn chs st = chapterLoop env token isbn chs st := by
  induction chs generalizing st with
  | nil => rfl
  | cons ch rest ih =>
    have ih1 := fun t => ih t (fun x hx => hreq x (by simp [hx]))
    have hch := hreq ch (by simp)
    simp only [chapterLoop]
    cases hS : ch.Sections.get? 0 with
    | none => rfl
    | some first =>
      have hf : first ∈ ch.Sections := List.get?_mem hS
      simp only [addPage_congr h token isbn ch.ID first.ID ch.Title st (hch first hf),
        sectionLoop_congr h token isbn ch.ID ch.Sections 0 _ hch, ih1]

/-- A run of `DownloadAsEpub` is the same in two environments that are alike,
whose tables of contents have the same chapters and that answer the requests
for the pages of these chapters in the same way. -/
theorem DownloadAsEpub_congr {env env1 : Env} (h : Alike env env1) (token isbn : Str) (st : State)
    (hT : ∀ body, (env1.unmarshalTOC body).1.Chapters = (env.unmarshalTOC body).1.Chapters)
    (hreq : ∀ body, ∀ ch ∈ (env.unmarshalTOC body).1.Chapters, ∀ s ∈ ch.Sections,
      env1.http (pageAddress isbn ch.ID s.ID) (some token)
        = env.http (pageAddress isbn ch.ID s.ID) (some token)) :
    DownloadAsEpub env1 token isbn st = DownloadAsEpub env token isbn st := by
  unfold DownloadAsEpub fetchMetadata
  rw [GetSummary_congr h]
  cases GetSummary env isbn with
  | error s => rfl
  | ok summary =>
    simp only
    cases summary.Authors.get? 0 with
    | none => rfl
    | some a =>
      simp only
      rw [GetAuthor_congr h]
      cases GetAuthor env a with
      | error s => rfl
      | ok author =>
        simp only
        unfold GetToc
        rw [getBody_congr h]
        cases getBody env _ none with
        | error s => rfl
        | ok body =>
          simp only [Except.map, scratchPath_congr h, h.grabGet, h.epubWrite, hT body,
            chapterLoop_congr h token isbn _ _ (hreq body)]

/-! ### The two indexings of `DownloadAsEpub` -/

theorem getBody_responds {env : Env} (h : Responds env) (url : Str) (bearer : Option Str) :
    ∃ body, getBody env url bearer = Except.ok body := by
  obtain ⟨status, body, hb⟩ := h url bearer
  exact ⟨body, by unfold getBody; rw [hb]⟩

theorem fetchPage_responds {env : Env} (h : Responds env) (token isbn chapterId pageId : Str) :
    ∃ page, fetchPage env token isbn chapterId pageId = Except.ok (some page) := by
  obtain ⟨body, hb⟩ := getBody_responds h (pageAddress isbn chapterId pageId) (some token)
  obtain ⟨status, page, hp⟩ := h (env.unmarshalPage body).1.Data none
  refine ⟨page, ?_⟩
  unfold fetchPage GetPage
  rw [hb]
  exact DownloadPage_response env _ status page hp

theorem chapterLoop_responds {env : Env} (h : Responds env) (token isbn : Str)
    (chs : List Chapter) (st : State) (hsec : ∀ ch ∈ chs, ch.Sections ≠ []) :
    (chapterLoop env token isbn chs st).2 = none := by
  obtain ⟨st1, h1, -⟩ := chapterLoop_ok env token isbn chs st hsec
    (fun ch _ s _ => fetchPage_responds h token isbn ch.ID s.ID)
  rw [h1]

theorem chapterLoop_no_section {env : Env} (h : Responds env) (token isbn : Str)
    (chs : List Chapter) (st : State) (hsec : ∃ ch ∈ chs, ch.Sections = []) :
    (chapterLoop env token isbn chs st).2 = some Stop.panic := by
  induction chs generalizing st with
  | nil =>
    obtain ⟨ch, hch, -⟩ := hsec
    cases hch
  | cons ch rest ih =>
    cases hS : ch.Sections with
    | nil => simp [chapterLoop, hS]
    | cons first later =>
      have hrest : ∃ c ∈ rest, c.Sections = [] := by
        obtain ⟨c, hc, hc0⟩ := hsec
        rcases List.mem_cons.1 hc with rfl | hc
        · rw [hS] at hc0; cases hc0
        · exact ⟨c, hc, hc0⟩
      rw [chapterLoop_cons env token isbn ch rest first later st hS]
      have hone : ∀ c ∈ [ch], c.Sections ≠ [] := by
        intro c hc
        rw [List.mem_singleton.1 hc, hS]
        exact List.cons_ne_nil _ _
      have h1 := chapterLoop_responds h token isbn [ch] st hone
      rw [chapterLoop_eq_addPages env token isbn [ch] st hone] at h1
      rcases h2 : addPages env token isbn (pagesOf [ch]) st with ⟨st1, _ | stop⟩
      · exact ih st1 hrest
      · rw [h2] at h1; cases h1

theorem chapterLoop_panic_iff {env : Env} (h : Responds env) (token isbn : Str)
    (chs : List Chapter) (st : State) :
    (chapterLoop env token isbn chs st).2 = none ↔ ∀ ch ∈ chs, ch.Sections ≠ [] := by
  constructor
  · intro hn ch hch hS
    rw [chapterLoop_no_section h token isbn chs st ⟨ch, hch, hS⟩] at hn
    cases hn
  · exact chapterLoop_responds h token isbn chs st

/-- In an environment whose exchanges all end in a response and in which the
cover is downloaded, a run ends in a panic exactly when the summary has no
author or a chapter has no section. -/
theorem DownloadAsEpub_panic_iff {env : Env} (h : Responds env) (token isbn : Str) (st : State)
    (summary : Summary) (toc : TOC)
    (hcover : env.grabGet st.grabs (scratchPath env summary.CoverImage) summary.CoverImage = true)
    (hs : GetSummary env isbn = Except.ok summary) (ht : GetToc env isbn = Except.ok toc) :
    (DownloadAsEpub env token isbn st).2 ≠ Outcome.stopped Stop.panic ↔
      summary.Authors ≠ [] ∧ ∀ ch ∈ toc.Chapters, ch.Sections ≠ [] := by
  unfold DownloadAsEpub fetchMetadata
  rw [hs]
  simp only
  cases hA : summary.Authors with
  | nil => simp
  | cons a rest =>
    obtain ⟨body, hb⟩ := getBody_responds h ("https://static.packt-cdn.com/authors/".toList ++ a) none
    have hauthor : GetAuthor env a = Except.ok (env.unmarshalAuthor body).1 := by
      unfold GetAuthor
      rw [hb]
      rfl
    simp only [List.get?_cons_zero, hauthor, ht, hcover, if_true]
    by_cases hall : ∀ ch ∈ toc.Chapters, ch.Sections ≠ []
    · have h1 := chapterLoop_responds h token isbn toc.Chapters
        { e := { ({ NewEpub summary.Title with
                author := (env.unmarshalAuthor body).1.Author, description := summary.About,
                identifier := isbn } : Epub).AddImage (scratchPath env summary.CoverImage)
                  (filepathBase summary.CoverImage) with
              cover := some (filepathBase summary.CoverImage) },
          tmpfiles := st.tmpfiles ++ [scratchPath env summary.CoverImage],
          grabs := st.grabs + 1,
          scratch := st.scratch ++ [scratchPath env summary.CoverImage],
          written := st.written } hall
      revert h1
      generalize chapterLoop env token isbn toc.Chapters _ = r
      rcases r with ⟨st1, _ | stop⟩
      · intro _
        simp only
        split <;> simp <;> exact hall
      · intro h1; cases h1
    · have hex : ∃ ch ∈ toc.Chapters, ch.Sections = [] := by
        by_contra hne
        exact hall (fun ch hch hS => hne ⟨ch, hch, hS⟩)
      have h1 := chapterLoop_no_section h token isbn toc.Chapters
        { e := { ({ NewEpub summary.Title with
                author := (env.unmarshalAuthor body).1.Author, description := summary.About,
                identifier := isbn } : Epub).AddImage (scratchPath env summary.CoverImage)
                  (filepathBase summary.CoverImage) with
              cover := some (filepathBase summary.CoverImage) },
          tmpfiles := st.tmpfiles ++ [scratchPath env summary.CoverImage],
          grabs := st.grabs + 1,
          scratch := st.scratch ++ [scratchPath env summary.CoverImage],
          written := st.written } hex
      revert h1
      generalize chapterLoop env token isbn toc.Chapters _ = r
      rcases r with ⟨st1, _ | stop⟩
      · intro h1; cases h1
      · intro h1
        simp only at h1
        cases h1
        simp [hall]

/-! ### Tags that are closed already -/

theorem slashes_avoid {a : Str} (ha : ∀ c ∈ a, c = '/') (d : Char) (hd : d ≠ '/') :
    ∀ c ∈ a, c ≠ d :=
  fun c hc e => hd (e ▸ ha c hc)

/-- The pattern `/graphics/(.*?)/graphics/(.*?)/` matches nowhere in a run of
slashes followed by `>`. -/
theorem replaceGraphics_slashes (a r : Str) (ha : ∀ c ∈ a, c = '/') (tpl : List Repl) :
    reGraphics2.ReplaceAllString (a ++ '>' :: r) tpl
      = a ++ reGraphics2.ReplaceAllString ('>' :: r) tpl := by
  induction a with
  | nil => rfl
  | cons c a' ih =>
    have hc : c = '/' := ha c (by simp)
    subst hc
    have hnone : matchAt reGraphics2.toks ('/' :: (a' ++ '>' :: r)) = none := by
      cases a' with
      | nil => simp [reGraphics2, matchAt, stripLit]
      | cons d a'' =>
        have hd : d = '/' := ha d (by simp)
        subst hd
        simp [reGraphics2, matchAt, stripLit]
    rw [List.cons_append, Regex.replace_miss reGraphics2 '/' "graphics/".toList _ rfl _ _ _ hnone,
      ih (fun x hx => ha x (by simp [hx]))]
    rfl

theorem closedTags_refs (F a : Str) (hF : ∀ c ∈ F, nameChar c = true) (ha : ∀ c ∈ a, c = '/') :
    reImgSrc.FindAllStringSubmatch (closedTags F a)
      = [["<img src=\"".toList ++ F ++ "\"".toList, F]] := by
  have hm : matchAt reImgSrc.toks (closedTags F a)
      = some (["<img src=\"".toList, F, "\"".toList], a ++ ("><br".toList ++ (a ++ ">".toList))) := by
    have := matchAt_lazy3 "<img src=\"".toList '"' [] F (a ++ ("><br".toList ++ (a ++ ">".toList)))
      (fun x hx => ⟨nameChar_ne _ (hF x hx) (by decide), nameChar_ne _ (hF x hx) (by decide)⟩)
    simpa [closedTags, reImgSrc] using this
  have hre : reImgSrc.toks = Tok.lit ('<' :: "img src=\"".toList) ::
      [Tok.dotStar false, Tok.lit "\"".toList] := rfl
  unfold Regex.FindAllStringSubmatch
  rw [hre] at hm ⊢
  rw [matchesOf_hit _ _ _ _ _ _ hm]
  have e : a ++ ("><br".toList ++ (a ++ ">".toList))
      = (a ++ ['>']) ++ ('<' :: (("br".toList ++ (a ++ ">".toList)) ++ [])) := by simp
  rw [e, matchesOf_skip _ _ _ _ _ (List.forall_mem_append.2
      ⟨slashes_avoid ha _ (by decide), by decide⟩),
    matchesOf_miss _ _ _ _ _ (by simp [matchAt, stripLit]),
    matchesOf_skip _ _ _ _ _ (List.forall_mem_append.2
      ⟨by decide, List.forall_mem_append.2 ⟨slashes_avoid ha _ (by decide), by decide⟩⟩),
    matchesOf_nil]
  simp [reImgSrc, Regex.group, List.range_succ]

theorem closedTags_graphics (F a : Str) (hF : ∀ c ∈ F, nameChar c = true) (ha : ∀ c ∈ a, c = '/')
    (tpl : List Repl) :
    reGraphics2.ReplaceAllString (closedTags F a) tpl = closedTags F a := by
  have e : closedTags F a
      = ("<img src=\"".toList ++ (F ++ "\"".toList)) ++ (a ++ '>' :: ("<br".toList ++ (a ++ '>' :: [])))
      := by simp [closedTags]
  rw [e, Regex.replace_skip reGraphics2 '/' "graphics/".toList _ rfl _ _ _
      (List.forall_mem_append.2 ⟨by decide, List.forall_mem_append.2
        ⟨fun x hx => nameChar_ne _ (hF x hx) (by decide), by decide⟩⟩),
    replaceGraphics_slashes a _ ha, ← List.singleton_append, ← List.append_assoc ['>'],
    Regex.replace_skip reGraphics2 '/' "graphics/".toList _ rfl _ _ _ (by decide),
    replaceGraphics_slashes a _ ha,
    Regex.replace_plain reGraphics2 '/' "graphics/".toList _ rfl _ ['>'] (by decide)]

theorem closedTags_img (F a : Str) (hF : ∀ c ∈ F, nameChar c = true) (ha : ∀ c ∈ a, c = '/') :
    reImgTag.ReplaceAllString (closedTags F a) selfClosing
      = "<img src=\"".toList ++ (F ++ ("\"".toList ++ (a ++ ("/><br".toList ++ (a ++ ">".toList))))) := by
  have e : closedTags F a = "<img".toList ++ ((" src=\"".toList ++ (F ++ ("\"".toList ++ a))) ++
      (['>'] ++ ('<' :: (("br".toList ++ (a ++ ">".toList)) ++ [])))) := by
    simp [closedTags]
  have hm := matchAt_lazy3 "<img".toList '>' [] (" src=\"".toList ++ (F ++ ("\"".toList ++ a)))
    ('<' :: (("br".toList ++ (a ++ ">".toList)) ++ []))
    (List.forall_mem_append.2 ⟨by decide, List.forall_mem_append.2
      ⟨fun x hx => ⟨nameChar_ne _ (hF x hx) (by decide), nameChar_ne _ (hF x hx) (by decide)⟩,
        List.forall_mem_append.2 ⟨by decide, fun x hx =>
          ⟨slashes_avoid ha _ (by decide) x hx, slashes_avoid ha _ (by decide) x hx⟩⟩⟩⟩)
  rw [e, Regex.replace_hit reImgTag '<' "img".toList _ rfl _ _ _ _ hm,
    Regex.replace_miss reImgTag '<' "img".toList _ rfl _ _ _ (by simp [reImgTag, matchAt, stripLit]),
    Regex.replace_skip reImgTag '<' "img".toList _ rfl _ _ _
      (List.forall_mem_append.2 ⟨by decide, List.forall_mem_append.2
        ⟨slashes_avoid ha _ (by decide), by decide⟩⟩),
    Regex.replace_nil]
  simp [Regex.expand, selfClosing, Regex.group, reImgTag]

theorem closedTags_br (F a : Str) (hF : ∀ c ∈ F, nameChar c = true) (ha : ∀ c ∈ a, c = '/') :
    reBrTag.ReplaceAllString
        ("<img src=\"".toList ++ (F ++ ("\"".toList ++ (a ++ ("/><br".toList ++ (a ++ ">".toList))))))
        selfClosing
      = closedTags F (a ++ "/".toList) := by
  have e : "<img src=\"".toList ++ (F ++ ("\"".toList ++ (a ++ ("/><br".toList ++ (a ++ ">".toList)))))
      = '<' :: (("img src=\"".toList ++ (F ++ ("\"".toList ++ (a ++ "/>".toList)))) ++
          ("<br".toList ++ (a ++ (['>'] ++ [])))) := by
    simp
  have hm := matchAt_lazy3 "<br".toList '>' [] a []
    (fun x hx => ⟨slashes_avoid ha _ (by decide) x hx, slashes_avoid ha _ (by decide) x hx⟩)
  rw [e, Regex.replace_miss reBrTag '<' "br".toList _ rfl _ _ _ (by simp [reBrTag, matchAt, stripLit]),
    Regex.replace_skip reBrTag '<' "br".toList _ rfl _ _ _
      (List.forall_mem_append.2 ⟨by decide, List.forall_mem_append.2
        ⟨fun x hx => nameChar_ne _ (hF x hx) (by decide), List.forall_mem_append.2
          ⟨by decide, List.forall_mem_append.2 ⟨slashes_avoid ha _ (by decide), by decide⟩⟩⟩⟩),
    Regex.replace_hit reBrTag '<' "br".toList _ rfl _ _ _ _ hm, Regex.replace_nil]
  simp [closedTags, Regex.expand, selfClosing, Regex.group, reBrTag]

/-- On tags that are closed already `fixImgInternalSrc` adds one more slash to
each. -/
theorem fixImgInternalSrc_closedTags (F a isbn : Str) (hF : ∀ c ∈ F, nameChar c = true)
    (ha : ∀ c ∈ a, c = '/') :
    fixImgInternalSrc (closedTags F a) isbn
      = (closedTags F (a ++ "/".toList), [["<img src=\"".toList ++ F ++ "\"".toList, F]]) := by
  unfold fixImgInternalSrc
  simp only [closedTags_refs F a hF ha, closedTags_graphics F a hF ha, closedTags_img F a hF ha,
    closedTags_br F a hF ha]
  rfl

theorem closedTags_ne (F a : Str) : closedTags F (a ++ "/".toList) ≠ closedTags F a := by
  intro h
  have := congrArg List.length h
  simp [closedTags] at this

/-! ### The run up to a page that fails -/

theorem addPage_sections (env : Env) (token isbn chapterId pageId title : Str) (st : State)
    (h : (addPage env token isbn chapterId pageId title st).2 = none) :
    (addPage env token isbn chapterId pageId title st).1.e.sections.length
      = st.e.sections.length + 1 := by
  unfold addPage at h ⊢
  split
  · rename_i heq; rw [heq] at h; cases h
  · rename_i heq; rw [heq] at h; cases h
  · rename_i page heq
    rw [heq] at h
    simp only at h ⊢
    have key : (if (fixImgInternalSrc page isbn).2.length > 0
          then EmbedEPubImage env isbn (fixImgInternalSrc page isbn).2 st else (st, none)).1.e.sections
        = st.e.sections := by
      split
      · exact EmbedEPubImage_sections env isbn _ st
      · rfl
    split
    · rename_i heq2; rw [heq2] at h; cases h
    · simp [Epub.AddSection, key]

theorem addPages_sections (env : Env) (token isbn : Str) (pages : List (Str × Str × Str))
    (st : State) (h : (addPages env token isbn pages st).2 = none) :
    (addPages env token isbn pages st).1.e.sections.length
      = st.e.sections.length + pages.length := by
  induction pages generalizing st with
  | nil => rfl
  | cons p rest ih =>
    simp only [addPages] at h ⊢
    have h1 := addPage_sections env token isbn p.1 p.2.1 p.2.2 st
    rcases hp : addPage env token isbn p.1 p.2.1 p.2.2 st with ⟨st1, _ | stop⟩
    · rw [hp] at h h1
      simp only at h ⊢
      rw [ih st1 h, h1 rfl, List.length_cons]
      omega
    · rw [hp] at h; cases h

/-- Once the metadata is fetched and the cover downloaded, `DownloadAsEpub` ends
the way its chapter loop does when the loop stops. -/
theorem DownloadAsEpub_stopped (env : Env) (token isbn : Str) (st st1 : State) (summary : Summary)
    (toc : TOC) (e : Epub) (stop : Stop)
    (hmeta : fetchMetadata env isbn = Except.ok (summary, toc, e))
    (hcover : env.grabGet st.grabs (scratchPath env summary.CoverImage) summary.CoverImage = true)
    (hloop : chapterLoop env token isbn toc.Chapters (afterCover env summary e st) = (st1, some stop)) :
    DownloadAsEpub env token isbn st = (st1, Outcome.stopped stop) := by
  unfold DownloadAsEpub
  unfold afterCover at hloop
  simp only [hmeta, hcover, if_true]
  rw [hloop]

/-- Once the metadata is fetched and the cover downloaded, with a section in
every chapter, every page fetched and the archive written, `DownloadAsEpub`
returns, and the archive it has committed holds the sections of the traversal. -/
theorem DownloadAsEpub_committed (env : Env) (token isbn : Str) (st : State) (summary : Summary)
    (toc : TOC) (e : Epub)
    (hmeta : fetchMetadata env isbn = Except.ok (summary, toc, e))
    (hcover : env.grabGet st.grabs (scratchPath env summary.CoverImage) summary.CoverImage = true)
    (hwrite : env.epubWrite (summary.Title ++ ".epub".toList) = true)
    (hsec : ∀ ch ∈ toc.Chapters, ch.Sections ≠ [])
    (hfetch : ∀ ch ∈ toc.Chapters, ∀ s ∈ ch.Sections,
      ∃ page, fetchPage env token isbn ch.ID s.ID = Except.ok (some page)) :
    (DownloadAsEpub env token isbn st).2 = Outcome.returned summary.Title ∧
    (DownloadAsEpub env token isbn st).1.e.sections = expectedSections env token isbn toc.Chapters ∧
    (DownloadAsEpub env token isbn st).1.written
      = st.written ++ [(summary.Title ++ ".epub".toList, (DownloadAsEpub env token isbn st).1.e)] := by
  have hfresh := fetchMetadata_fresh env isbn summary toc e hmeta
  obtain ⟨st1, h1, h1s⟩ := chapterLoop_ok env token isbn toc.Chapters (afterCover env summary e st)
    hsec hfetch
  have hw : st1.written = st.written := by
    have := chapterLoop_written env token isbn toc.Chapters (afterCover env summary e st)
    rw [h1] at this
    exact this
  simp only [afterCover, Epub.AddImage_sections, hfresh.1, List.nil_append] at h1s
  unfold afterCover at h1
  unfold DownloadAsEpub
  simp only [hmeta, hcover, hwrite, if_true]
  rw [h1]
  exact ⟨rfl, h1s, by simp [hw]⟩

/-- With every exchange ending in a response, the metadata phase fails exactly
when the summary has no author. -/
theorem fetchMetadata_error_iff {env : Env} (h : Responds env) (isbn : Str) (summary : Summary)
    (hs : GetSummary env isbn = Except.ok summary) :
    (∃ stop, fetchMetadata env isbn = Except.error stop) ↔ summary.Authors = [] := by
  unfold fetchMetadata
  rw [hs]
  simp only
  cases hA : summary.Authors with
  | nil => simp
  | cons a rest =>
    obtain ⟨body, hb⟩ := getBody_responds h ("https://static.packt-cdn.com/authors/".toList ++ a) none
    obtain ⟨body2, hb2⟩ := getBody_responds h
      ("https://static.packt-cdn.com/products/".toList ++ isbn ++ "/toc".toList) none
    have hauthor : GetAuthor env a = Except.ok (env.unmarshalAuthor body).1 := by
      unfold GetAuthor
      rw [hb]
      rfl
    have htoc : GetToc env isbn = Except.ok (env.unmarshalTOC body2).1 := by
      unfold GetToc
      rw [hb2]
      rfl
    simp [hauthor, htoc]

/-! ### Cleanup -/

theorem filepathExt_ne_jpeg (name : Str) : filepathExt name ≠ "jpeg".toList := by
  unfold filepathExt
  simp only
  split
  · intro h
    cases h
  · intro h
    cases h

theorem cleanUpFiles_loop (files : List FileInfo) (log : Calls) :
    files.foldl (fun log file =>
      if file.IsRegular then
        if filepathExt file.Name = ".png".toList ∨ filepathExt file.Name = ".jpg".toList
            ∨ filepathExt file.Name = "jpeg".toList then
          { log with removes := log.removes ++ [file.Name] }
        else log
      else log) log
    = { removes := log.removes ++ strayNames files, mkdirs := log.mkdirs } := by
  induction files generalizing log with
  | nil => simp [strayNames]
  | cons f rest ih =>
    rw [List.foldl_cons, ih]
    have hj : filepathExt f.Name ≠ ['j', 'p', 'e', 'g'] := filepathExt_ne_jpeg f.Name
    cases hr : f.IsRegular <;>
      by_cases h1 : filepathExt f.Name = ['.', 'p', 'n', 'g'] <;>
      by_cases h2 : filepathExt f.Name = ['.', 'j', 'p', 'g'] <;>
      simp [strayNames, hr, h1, h2, hj]

theorem cleanUpFiles_entries (env : Env) (os : Os) (log : Calls) (files : List FileInfo)
    (h : os.listing (env.homeDir ++ "/.packt_tmp/".toList) = Listing.entries files) :
    cleanUpFiles env os log
      = ({ removes := log.removes ++ strayNames files, mkdirs := log.mkdirs }, none) := by
  unfold cleanUpFiles
  rw [h]
  simp only [cleanUpFiles_loop]

theorem cleanUpFiles_returns_iff (env : Env) (os : Os) (log : Calls) :
    (cleanUpFiles env os log).2 = none ↔
      ∃ files, os.listing (env.homeDir ++ "/.packt_tmp/".toList) = Listing.entries files := by
  unfold cleanUpFiles
  cases h : os.listing (env.homeDir ++ "/.packt_tmp/".toList) <;> simp

theorem cleanUpFiles_exit (env : Env) (os : Os) (log : Calls) :
    (cleanUpFiles env os log).2 = none ∨ cleanUpFiles env os log = (log, some (Stop.exit 1)) := by
  unfold cleanUpFiles
  cases h : os.listing (env.homeDir ++ "/.packt_tmp/".toList) <;> simp

/-! ## The claims -/

/-- C1. For every list of chapters that each have a section, with every page
fetch succeeding, the chapter loop of `DownloadAsEpub` (lines 861-891) runs to
its end and appends exactly the sections of the traversal (`expectedSections`):
per chapter, in order, the page of section 0 under the title of the chapter,
then the pages of sections 1.. under their own titles; a chapter of `n`
sections contributes `n` of them and their number is the sum of the section
counts.  A run whose metadata phase and cover download succeed ends with
exactly these sections in the archive, and stops only if writing the archive
fails.  Image downloads may fail or succeed. -/
theorem DownloadAsEpub_sections (env : Env) (token isbn : Str) (chapters : List Chapter)
    (st : State) (hsec : ∀ ch ∈ chapters, ch.Sections ≠ [])
    (hfetch : ∀ ch ∈ chapters, ∀ s ∈ ch.Sections,
      ∃ page, fetchPage env token isbn ch.ID s.ID = Except.ok (some page)) :
    (chapterLoop env token isbn chapters st).2 = none ∧
    (chapterLoop env token isbn chapters st).1.e.sections
      = st.e.sections ++ expectedSections env token isbn chapters ∧
    (expectedSections env token isbn chapters).length
      = (chapters.map fun ch => ch.Sections.length).sum ∧
    ∀ (summary : Summary) (toc : TOC) (e : Epub),
      fetchMetadata env isbn = Except.ok (summary, toc, e) → toc.Chapters = chapters →
      env.grabGet st.grabs (scratchPath env summary.CoverImage) summary.CoverImage = true →
      (DownloadAsEpub env token isbn st).1.e.sections = expectedSections env token isbn chapters ∧
      (DownloadAsEpub env token isbn st).2
        = if env.epubWrite (summary.Title ++ ".epub".toList) then Outcome.returned summary.Title
          else Outcome.stopped (Stop.exit 1) := by
  refine ⟨?_, ?_, expectedSections_length env token isbn chapters, ?_⟩
  · obtain ⟨st1, h1, -⟩ := chapterLoop_ok env token isbn chapters st hsec hfetch
    rw [h1]
  · obtain ⟨st1, h1, h1s⟩ := chapterLoop_ok env token isbn chapters st hsec hfetch
    rw [h1]; exact h1s
  · intro summary toc e hmeta htoc hcover
    have hfresh := fetchMetadata_fresh env isbn summary toc e hmeta
    obtain ⟨st1, h1, h1s⟩ := chapterLoop_ok env token isbn chapters
      { e := { (e.AddImage (scratchPath env summary.CoverImage)
                (filepathBase summary.CoverImage)) with
                cover := some (filepathBase summary.CoverImage) }
        tmpfiles := st.tmpfiles ++ [scratchPath env summary.CoverImage]
        grabs := st.grabs + 1
        scratch := st.scratch ++ [scratchPath env summary.CoverImage]
        written := st.written } hsec hfetch
    simp only [Epub.AddImage_sections, hfresh.1, List.nil_append] at h1s
    constructor
    · unfold DownloadAsEpub
      simp only [hmeta, hcover, if_true, htoc]
      rw [h1]
      simp only
      split <;> exact h1s
    · unfold DownloadAsEpub
      simp only [hmeta, hcover, if_true, htoc]
      rw [h1]
      simp only
      split <;> rfl

/-- Witness of C1: the table of contents with chapter A (sections A1, A2) and
chapter B (section B1) yields the three sections A1 as "A", A2, B1 as "B". -/
theorem DownloadAsEpub_sections_witness :
    (∀ ch ∈ twoChapterTOC.Chapters, ch.Sections ≠ []) ∧
    (∀ ch ∈ twoChapterTOC.Chapters, ∀ s ∈ ch.Sections,
      ∃ page, fetchPage twoChapterEnv "tok".toList "9".toList ch.ID s.ID = Except.ok (some page)) ∧
    (DownloadAsEpub twoChapterEnv "tok".toList "9".toList State.init).1.e.sections
      = [{ body := "<h1>A</h1>one".toList, title := "A".toList },
          { body := "two".toList, title := "A2".toList },
          { body := "three".toList, title := "B".toList }] ∧
    (DownloadAsEpub twoChapterEnv "tok".toList "9".toList State.init).2
      = Outcome.returned "T".toList := by
  have h := (DownloadAsEpub_sections twoChapterEnv "tok".toList "9".toList twoChapterTOC.Chapters
    State.init (by decide) twoChapter_fetch).2.2.2 twoChapterSummary twoChapterTOC _ rfl rfl rfl
  refine ⟨by decide, twoChapter_fetch, ?_, ?_⟩
  · rw [h.1]; decide
  · rw [h.2]; rfl

/-- Counterexample to C2: of two blocks on two lines both are removed, not only
the longer one; of two blocks on one line the text between them goes as well. -/
theorem RemoveHtmlTag_counterexample :
    RemoveHtmlTag "<h1>a</h1>\n<h1>bb</h1>".toList = "\n".toList ∧
    "\n".toList ≠ "<h1>a</h1>\n".toList ∧
    RemoveHtmlTag "<h1>a</h1>x<h1>bb</h1>".toList = [] ∧
    ([] : Str) ≠ "<h1>a</h1>x".toList := by
  decide

/-- C2, amended. For every fragment whose `<h1>...</h1>` blocks stand one to a
line (the text before a block holds no `<h1`, the text after it no `</h1>`, a
line without a block no `<h1`), `RemoveHtmlTag` removes every block, whatever
its length, and leaves all the text outside the blocks as it is. -/
theorem RemoveHtmlTag_blocks (ls : List Line) (h : ∀ l ∈ ls, l.WellFormed) :
    RemoveHtmlTag (joinLines (ls.map Line.text)) = joinLines (ls.map Line.stripped) := by
  have hspans := FindAllString_spans _ (joinLines (ls.map Line.text)) (le_refl _)
  exact removeGroups_lines ls h _ (fun g hg => hspans g ((sortByLenDesc_mem _ g).1 hg))
    (sortByLenDesc_sorted _) (fun g hg => (sortByLenDesc_mem _ g).2 hg)

/-- Witness of C2 amended: two blocks of different lengths on two of three lines. -/
theorem RemoveHtmlTag_blocks_witness :
    (∀ l ∈ twoBlocks, l.WellFormed) ∧
    joinLines (twoBlocks.map Line.text) = "a<h1>x</h1>b\ntext\n<h1>yy</h1>c".toList ∧
    RemoveHtmlTag "a<h1>x</h1>b\ntext\n<h1>yy</h1>c".toList = "ab\ntext\nc".toList := by
  have hw : ∀ l ∈ twoBlocks, l.WellFormed := by
    intro l hl
    simp only [twoBlocks, List.mem_cons, List.mem_singleton, List.not_mem_nil, or_false] at hl
    rcases hl with rfl | rfl | rfl <;> simp only [Line.WellFormed] <;> decide
  exact ⟨hw, by decide, RemoveHtmlTag_blocks twoBlocks hw⟩

/-- C3. `RemoveHtmlTag` is idempotent: its result holds no match of
`(<h1).*(</h1>)`, so a second pass returns it unchanged. -/
theorem RemoveHtmlTag_idempotent (s : Str) :
    RemoveHtmlTag (RemoveHtmlTag s) = RemoveHtmlTag s := by
  have h := RemoveHtmlTag_no_match s
  generalize RemoveHtmlTag s = R at h ⊢
  unfold RemoveHtmlTag
  rw [h]
  rfl

/-- C4. For segments `X`, `Y` and a file name `F` of name characters,
`fixImgInternalSrc` of `<img src="/graphics/X/graphics/Y/F">` returns the tag
`<img src="../images/F"/>` and exactly one reference, whose source is the
original `/graphics/X/graphics/Y/F`. -/
theorem fixImgInternalSrc_graphics (X Y F isbn : Str)
    (hX : ∀ c ∈ X, nameChar c = true) (hY : ∀ c ∈ Y, nameChar c = true)
    (hF : ∀ c ∈ F, nameChar c = true) :
    fixImgInternalSrc (imgTag (graphicsSrc X Y F)) isbn
      = (imgClosed ("../images/".toList ++ F),
         [["<img src=\"".toList ++ graphicsSrc X Y F ++ "\"".toList, graphicsSrc X Y F]]) :=
  fixImgInternalSrc_graphics_aux X Y F isbn hX hY hF

/-- Witness of C4: `X = A`, `Y = B`, `F = pic.png`. -/
theorem fixImgInternalSrc_graphics_witness :
    (∀ c ∈ "A".toList, nameChar c = true) ∧ (∀ c ∈ "B".toList, nameChar c = true) ∧
    (∀ c ∈ "pic.png".toList, nameChar c = true) ∧
    imgTag (graphicsSrc "A".toList "B".toList "pic.png".toList)
      = "<img src=\"/graphics/A/graphics/B/pic.png\">".toList ∧
    fixImgInternalSrc (imgTag (graphicsSrc "A".toList "B".toList "pic.png".toList)) []
      = ("<img src=\"../images/pic.png\"/>".toList,
         [["<img src=\"/graphics/A/graphics/B/pic.png\"".toList,
           "/graphics/A/graphics/B/pic.png".toList]]) :=
  ⟨by decide, by decide, by decide, by decide,
    fixImgInternalSrc_graphics "A".toList "B".toList "pic.png".toList [] (by decide) (by decide)
      (by decide)⟩

/-- Counterexample to C5: the id `1` holds no `/`, yet the remainder
`x/graphics/2/pic.png` does not come back untouched: its own `/graphics/2/` is
removed as well. -/
theorem FixImgUrlError_counterexample :
    (∀ c ∈ "1".toList, c ≠ '/') ∧
    FixImgUrlError ("/graphics/".toList ++ "1".toList ++ "/".toList ++ "x/graphics/2/pic.png".toList)
      = "xpic.png".toList ∧
    "xpic.png".toList ≠ "x/graphics/2/pic.png".toList := by
  decide

/-- C5, amended. For every id without `/` and without a line feed,
`FixImgUrlError("/graphics/" + id + "/" + rest) = FixImgUrlError(rest)`: the
first segment is removed and the remainder is rewritten in the same way; it
comes back untouched when `/graphics/` does not occur in it. -/
theorem FixImgUrlError_graphics (id rest : Str) (hid : ∀ c ∈ id, c ≠ '/' ∧ c ≠ '\n') :
    FixImgUrlError ("/graphics/".toList ++ id ++ "/".toList ++ rest) = FixImgUrlError rest ∧
    (¬ "/graphics/".toList <:+: rest →
      FixImgUrlError ("/graphics/".toList ++ id ++ "/".toList ++ rest) = rest) := by
  have h := FixImgUrlError_first id rest (fun c hc => ⟨(hid c hc).2, (hid c hc).1⟩)
  refine ⟨h, fun hrest => ?_⟩
  rw [h]
  exact Regex.replace_no_lit reGraphics1 '/' "graphics/".toList _ rfl _ rest hrest

/-- Witness of C5 amended: `FixImgUrlError("/graphics/123/sub/pic.png") = "sub/pic.png"`. -/
theorem FixImgUrlError_graphics_witness :
    (∀ c ∈ "123".toList, c ≠ '/' ∧ c ≠ '\n') ∧ ¬ "/graphics/".toList <:+: "sub/pic.png".toList ∧
    FixImgUrlError "/graphics/123/sub/pic.png".toList = "sub/pic.png".toList :=
  ⟨by decide, by decide,
    (FixImgUrlError_graphics "123".toList "sub/pic.png".toList (by decide)).2 (by decide)⟩

/-- Counterexample to C6: the source `/img/pic.png` is extracted and would be
registered as `../images/pic.png`, but the rewritten tag still reads
`/img/pic.png`; the archive path occurs nowhere in the rewritten page. -/
theorem archivePath_counterexample :
    (fixImgInternalSrc "<img src=\"/img/pic.png\">".toList []).2
      = [["<img src=\"/img/pic.png\"".toList, "/img/pic.png".toList]] ∧
    archivePath "/img/pic.png".toList = "../images/pic.png".toList ∧
    (fixImgInternalSrc "<img src=\"/img/pic.png\">".toList []).1
      = "<img src=\"/img/pic.png\"/>".toList ∧
    ¬ "../images/pic.png".toList <:+: (fixImgInternalSrc "<img src=\"/img/pic.png\">".toList []).1 := by
  decide

/-- C6, amended. For every page made of bare image tags whose sources have the
form `/graphics/X/graphics/Y/F` (name characters, `F` not empty), with plain
text around them: the sources of the extracted references are the sources of
the tags, in order, and in the rewritten page every tag reads
`<img src="P"/>` with `P` the archive path under which `EmbedEPubImage`
registers its reference. -/
theorem archivePath_eq_written (items : List ImgItem) (closing isbn : Str)
    (h : ∀ i ∈ items, i.WellFormed) (hc : PlainText closing) :
    (fixImgInternalSrc (pageWith (fun i => imgTag i.src) items closing) isbn).2.map refSrc
      = items.map ImgItem.src ∧
    (fixImgInternalSrc (pageWith (fun i => imgTag i.src) items closing) isbn).1
      = pageWith (fun i => imgClosed (archivePath i.src)) items closing := by
  rw [fixImgInternalSrc_page items closing isbn h hc]
  refine ⟨?_, rfl⟩
  simp only [List.map_map]
  apply List.map_congr_left
  intro i _
  rfl

/-- Witness of C6 amended: a page of two images. -/
theorem archivePath_eq_written_witness :
    (∀ i ∈ twoImages, i.WellFormed) ∧ PlainText "</p>".toList ∧
    pageWith (fun i => imgTag i.src) twoImages "</p>".toList
      = "<p><img src=\"/graphics/A/graphics/B/pic.png\"> and <img src=\"/graphics/9/graphics/1/b.jpg\"></p>".toList ∧
    (fixImgInternalSrc (pageWith (fun i => imgTag i.src) twoImages "</p>".toList) []).1
      = "<p><img src=\"../images/pic.png\"/> and <img src=\"../images/b.jpg\"/></p>".toList ∧
    (twoImages.map fun i => archivePath i.src)
      = ["../images/pic.png".toList, "../images/b.jpg".toList] := by
  have hw : ∀ i ∈ twoImages, i.WellFormed := by
    intro i hi
    simp only [twoImages, List.mem_cons, List.mem_singleton, List.not_mem_nil, or_false] at hi
    rcases hi with rfl | rfl <;> simp only [ImgItem.WellFormed, PlainText] <;> decide
  have hc : PlainText "</p>".toList := by simp only [PlainText]; decide
  refine ⟨hw, hc, by decide, ?_, by decide⟩
  rw [(archivePath_eq_written twoImages "</p>".toList [] hw hc).2]
  decide

/-- C7. Whatever the outcome of each download, `EmbedEPubImage` on the
references extracted from a page tries every one of them, registers and records
exactly those whose download succeeded, in batch order, and returns; the caller
then appends the section of the page to the archive that holds these images. -/
theorem EmbedEPubImage_batch (env : Env) (token isbn chapterId pageId title page : Str) (st : State)
    (hpage : fetchPage env token isbn chapterId pageId = Except.ok (some page)) :
    EmbedEPubImage env isbn (fixImgInternalSrc page isbn).2 st
      = ({ st with
            grabs := st.grabs + (fixImgInternalSrc page isbn).2.length
            scratch := st.scratch ++
              (downloaded env isbn st.grabs (fixImgInternalSrc page isbn).2).map (scratchPath env)
            e := registerAll env st.e (downloaded env isbn st.grabs (fixImgInternalSrc page isbn).2)
            tmpfiles := st.tmpfiles ++
              (downloaded env isbn st.grabs (fixImgInternalSrc page isbn).2).map (scratchPath env) },
          none) ∧
    (addPage env token isbn chapterId pageId title st).2 = none ∧
    (addPage env token isbn chapterId pageId title st).1.e
      = (registerAll env st.e
          (downloaded env isbn st.grabs (fixImgInternalSrc page isbn).2)).AddSection
            (fixImgInternalSrc page isbn).1 title := by
  refine ⟨EmbedEPubImage_eq env isbn _ st (fixImgInternalSrc_refs page isbn), ?_, ?_⟩
  · rw [addPage_eq env token isbn chapterId pageId title page st hpage]
  · rw [addPage_eq env token isbn chapterId pageId title page st hpage]; rfl

/-- Witness of C7: a page of five images whose third download fails: four
images are registered and the section is appended. -/
theorem EmbedEPubImage_batch_witness :
    fetchPage fiveEnv "t".toList "9".toList "c".toList "s".toList = Except.ok (some fiveImages) ∧
    (addPage fiveEnv "t".toList "9".toList "c".toList "s".toList "S".toList State.init).2 = none ∧
    (addPage fiveEnv "t".toList "9".toList "c".toList "s".toList "S".toList State.init).1.e.images.map
      Prod.fst
      = ["../images/a.png".toList, "../images/b.png".toList, "../images/d.png".toList,
          "../images/e.png".toList] ∧
    (addPage fiveEnv "t".toList "9".toList "c".toList "s".toList "S".toList
      State.init).1.e.sections.length = 1 := by
  have h := EmbedEPubImage_batch fiveEnv "t".toList "9".toList "c".toList "s".toList "S".toList
    fiveImages State.init rfl
  refine ⟨rfl, h.2.1, ?_, ?_⟩
  · rw [h.2.2]; decide
  · rw [h.2.2]; decide

/-- C8. On the fragment `a<br>b`, which holds no image tag, `fixImgInternalSrc`
returns the input as it is and the `<br>` stays bare; with an image tag in
front of it the same `<br>` is closed. -/
theorem fixImgInternalSrc_no_image :
    fixImgInternalSrc "a<br>b".toList [] = ("a<br>b".toList, []) ∧
    (fixImgInternalSrc "<img src=\"x.png\">a<br>b".toList []).1
      = "<img src=\"x.png\"/>a<br/>b".toList := by
  decide

/-- Counterexample to C9: the page `<h1>A</h1>one` is appended with its heading;
the rewritten form of `RemoveHtmlTag` of the page would be `one`. -/
theorem DownloadAsEpub_heading_counterexample :
    fetchPage twoChapterEnv "tok".toList "9".toList "a".toList "a1".toList
      = Except.ok (some "<h1>A</h1>one".toList) ∧
    ((DownloadAsEpub twoChapterEnv "tok".toList "9".toList State.init).1.e.sections.map
      fun s => s.body) = ["<h1>A</h1>one".toList, "two".toList, "three".toList] ∧
    (fixImgInternalSrc (RemoveHtmlTag "<h1>A</h1>one".toList) "9".toList).1 = "one".toList ∧
    "<h1>A</h1>one".toList ≠ "one".toList := by
  refine ⟨rfl, by decide, by decide, by decide⟩

/-- C9, amended. Every section that `DownloadAsEpub` appends has as its body the
rewritten form `fixImgInternalSrc(page)` of a fetched page itself: `RemoveHtmlTag`
is not applied to the page.  When `<img src="..."` matches nowhere in the page,
the body is the page as it was fetched, any heading block included. -/
theorem DownloadAsEpub_bodies (env : Env) (token isbn : Str) (st : State) :
    ∀ sec ∈ (DownloadAsEpub env token isbn st).1.e.sections,
      sec ∈ st.e.sections ∨
      ∃ chapterId pageId page, fetchPage env token isbn chapterId pageId = Except.ok (some page) ∧
        sec.body = (fixImgInternalSrc page isbn).1 ∧
        (reImgSrc.FindAllStringSubmatch page = [] → sec.body = page) := by
  have key : ∀ sec, Rewritten env token isbn sec →
      ∃ chapterId pageId page, fetchPage env token isbn chapterId pageId = Except.ok (some page) ∧
        sec.body = (fixImgInternalSrc page isbn).1 ∧
        (reImgSrc.FindAllStringSubmatch page = [] → sec.body = page) := by
    rintro sec ⟨chapterId, pageId, page, hf, hb⟩
    exact ⟨chapterId, pageId, page, hf, hb, fun hno => by
      rw [hb, fixImgInternalSrc_no_refs page isbn hno]⟩
  intro sec h
  unfold DownloadAsEpub at h
  split at h
  · exact Or.inl h
  · rename_i summary toc e hmeta
    have hfresh := fetchMetadata_fresh env isbn summary toc e hmeta
    simp only at h
    split at h
    · have hc0 := chapterLoop_bodies env token isbn toc.Chapters
        { e := { (e.AddImage (scratchPath env summary.CoverImage)
                  (filepathBase summary.CoverImage)) with
                  cover := some (filepathBase summary.CoverImage) }
          tmpfiles := st.tmpfiles ++ [scratchPath env summary.CoverImage]
          grabs := st.grabs + 1
          scratch := st.scratch ++ [scratchPath env summary.CoverImage]
          written := st.written }
      have hc := fun sec hs => (hc0 sec hs).resolve_left
        (by simp [Epub.AddImage_sections, hfresh.1])
      split at h
      · rename_i st1 stop heq
        rw [heq] at hc
        exact Or.inr (key sec (hc sec h))
      · rename_i st1 heq
        rw [heq] at hc
        split at h <;> exact Or.inr (key sec (hc sec h))
    · simp only [hfresh.1] at h
      cases h

/-- Witness of C9 amended: the first section of the two-chapter run. -/
theorem DownloadAsEpub_bodies_witness :
    ({ body := "<h1>A</h1>one".toList, title := "A".toList } : EpubSection)
      ∈ (DownloadAsEpub twoChapterEnv "tok".toList "9".toList State.init).1.e.sections ∧
    (({ body := "<h1>A</h1>one".toList, title := "A".toList } : EpubSection) ∈ State.init.e.sections ∨
      ∃ chapterId pageId page,
        fetchPage twoChapterEnv "tok".toList "9".toList chapterId pageId = Except.ok (some page) ∧
        "<h1>A</h1>one".toList = (fixImgInternalSrc page "9".toList).1 ∧
        (reImgSrc.FindAllStringSubmatch page = [] → "<h1>A</h1>one".toList = page)) :=
  ⟨by decide, DownloadAsEpub_bodies twoChapterEnv "tok".toList "9".toList State.init _ (by decide)⟩

/-- Counterexample to C10: two references with one base name in a batch whose
downloads both fail leave no entry for the base name. -/
theorem EmbedEPubImage_same_base_counterexample :
    filepathBase "/graphics/1/pic.png".toList = filepathBase "/graphics/2/pic.png".toList ∧
    "/graphics/1/pic.png".toList ∈ twoRefs.map refSrc ∧
    "/graphics/2/pic.png".toList ∈ twoRefs.map refSrc ∧
    (EmbedEPubImage failEnv "9".toList twoRefs State.init).2 = none ∧
    (EmbedEPubImage failEnv "9".toList twoRefs State.init).1.e.entriesAt
      (archivePath "/graphics/1/pic.png".toList) = 0 := by
  decide

/-- C10, amended. Two sources with one base name have the same scratch path and
the same archive path; after any batch, on an archive whose paths are distinct,
that archive path has at most one entry, never two, and exactly one when the
download of one of the two references succeeded. -/
theorem EmbedEPubImage_same_base (env : Env) (isbn src1 src2 : Str)
    (hbase : filepathBase src1 = filepathBase src2) :
    scratchPath env src1 = scratchPath env src2 ∧ archivePath src1 = archivePath src2 ∧
    ∀ (urls : List (List Str)) (st : State), (st.e.images.map Prod.fst).Nodup →
      (EmbedEPubImage env isbn urls st).1.e.entriesAt (archivePath src1) ≤ 1 ∧
      ((∀ u ∈ urls, u.length = 2) →
        (src1 ∈ downloaded env isbn st.grabs urls ∨ src2 ∈ downloaded env isbn st.grabs urls) →
        (EmbedEPubImage env isbn urls st).1.e.entriesAt (archivePath src1) = 1) := by
  have hp : archivePath src1 = archivePath src2 := by unfold archivePath; rw [hbase]
  refine ⟨by unfold scratchPath; rw [hbase], hp, ?_⟩
  intro urls st hst
  have hnd := EmbedEPubImage_keys_nodup env isbn urls st hst
  refine ⟨(entries_of_nodup _ _ hnd).1, ?_⟩
  intro hlen hdl
  apply (entries_of_nodup _ _ hnd).2
  rw [EmbedEPubImage_eq env isbn urls st hlen]
  rcases hdl with h | h
  · exact registerAll_mem_keys env st.e _ src1 h
  · rw [hp]; exact registerAll_mem_keys env st.e _ src2 h

/-- Witness of C10 amended: two references to `pic.png`, both downloaded, one entry. -/
theorem EmbedEPubImage_same_base_witness :
    filepathBase "/graphics/1/pic.png".toList = filepathBase "/graphics/2/pic.png".toList ∧
    (EmbedEPubImage okEnv "9".toList twoRefs State.init).1.e.images
      = [("../images/pic.png".toList, "/home/u/.packt_tmp/pic.png".toList)] ∧
    (EmbedEPubImage okEnv "9".toList twoRefs State.init).1.e.entriesAt
      (archivePath "/graphics/1/pic.png".toList) = 1 :=
  ⟨by decide, by decide,
    ((EmbedEPubImage_same_base okEnv "9".toList "/graphics/1/pic.png".toList
      "/graphics/2/pic.png".toList (by decide)).2.2 twoRefs State.init (by decide)).2
        (by decide) (by decide)⟩

/-- C11. In every state a run passes through (after any batch of images, any
page, any run of the two loops, and at the end of `DownloadAsEpub`, however it
ends), every scratch file written by a download that succeeded, the cover and
the page images, is recorded in `tmpfiles`; the paths added to the two are the
same.  `removeTmpFiles` calls `os.Remove` for every recorded path, so that once
these calls are carried out no scratch file of the run is left among the files
of the disk. -/
theorem removeTmpFiles_recorded (env : Env) (token isbn : Str) (st : State) (log : Calls)
    (h : Recorded st) :
    (∀ urls, Recorded (EmbedEPubImage env isbn urls st).1) ∧
    (∀ chapterId pageId title, Recorded (addPage env token isbn chapterId pageId title st).1) ∧
    (∀ chapterId secs curr, Recorded (sectionLoop env token isbn chapterId secs curr st).1) ∧
    (∀ chapters, Recorded (chapterLoop env token isbn chapters st).1) ∧
    Recorded (DownloadAsEpub env token isbn st).1 ∧
    Tracked st (DownloadAsEpub env token isbn st).1 ∧
    (removeTmpFiles (DownloadAsEpub env token isbn st).1 log).removes
      = log.removes ++ (DownloadAsEpub env token isbn st).1.tmpfiles ∧
    ∀ files, ∀ p ∈ (DownloadAsEpub env token isbn st).1.scratch,
      p ∉ remaining files (removeTmpFiles (DownloadAsEpub env token isbn st).1 log).removes := by
  have hrun := (DownloadAsEpub_tracked env token isbn st).recorded h
  refine ⟨fun urls => (EmbedEPubImage_tracked env isbn urls st).recorded h,
    fun c p t => (addPage_tracked env token isbn c p t st).recorded h,
    fun c secs curr => (sectionLoop_tracked env token isbn c secs curr st).recorded h,
    fun chs => (chapterLoop_tracked env token isbn chs st).recorded h,
    hrun, DownloadAsEpub_tracked env token isbn st, by rw [removeTmpFiles_eq], ?_⟩
  intro files p hp
  apply remaining_not_mem
  rw [removeTmpFiles_eq]
  exact List.mem_append_right _ (hrun p hp)

/-- Witness of C11: a run that downloads the cover and one page image writes
two scratch files, records both, and `removeTmpFiles` removes both. -/
theorem removeTmpFiles_recorded_witness :
    Recorded State.init ∧
    (DownloadAsEpub imageEnv "tok".toList "9".toList State.init).2 = Outcome.returned "T".toList ∧
    (DownloadAsEpub imageEnv "tok".toList "9".toList State.init).1.scratch
      = ["/home/u/.packt_tmp/cover.png".toList, "/home/u/.packt_tmp/a.png".toList] ∧
    (removeTmpFiles (DownloadAsEpub imageEnv "tok".toList "9".toList State.init).1 noCalls).removes
      = ["/home/u/.packt_tmp/cover.png".toList, "/home/u/.packt_tmp/a.png".toList] ∧
    ∀ files, ∀ p ∈ (DownloadAsEpub imageEnv "tok".toList "9".toList State.init).1.scratch,
      p ∉ remaining files
        (removeTmpFiles (DownloadAsEpub imageEnv "tok".toList "9".toList State.init).1
          noCalls).removes := by
  have hinit : Recorded State.init := fun p hp => by cases hp
  have h := removeTmpFiles_recorded imageEnv "tok".toList "9".toList State.init noCalls hinit
  refine ⟨hinit, by decide, by decide, ?_, h.2.2.2.2.2.2.2⟩
  rw [h.2.2.2.2.2.2.1]
  decide

/-- Counterexample to C12: the server answers each page with status 404 and
the body `Not Found`; `DownloadPage` returns that body with no error, and the
run ends normally with three sections whose body is `Not Found`.  Likewise,
when the connection breaks while the body of the page of A2 is read,
`DownloadPage` returns the part read, `tw`, with no error, and the run ends
normally with that part as the body of the section. -/
theorem DownloadPage_status_counterexample :
    notFoundEnv.http (pageAddress "9".toList "a".toList "a1".toList) none
      = HttpOutcome.response 404 "Not Found".toList ∧
    DownloadPage notFoundEnv (pageAddress "9".toList "a".toList "a1".toList)
      = Except.ok (some "Not Found".toList) ∧
    (DownloadAsEpub notFoundEnv "tok".toList "9".toList State.init).2
      = Outcome.returned "T".toList ∧
    (DownloadAsEpub notFoundEnv "tok".toList "9".toList State.init).1.e.sections
      = [{ body := "Not Found".toList, title := "A".toList },
          { body := "Not Found".toList, title := "A2".toList },
          { body := "Not Found".toList, title := "B".toList }] ∧
    cutOffEnv.http (pageAddress "9".toList "a".toList "a2".toList) none
      = HttpOutcome.brokenBody 200 "tw".toList ∧
    DownloadPage cutOffEnv (pageAddress "9".toList "a".toList "a2".toList)
      = Except.ok (some "tw".toList) ∧
    (DownloadAsEpub cutOffEnv "tok".toList "9".toList State.init).2
      = Outcome.returned "T".toList ∧
    (DownloadAsEpub cutOffEnv "tok".toList "9".toList State.init).1.e.sections
      = [{ body := "<h1>A</h1>one".toList, title := "A".toList },
          { body := "tw".toList, title := "A2".toList },
          { body := "three".toList, title := "B".toList }] := by
  refine ⟨by decide, rfl, by decide, by decide, by decide, rfl, by decide, by decide⟩

/-- C12, amended. `DownloadPage` returns a failure exactly when `client.Do`
reports a transport error, that is when no response arrives.  Once a response
has arrived the fetch is a success: a response, whatever its status, is
returned with its body, and a body that breaks off while it is read is returned
as far as it was read, the error of `ioutil.ReadAll` being dropped.  When
`client.Do` fails for a page of the traversal (the pages before it being
appended), `DownloadAsEpub` stops with exit status 1, and the archive holds the
sections of the pages before and no section for that page. -/
theorem DownloadPage_failure (env : Env) (token isbn : Str) (st : State) (summary : Summary)
    (toc : TOC) (e : Epub) (pre post : List (Str × Str × Str)) (chapterId pageId title : Str)
    (page : Page)
    (hmeta : fetchMetadata env isbn = Except.ok (summary, toc, e))
    (hcover : env.grabGet st.grabs (scratchPath env summary.CoverImage) summary.CoverImage = true)
    (hsec : ∀ ch ∈ toc.Chapters, ch.Sections ≠ [])
    (hpages : pagesOf toc.Chapters = pre ++ (chapterId, pageId, title) :: post)
    (hpre : (addPages env token isbn pre (afterCover env summary e st)).2 = none)
    (hget : GetPage env token isbn chapterId pageId = Except.ok page)
    (herr : env.http page.Data none = HttpOutcome.transportError) :
    (∀ url, DownloadPage env url = Except.ok none ↔ env.http url none = HttpOutcome.transportError) ∧
    (∀ url status body, env.http url none = HttpOutcome.response status body →
      DownloadPage env url = Except.ok (some body)) ∧
    (∀ url status read, env.http url none = HttpOutcome.brokenBody status read →
      DownloadPage env url = Except.ok (some read)) ∧
    DownloadPage env page.Data = Except.ok none ∧
    DownloadAsEpub env token isbn st
      = ((addPages env token isbn pre (afterCover env summary e st)).1,
          Outcome.stopped (Stop.exit 1)) ∧
    (DownloadAsEpub env token isbn st).1.e.sections.length = pre.length := by
  have h1 : DownloadPage env page.Data = Except.ok none := (DownloadPage_transport env _).2 herr
  have hfetch : fetchPage env token isbn chapterId pageId = Except.ok none := by
    unfold fetchPage
    rw [hget]
    exact h1
  have hpre1 : addPages env token isbn pre (afterCover env summary e st)
      = ((addPages env token isbn pre (afterCover env summary e st)).1, none) :=
    Prod.ext rfl hpre
  have hloop : chapterLoop env token isbn toc.Chapters (afterCover env summary e st)
      = ((addPages env token isbn pre (afterCover env summary e st)).1, some (Stop.exit 1)) := by
    rw [chapterLoop_eq_addPages env token isbn toc.Chapters _ hsec, hpages]
    exact addPages_stop env token isbn pre post (chapterId, pageId, title) _ _ _ hpre1
      (addPage_failed env token isbn chapterId pageId title _ hfetch)
  have hrun := DownloadAsEpub_stopped env token isbn st _ summary toc e _ hmeta hcover hloop
  refine ⟨DownloadPage_transport env, DownloadPage_response env, DownloadPage_broken env, h1,
    hrun, ?_⟩
  rw [hrun, addPages_sections env token isbn pre _ hpre]
  have hfresh := fetchMetadata_fresh env isbn summary toc e hmeta
  simp [afterCover, Epub.AddImage_sections, hfresh.1]

/-- Witness of C12 amended: `client.Do` fails for the page of section A2; the
run stops with exit status 1 and the archive holds the section of A1 only. -/
theorem DownloadPage_failure_witness :
    brokenEnv.http (pageAddress "9".toList "a".toList "a2".toList) none
      = HttpOutcome.transportError ∧
    (DownloadAsEpub brokenEnv "tok".toList "9".toList State.init).2
      = Outcome.stopped (Stop.exit 1) ∧
    (DownloadAsEpub brokenEnv "tok".toList "9".toList State.init).1.e.sections.length = 1 := by
  have h := DownloadPage_failure brokenEnv "tok".toList "9".toList State.init twoChapterSummary
    twoChapterTOC _ [("a".toList, "a1".toList, "A".toList)] [("b".toList, "b1".toList, "B".toList)]
    "a".toList "a2".toList "A2".toList
    { Data := pageAddress "9".toList "a".toList "a2".toList } rfl rfl (by decide) (by decide)
    (by decide) rfl (by decide)
  refine ⟨by decide, ?_, h.2.2.2.2.2⟩
  rw [h.2.2.2.2.1]

/-- Counterexample to C13: the table-of-contents request is answered by a body
that is no JSON; the decoder reports an error, the program drops it, and the
run ends normally with an archive without sections committed to `T.epub`.  When
the decoder reports an error and leaves the two chapters it could decode, the
run commits their three sections. -/
theorem DownloadAsEpub_bad_toc_counterexample :
    getBody badTocEnv "https://static.packt-cdn.com/products/9/toc".toList none
      = Except.ok "<html>502</html>".toList ∧
    (badTocEnv.unmarshalTOC "<html>502</html>".toList).2 = true ∧
    (DownloadAsEpub badTocEnv "tok".toList "9".toList State.init).2
      = Outcome.returned "T".toList ∧
    ((DownloadAsEpub badTocEnv "tok".toList "9".toList State.init).1.written.map Prod.fst)
      = ["T.epub".toList] ∧
    (DownloadAsEpub badTocEnv "tok".toList "9".toList State.init).1.e.sections = [] ∧
    (∀ body, (halfTocEnv.unmarshalTOC body).2 = true) ∧
    (DownloadAsEpub halfTocEnv "tok".toList "9".toList State.init).2
      = Outcome.returned "T".toList ∧
    ((DownloadAsEpub halfTocEnv "tok".toList "9".toList State.init).1.written.map
      fun w => (w.1, w.2.sections.length)) = [("T.epub".toList, 3)] := by
  refine ⟨rfl, rfl, by decide, by decide, by decide, fun _ => rfl, by decide, by decide⟩

/-- C13, amended. The error that `json.Unmarshal` reports for a body of the
summary, the author, the table of contents or a page address is dropped: the
run is the same whatever errors the decoders report, and goes on with the
values they leave.  In a run whose exchanges all end in a response, the
metadata phase, which comes before the archive is made, fails if and only if
the summary left by the decoder has no author (`summary.Authors[0]`), and the
run then stops with the state unchanged.  Otherwise, with the cover downloaded,
a section in every chapter the decoder left and the archive written, the run
ends normally and commits an archive that holds the sections of these
chapters: none when the table of contents was left without chapters. -/
theorem DownloadAsEpub_decode (env : Env) (token isbn : Str) (st : State) (summary : Summary)
    (hhttp : Responds env) (hs : GetSummary env isbn = Except.ok summary) :
    (∀ fs fa ft fp : Str → Bool,
      DownloadAsEpub
        { env with
          unmarshalSummary := fun body => ((env.unmarshalSummary body).1, fs body)
          unmarshalAuthor := fun body => ((env.unmarshalAuthor body).1, fa body)
          unmarshalTOC := fun body => ((env.unmarshalTOC body).1, ft body)
          unmarshalPage := fun body => ((env.unmarshalPage body).1, fp body) } token isbn st
        = DownloadAsEpub env token isbn st) ∧
    ((∃ stop, fetchMetadata env isbn = Except.error stop) ↔ summary.Authors = []) ∧
    (summary.Authors = [] → DownloadAsEpub env token isbn st = (st, Outcome.stopped Stop.panic)) ∧
    (∀ toc e, fetchMetadata env isbn = Except.ok (summary, toc, e) →
      (∀ ch ∈ toc.Chapters, ch.Sections ≠ []) →
      env.grabGet st.grabs (scratchPath env summary.CoverImage) summary.CoverImage = true →
      env.epubWrite (summary.Title ++ ".epub".toList) = true →
      (DownloadAsEpub env token isbn st).2 = Outcome.returned summary.Title ∧
      (DownloadAsEpub env token isbn st).1.e.sections
        = expectedSections env token isbn toc.Chapters ∧
      (DownloadAsEpub env token isbn st).1.written
        = st.written ++ [(summary.Title ++ ".epub".toList, (DownloadAsEpub env token isbn st).1.e)] ∧
      (toc.Chapters = [] → (DownloadAsEpub env token isbn st).1.e.sections = [])) := by
  refine ⟨?_, fetchMetadata_error_iff hhttp isbn summary hs, ?_, ?_⟩
  · intro fs fa ft fp
    apply DownloadAsEpub_congr
    · exact ⟨rfl, fun _ => rfl, fun _ => rfl, fun _ => rfl, fun _ => rfl, rfl, rfl⟩
    · exact fun _ => rfl
    · exact fun _ _ _ _ _ => rfl
  · intro hA
    unfold DownloadAsEpub fetchMetadata
    rw [hs]
    simp [hA]
  · intro toc e hmeta hsec hcover hwrite
    have h := DownloadAsEpub_committed env token isbn st summary toc e hmeta hcover hwrite hsec
      (fun ch _ s _ => fetchPage_responds hhttp token isbn ch.ID s.ID)
    refine ⟨h.1, h.2.1, h.2.2, fun hch => ?_⟩
    rw [h.2.1, hch]
    rfl

/-- Witness of C13 amended: the run of the counterexample, in which the decoder
of the table of contents reports an error and leaves a table without
chapters. -/
theorem DownloadAsEpub_decode_witness :
    Responds badTocEnv ∧
    GetSummary badTocEnv "9".toList = Except.ok twoChapterSummary ∧
    (DownloadAsEpub badTocEnv "tok".toList "9".toList State.init).2
      = Outcome.returned "T".toList ∧
    (DownloadAsEpub badTocEnv "tok".toList "9".toList State.init).1.e.sections = [] := by
  have hr : Responds badTocEnv := by
    intro url bearer
    cases bearer
    · exact ⟨200, _, rfl⟩
    · exact ⟨200, _, rfl⟩
  have h := (DownloadAsEpub_decode badTocEnv "tok".toList "9".toList State.init twoChapterSummary
    hr rfl).2.2.2 zeroTOC _ rfl (by decide) rfl rfl
  exact ⟨hr, rfl, h.1, h.2.2.2 rfl⟩

/-- Counterexample to C14: when the scratch directory is missing (it cannot be
opened), and when it cannot be listed, `cleanUpFiles` ends the process with
exit status 1. -/
theorem cleanUpFiles_exit_counterexample :
    absentOs.listing (okEnv.homeDir ++ "/.packt_tmp/".toList) = Listing.openError ∧
    cleanUpFiles okEnv absentOs noCalls = (noCalls, some (Stop.exit 1)) ∧
    unreadableOs.listing (okEnv.homeDir ++ "/.packt_tmp/".toList) = Listing.readdirError ∧
    cleanUpFiles okEnv unreadableOs noCalls = (noCalls, some (Stop.exit 1)) := by
  decide

/-- C14, amended. `cleanUpFiles` returns to its caller exactly when the scratch
directory can be opened and listed, and then it has only issued `os.Remove`
calls, whose errors are dropped; otherwise it ends the process with exit
status 1, having issued no call.  `removeTmpFiles` issues its `os.Remove` calls,
whose errors are dropped, and nothing else: it has no way to stop the process. -/
theorem cleanUpFiles_fatal (env : Env) (os : Os) (st : State) (log : Calls) :
    ((cleanUpFiles env os log).2 = none ↔
      ∃ files, os.listing (env.homeDir ++ "/.packt_tmp/".toList) = Listing.entries files) ∧
    ((cleanUpFiles env os log).2 = none ∨
      cleanUpFiles env os log = (log, some (Stop.exit 1))) ∧
    (cleanUpFiles env os log).1.mkdirs = log.mkdirs ∧
    removeTmpFiles st log = { removes := log.removes ++ st.tmpfiles, mkdirs := log.mkdirs } := by
  refine ⟨cleanUpFiles_returns_iff env os log, cleanUpFiles_exit env os log, ?_,
    removeTmpFiles_eq st log⟩
  unfold cleanUpFiles
  cases os.listing (env.homeDir ++ "/.packt_tmp/".toList) with
  | openError => rfl
  | readdirError => rfl
  | entries files => simp only [cleanUpFiles_loop]

/-- C15, the code at a scratch directory `/home/u/.packt_tmp` that holds the
regular files `a.jpeg`, `b.png`, `c.jpg`, `notes.txt` and an entry `d.png` that
is not a regular file: `os.Remove` is called with the bare names `b.png` and
`c.jpg`, which the system resolves against the working directory, not with
their paths in the scratch directory, and it is not called for `a.jpeg`.  For
every listing the calls are the names of the regular entries with the
extension `.png` or `.jpg`; the extension of a name is never `jpeg`. -/
theorem cleanUpFiles_stray :
    cleanUpFiles okEnv strayOs noCalls
      = ({ removes := ["b.png".toList, "c.jpg".toList], mkdirs := [] }, none) ∧
    filepathExt "a.jpeg".toList = ".jpeg".toList ∧
    "/home/u/.packt_tmp/b.png".toList ∉ (cleanUpFiles okEnv strayOs noCalls).1.removes ∧
    (∀ name, filepathExt name ≠ "jpeg".toList) ∧
    ∀ (env : Env) (args : List Str) (stat : Str → Bool) (files : List FileInfo) (log : Calls),
      cleanUpFiles env { args := args, stat := stat, listing := fun _ => Listing.entries files } log
        = ({ removes := log.removes ++ strayNames files, mkdirs := log.mkdirs }, none) := by
  refine ⟨by decide, by decide, by decide, filepathExt_ne_jpeg, ?_⟩
  intro env args stat files log
  exact cleanUpFiles_entries env _ log files rfl

/-- C16, the code at a start state without the scratch directory (`os.Stat` and
`os.Open` of it fail) and the arguments `packt epub 9781`: `main` ends with
exit status 1 in `cleanUpFiles`, before the scratch directory step, and no
`os.Mkdir` is issued.  The step itself issues `os.Mkdir` exactly when `os.Stat`
returns no error, that is when the directory is there already: with the
directory present `main` goes on after one `os.Mkdir` of it. -/
theorem mainStart_scratch_dir :
    absentOs.stat (okEnv.homeDir ++ "/.packt_tmp".toList) = false ∧
    mainStart okEnv absentOs noCalls = (noCalls, Startup.stopped (Stop.exit 1)) ∧
    ensureScratchDir okEnv absentOs noCalls = noCalls ∧
    strayOs.stat (okEnv.homeDir ++ "/.packt_tmp".toList) = true ∧
    (mainStart okEnv strayOs noCalls).2 = Startup.proceed ∧
    (mainStart okEnv strayOs noCalls).1.mkdirs = ["/home/u/.packt_tmp".toList] ∧
    ∀ (env : Env) (os : Os) (log : Calls),
      (ensureScratchDir env os log).mkdirs
        = log.mkdirs ++ (if os.stat (env.homeDir ++ "/.packt_tmp".toList) = true
            then [env.homeDir ++ "/.packt_tmp".toList] else []) := by
  refine ⟨rfl, by decide, by decide, by decide, by decide, by decide, ?_⟩
  intro env os log
  unfold ensureScratchDir
  split <;> simp

/-- Counterexample to C17: the summary has an author, the third chapter of the
table of contents has no section, and the download of the cover fails.  The run
ends with exit status 1 at the cover, before the chapter loop: it meets no
index failure although a chapter has no section. -/
theorem DownloadAsEpub_index_counterexample :
    GetSummary coverFailEnv "9".toList = Except.ok twoChapterSummary ∧
    GetToc coverFailEnv "9".toList = Except.ok emptyChapterTOC ∧
    twoChapterSummary.Authors ≠ [] ∧
    (∃ ch ∈ emptyChapterTOC.Chapters, ch.Sections = []) ∧
    (DownloadAsEpub coverFailEnv "tok".toList "9".toList State.init).2
      = Outcome.stopped (Stop.exit 1) ∧
    (DownloadAsEpub coverFailEnv "tok".toList "9".toList State.init).2
      ≠ Outcome.stopped Stop.panic ∧
    ¬ ((DownloadAsEpub coverFailEnv "tok".toList "9".toList State.init).2
        ≠ Outcome.stopped Stop.panic ↔
      twoChapterSummary.Authors ≠ [] ∧ ∀ ch ∈ emptyChapterTOC.Chapters, ch.Sections ≠ []) := by
  refine ⟨rfl, rfl, by decide, by decide, by decide, by decide, by decide⟩

/-- C17, amended. `summary.Authors[0]` and `chapters.Sections[0]` are read
without a check, as an indexing that may fail.  In a run whose HTTP exchanges
all end in a response, so that no fetcher panics (`getBody` and `DownloadPage`
return) and a panic can only come from an index, and whose cover is downloaded, the run meets no index failure if and
only if the summary has at least one author and every chapter of the table of
contents has at least one section.  Without an author the run fails before the
archive is made; a chapter without sections, once the chapters before it have
been gone through without a stop, makes the loop fail at that chapter, with the
state these chapters left and nothing appended for it. -/
theorem DownloadAsEpub_index (env : Env) (token isbn : Str) (st : State) (summary : Summary)
    (toc : TOC) (hhttp : Responds env)
    (hcover : env.grabGet st.grabs (scratchPath env summary.CoverImage) summary.CoverImage = true)
    (hs : GetSummary env isbn = Except.ok summary) (ht : GetToc env isbn = Except.ok toc) :
    ((DownloadAsEpub env token isbn st).2 ≠ Outcome.stopped Stop.panic ↔
      summary.Authors ≠ [] ∧ ∀ ch ∈ toc.Chapters, ch.Sections ≠ []) ∧
    (∀ url bearer, ∃ body, getBody env url bearer = Except.ok body) ∧
    (∀ url, ∃ page, DownloadPage env url = Except.ok (some page)) ∧
    (summary.Authors = [] → DownloadAsEpub env token isbn st = (st, Outcome.stopped Stop.panic)) ∧
    ∀ (pre post : List Chapter) (ch : Chapter) (st0 : State), ch.Sections = [] →
      (chapterLoop env token isbn pre st0).2 = none →
      chapterLoop env token isbn (pre ++ ch :: post) st0
        = ((chapterLoop env token isbn pre st0).1, some Stop.panic) := by
  refine ⟨DownloadAsEpub_panic_iff hhttp token isbn st summary toc hcover hs ht,
    fun url bearer => getBody_responds hhttp url bearer, ?_, ?_, ?_⟩
  · intro url
    obtain ⟨status, page, hp⟩ := hhttp url none
    exact ⟨page, DownloadPage_response env url status page hp⟩
  · intro hA
    unfold DownloadAsEpub fetchMetadata
    rw [hs]
    simp [hA]
  · intro pre post ch st0 hS hpre
    rw [chapterLoop_append]
    rcases h1 : chapterLoop env token isbn pre st0 with ⟨st1, _ | stop⟩
    · simp [chapterLoop, hS]
    · rw [h1] at hpre; cases hpre

/-- Witness of C17 amended: with one author and sections in both chapters the run meets
no index failure; with a third chapter without sections it ends in a panic at
that chapter, the three sections of the first two chapters appended. -/
theorem DownloadAsEpub_index_witness :
    Responds twoChapterEnv ∧
    (DownloadAsEpub twoChapterEnv "tok".toList "9".toList State.init).2
      ≠ Outcome.stopped Stop.panic ∧
    Responds emptyChapterEnv ∧
    (DownloadAsEpub emptyChapterEnv "tok".toList "9".toList State.init).2
      = Outcome.stopped Stop.panic ∧
    (DownloadAsEpub emptyChapterEnv "tok".toList "9".toList State.init).1.e.sections.length = 3 := by
  have hr : Responds twoChapterEnv := by
    intro url bearer
    cases bearer
    · exact ⟨200, _, rfl⟩
    · exact ⟨200, _, rfl⟩
  have hr2 : Responds emptyChapterEnv := by
    intro url bearer
    cases bearer
    · exact ⟨200, _, rfl⟩
    · exact ⟨200, _, rfl⟩
  have h := DownloadAsEpub_index twoChapterEnv "tok".toList "9".toList State.init
    twoChapterSummary twoChapterTOC hr rfl rfl rfl
  have h2 := DownloadAsEpub_index emptyChapterEnv "tok".toList "9".toList State.init
    twoChapterSummary emptyChapterTOC hr2 rfl rfl rfl
  refine ⟨hr, h.1.2 ⟨by decide, by decide⟩, hr2, ?_, by decide⟩
  by_contra hne
  exact absurd ((h2.1.1 hne).2 _ (by decide : (⟨"c".toList, "C".toList, []⟩ : Chapter) ∈
    emptyChapterTOC.Chapters)) (by decide)

/-- C18. The prefaces and the appendices of the table of contents have no part
in a run: with another table of contents that has the same chapters, whatever
its prefaces and appendices, and with any other answers to requests for pages
that are not sections of these chapters, `DownloadAsEpub` ends in the same state
(the same sections, images and scratch files) and in the same way.  The pages
the loops fetch and append are those of the chapters (`pagesOf`), in order. -/
theorem DownloadAsEpub_front_matter (env : Env) (token isbn : Str) (st : State)
    (decode : Str → TOC × Bool) (answer : Str → Option Str → HttpOutcome)
    (hT : ∀ body, (decode body).1.Chapters = (env.unmarshalTOC body).1.Chapters)
    (h0 : ∀ url, answer url none = env.http url none)
    (hreq : ∀ body, ∀ ch ∈ (env.unmarshalTOC body).1.Chapters, ∀ s ∈ ch.Sections,
      answer (pageAddress isbn ch.ID s.ID) (some token)
        = env.http (pageAddress isbn ch.ID s.ID) (some token)) :
    DownloadAsEpub { env with unmarshalTOC := decode, http := answer } token isbn st
      = DownloadAsEpub env token isbn st ∧
    ∀ (chapters : List Chapter) (st0 : State), (∀ ch ∈ chapters, ch.Sections ≠ []) →
      chapterLoop env token isbn chapters st0
        = addPages env token isbn (pagesOf chapters) st0 := by
  refine ⟨?_, fun chapters st0 h => chapterLoop_eq_addPages env token isbn chapters st0 h⟩
  apply DownloadAsEpub_congr
  · exact ⟨rfl, h0, fun _ => rfl, fun _ => rfl, fun _ => rfl, rfl, rfl⟩
  · exact hT
  · exact hreq

/-- Witness of C18: the table of contents of the two chapters with a preface
and an appendix added, whose pages cannot be fetched, gives the run of the table
of contents without them. -/
theorem DownloadAsEpub_front_matter_witness :
    frontMatterTOC.Chapters = twoChapterTOC.Chapters ∧
    frontMatterTOC.Prefaces ≠ twoChapterTOC.Prefaces ∧
    frontMatterTOC.Appendices ≠ twoChapterTOC.Appendices ∧
    frontMatterHttp (pageAddress "9".toList "p".toList "p1".toList) (some "tok".toList)
      = HttpOutcome.transportError ∧
    DownloadAsEpub
        { twoChapterEnv with
          unmarshalTOC := fun _ => (frontMatterTOC, false), http := frontMatterHttp }
        "tok".toList "9".toList State.init
      = DownloadAsEpub twoChapterEnv "tok".toList "9".toList State.init := by
  refine ⟨rfl, by decide, by decide, by decide, ?_⟩
  refine (DownloadAsEpub_front_matter twoChapterEnv "tok".toList "9".toList State.init
    (fun _ => (frontMatterTOC, false)) frontMatterHttp (fun _ => rfl) (fun _ => rfl) ?_).1
  intro body ch hch s hs
  have hch' : ch ∈ twoChapterTOC.Chapters := hch
  simp only [twoChapterTOC, List.mem_cons, List.mem_singleton, List.not_mem_nil, or_false] at hch'
  rcases hch' with rfl | rfl
  · simp only [List.mem_cons, List.mem_singleton, List.not_mem_nil, or_false] at hs
    rcases hs with rfl | rfl <;> decide
  · simp only [List.mem_cons, List.mem_singleton, List.not_mem_nil, or_false] at hs
    rcases hs with rfl
    decide

/-- C19. For every file name `F` of name characters (letters, digits, `.`, `-`,
`_`), `fixImgInternalSrc` turns the tags `<img src="F"/><br/>`, which are
closed already, into `<img src="F"//><br//>`; a second pass changes the result
again, so that the rewriter is not idempotent. -/
theorem fixImgInternalSrc_not_idempotent (F isbn : Str) (hF : ∀ c ∈ F, nameChar c = true) :
    (fixImgInternalSrc ("<img src=\"".toList ++ F ++ "\"/><br/>".toList) isbn).1
      = "<img src=\"".toList ++ F ++ "\"//><br//>".toList ∧
    (fixImgInternalSrc
        (fixImgInternalSrc ("<img src=\"".toList ++ F ++ "\"/><br/>".toList) isbn).1 isbn).1
      ≠ (fixImgInternalSrc ("<img src=\"".toList ++ F ++ "\"/><br/>".toList) isbn).1 := by
  have e1 : "<img src=\"".toList ++ F ++ "\"/><br/>".toList = closedTags F "/".toList := by
    simp [closedTags]
  have e2 : "<img src=\"".toList ++ F ++ "\"//><br//>".toList
      = closedTags F ("/".toList ++ "/".toList) := by
    simp [closedTags]
  rw [e1, e2, fixImgInternalSrc_closedTags F _ isbn hF (by decide)]
  refine ⟨rfl, ?_⟩
  simp only
  rw [fixImgInternalSrc_closedTags F _ isbn hF (by decide)]
  exact closedTags_ne F _

/-- Witness of C19: the file name `F.png`. -/
theorem fixImgInternalSrc_not_idempotent_witness :
    (∀ c ∈ "F.png".toList, nameChar c = true) ∧
    (fixImgInternalSrc "<img src=\"F.png\"/><br/>".toList []).1
      = "<img src=\"F.png\"//><br//>".toList ∧
    (fixImgInternalSrc "<img src=\"F.png\"//><br//>".toList []).1
      = "<img src=\"F.png\"///><br///>".toList := by
  have h := fixImgInternalSrc_not_idempotent "F.png".toList [] (by decide)
  exact ⟨by decide, h.1, by decide⟩

end GoPacktpub
